import Mathlib

/-!
# Verification of the Figma-Context-MCP simplification and resolution pipeline

This file gives a shallow embedding, in Lean 4, of the core algorithms of the
Figma-Context-MCP repository (the design-tree simplification and semantic
resolution pipeline) and proves or refutes the frozen specification claims
about them.

Conventions of the embedding:

* JavaScript values that flow through `JSON.stringify`-style structural
  comparison are modelled by the inductive type `Json` below.  Arrays and
  objects are encoded with explicit cons cells (`arrCons`/`objCons`) so that
  the type is a plain (non-nested) inductive and decidable equality can be
  derived.  `JSON.stringify` equality of JSON-representable values is exactly
  structural (order-sensitive) equality of this type, so the source's
  `JSON.stringify(a) === JSON.stringify(b)` test is modelled by `a = b`.
* JavaScript truthiness of such a value is modelled by `jsTruthy`.
* Strings are Lean `String`s; the handful of JavaScript string operations used
  by the source (`startsWith`, `endsWith`, `slice`, one-occurrence `replace`)
  are re-implemented over character lists in the `Js` namespace.
* Asynchronous functions are modelled as pure functions of their inputs plus
  the state/environment they consult; the one place the source *fails* to
  await a promise is modelled explicitly (see `Extractors.RName`).
-/

set_option linter.unusedVariables false

/-! ## JavaScript string primitives -/

namespace Js

/-- `List`-level test that `pat` occurs as a contiguous sublist of `s`. -/
def containsL (pat : List Char) : List Char → Bool
  | [] => pat.isEmpty
  | c :: t => pat.isPrefixOf (c :: t) || containsL pat t

/-- Replace the first occurrence of `pat` (non-empty) in `s` by nothing,
modelling the JavaScript `s.replace(pat, "")` for a string pattern, which
replaces only the first occurrence. -/
def replaceFirstL (pat : List Char) : List Char → List Char
  | [] => []
  | c :: t =>
    if pat.isPrefixOf (c :: t) then (c :: t).drop pat.length
    else c :: replaceFirstL pat t

/-- JavaScript `s.startsWith(p)`. -/
def startsWith (s p : String) : Bool := p.toList.isPrefixOf s.toList

/-- JavaScript `s.endsWith(p)`. -/
def endsWith (s p : String) : Bool := p.toList.isSuffixOf s.toList

/-- JavaScript `s.replace(pat, "")` for a plain-string pattern: removes the
first occurrence of `pat`, if any. -/
def replaceFirst (s pat : String) : String := ⟨replaceFirstL pat.toList s.toList⟩

/-- JavaScript substring containment (`s.includes(pat)`). -/
def includes (s pat : String) : Bool := containsL pat.toList s.toList

/-- Drop the last `n` elements of a list. -/
def dropLastN (n : Nat) (l : List Char) : List Char := l.take (l.length - n)

/-- JavaScript `s.slice(a, -b)` for `0 ≤ a` and negative end index `-b`:
drop `a` characters at the front and `b` at the back (the source only uses
`slice(9, -1)`). -/
def sliceDropEnds (s : String) (a b : Nat) : String :=
  ⟨dropLastN b (s.toList.drop a)⟩

/-- JavaScript string truthiness: the empty string is falsy. -/
def truthyStr (s : String) : Bool := !(s == "")

/-- `List`-level split on a single separator character (JavaScript
`s.split(sep)` semantics: `n` separators yield `n+1` pieces, empty pieces
included). -/
def splitOnCharL (sep : Char) : List Char → List (List Char)
  | [] => [[]]
  | c :: t =>
    if c = sep then [] :: splitOnCharL sep t
    else
      match splitOnCharL sep t with
      | h :: r => (c :: h) :: r
      | [] => [[c]]

/-- JavaScript `s.split(sep)` for a single-character separator. -/
def splitOnChar (sep : Char) (s : String) : List String :=
  (splitOnCharL sep s.toList).map (fun l => (⟨l⟩ : String))

theorem replaceFirstL_of_not_contains (pat : List Char) (s : List Char)
    (h : containsL pat s = false) : replaceFirstL pat s = s := by
  induction s with
  | nil => rfl
  | cons c t ih =>
    unfold containsL at h
    simp only [Bool.or_eq_false_iff] at h
    unfold replaceFirstL
    simp only [h.1, if_neg, Bool.false_eq_true, ite_false]
    rw [ih h.2]

end Js

/-! ## JSON values

JavaScript values handled by the pipeline (style payloads, design documents,
fetched bodies).  Arrays and objects are encoded with explicit cons cells so
that the inductive is non-nested and `DecidableEq` can be derived; an array
`[a, b]` is `arrCons a (arrCons b arrNil)` and an object with fields
`k₁ : v₁, k₂ : v₂` is `objCons k₁ v₁ (objCons k₂ v₂ objNil)`.  Structural
equality of `Json` coincides with `JSON.stringify` equality of the
corresponding JavaScript values (stringification is order-sensitive and
injective on the JSON-representable domain). -/

inductive Json where
  | null : Json
  | bool (b : Bool) : Json
  | num (n : Int) : Json
  | str (s : String) : Json
  | arrNil : Json
  | arrCons (hd tl : Json) : Json
  | objNil : Json
  | objCons (key : String) (val rest : Json) : Json
  deriving DecidableEq, Repr

namespace Json

/-- `typeof v === "object"` (for non-null values): arrays and objects. -/
def isObjLike : Json → Bool
  | .arrNil | .arrCons _ _ | .objNil | .objCons _ _ _ => true
  | _ => false

/-- `Array.isArray(v)`. -/
def isArray : Json → Bool
  | .arrNil | .arrCons _ _ => true
  | _ => false

/-- Is this a (non-array) object? -/
def isObj : Json → Bool
  | .objNil | .objCons _ _ _ => true
  | _ => false

/-- JavaScript truthiness. `null`, `false`, `0` and `""` are falsy; every
array or object (even empty) is truthy. -/
def jsTruthy : Json → Bool
  | .null => false
  | .bool b => b
  | .num n => !(n == 0)
  | .str s => Js.truthyStr s
  | _ => true

/-- Property access `v[k]`: the first field named `k` of an object.
Returns `none` (i.e. `undefined`) on arrays, atoms and missing keys. -/
def getField : Json → String → Option Json
  | .objCons k v rest, key => if k == key then some v else getField rest key
  | _, _ => none

/-- `'k' in v` for objects (arrays and atoms have no string-keyed fields in
the documents handled here). -/
def hasField (j : Json) (key : String) : Bool := (j.getField key).isSome

/-- Assignment `v[k] = x` on an object: overwrites the first field named `k`
in place, or appends a new field at the end (JavaScript property-creation
order).  Atoms and arrays are returned unchanged. -/
def setField : Json → String → Json → Json
  | .objCons k v rest, key, x =>
    if k == key then .objCons k x rest else .objCons k v (setField rest key x)
  | .objNil, key, x => .objCons key x .objNil
  | j, _, _ => j

/-- The elements of an array encoded as a `List`. -/
def elems : Json → List Json
  | .arrCons hd tl => hd :: elems tl
  | _ => []

/-- Rebuild an array from a `List` of elements. -/
def ofElems : List Json → Json
  | [] => .arrNil
  | x :: xs => .arrCons x (ofElems xs)

/-- The fields of an object encoded as a `List` of key-value pairs. -/
def fields : Json → List (String × Json)
  | .objCons k v rest => (k, v) :: fields rest
  | _ => []

/-- Rebuild an object from a `List` of fields. -/
def ofFields : List (String × Json) → Json
  | [] => .objNil
  | (k, v) :: kvs => .objCons k v (ofFields kvs)

theorem elems_ofElems (l : List Json) : elems (ofElems l) = l := by
  induction l with
  | nil => rfl
  | cons x xs ih => simp [ofElems, elems, ih]

theorem fields_ofFields (l : List (String × Json)) : fields (ofFields l) = l := by
  induction l with
  | nil => rfl
  | cons kv kvs ih => simp [ofFields, fields, ih]

end Json

export Json (jsTruthy)

/-! ## C2 — the value store (`findOrCreateVar`, extractors.ts)

Source (`src/extractors/*`, given here as `src/unnamed/part_002`):

```
function findOrCreateVar(globalVars: any, value: any, prefix: string): string {
  const [existingVarId] =
    Object.entries(globalVars.styles).find(
      ([_, existingValue]) => JSON.stringify(existingValue) === JSON.stringify(value),
    ) ?? [];
  if (existingVarId) return existingVarId;
  const varId = generateVarId(prefix);
  globalVars.styles[varId] = value;
  return varId;
}
```

`generateVarId` lives in `src/utils/common.ts`, which is not part of the
given sources; per the specification it mints keys
`{category-prefix}_{sequence}` with a monotonic per-store sequence number.
We model a key as the pair (prefix, sequence number) — rendered as
`prefix ++ "_" ++ toString n`; the rendering is injective for the prefixes
the extractors use (`layout`, `style`, `fill`, `stroke`, `effect`, none of
which contain an underscore), so pair equality models key-string equality. -/

namespace Extractors

/-- A value-store key: category prefix together with the minted sequence
number (see the module comment on key rendering). -/
abbrev VarId := String × Nat

/-- Display form of a key, `prefix_N`. -/
def renderVarId (v : VarId) : String := v.1 ++ "_" ++ toString v.2

/-- The `globalVars` object threaded through the extractors: the style store
plus the monotonic sequence counter of `generateVarId`.
`generateVarId` is modelled from the spec: `src/utils/common.ts` is not in
the given sources; §4.1 states keys are `category_N` with `N` monotonic per
store instance. -/
structure GlobalVars where
  styles : List (VarId × Json)
  counter : Nat
  deriving DecidableEq, Repr

/-- `findOrCreateVar`: linear scan for a deep-equal payload; return the
existing key on a hit, else mint `prefix_counter` and append. -/
def findOrCreateVar (g : GlobalVars) (value : Json) (px : String) :
    VarId × GlobalVars :=
  match g.styles.find? (fun kv => kv.2 == value) with
  | some kv => (kv.1, g)
  | none =>
    let varId : VarId := (px, g.counter)
    (varId, ⟨g.styles ++ [(varId, value)], g.counter + 1⟩)

/-- Store well-formedness: keys are minted (hence below the counter), keys
are distinct, and stored payloads are pairwise distinct. -/
structure WF (g : GlobalVars) : Prop where
  keysLt : ∀ kv ∈ g.styles, kv.1.2 < g.counter
  keysNodup : (g.styles.map Prod.fst).Nodup
  valsNodup : g.styles.Pairwise (fun a b => a.2 ≠ b.2)

theorem find?_beq_eq {l : List (VarId × Json)} {v : Json} {kv : VarId × Json}
    (h : l.find? (fun kv => kv.2 == v) = some kv) : kv.2 = v ∧ kv ∈ l := by
  have h₁ := List.find?_some h
  have h₂ := List.mem_of_find?_eq_some h
  exact ⟨by simpa using h₁, h₂⟩

theorem findOrCreateVar_WF (g : GlobalVars) (v : Json) (px : String)
    (hg : WF g) : WF (findOrCreateVar g v px).2 := by
  unfold findOrCreateVar
  cases hfind : g.styles.find? (fun kv => kv.2 == v) with
  | some kv => exact hg
  | none =>
    have hnone : ∀ kv ∈ g.styles, kv.2 ≠ v := by
      intro kv hkv
      have := List.find?_eq_none.mp hfind kv hkv
      simpa using this
    refine ⟨?_, ?_, ?_⟩
    · intro kv hkv
      simp only [List.mem_append, List.mem_singleton] at hkv
      rcases hkv with h | h
      · exact Nat.lt_succ_of_lt (hg.keysLt kv h)
      · subst h; exact Nat.lt_succ_self _
    · rw [List.map_append, List.nodup_append]
      refine ⟨hg.keysNodup, List.nodup_singleton _, ?_⟩
      intro k hk hk'
      simp only [List.map_cons, List.map_nil, List.mem_singleton] at hk'
      rcases List.mem_map.mp hk with ⟨kv, hkv, hkveq⟩
      have hlt := hg.keysLt kv hkv
      rw [hkveq, hk'] at hlt
      simp at hlt
    · rw [List.pairwise_append]
      refine ⟨hg.valsNodup, by simp, ?_⟩
      intro a ha b hb
      simp only [List.mem_singleton] at hb
      subst hb
      exact hnone a ha

/-- In a store with pairwise-distinct payloads, two members sharing a payload
are the same entry. -/
theorem payload_unique {l : List (VarId × Json)}
    (h : l.Pairwise (fun a b => a.2 ≠ b.2)) {a b : VarId × Json}
    (ha : a ∈ l) (hb : b ∈ l) (hab : a.2 = b.2) : a = b := by
  induction l with
  | nil => cases ha
  | cons x t ih =>
    rw [List.pairwise_cons] at h
    rcases List.mem_cons.mp ha with ha1 | ha1
    · rcases List.mem_cons.mp hb with hb1 | hb1
      · rw [ha1, hb1]
      · subst ha1
        exact absurd hab (h.1 b hb1)
    · rcases List.mem_cons.mp hb with hb1 | hb1
      · subst hb1
        exact absurd hab.symm (h.1 a ha1)
      · exact ih h.2 ha1 hb1

/-- C2, part "interning an already-stored payload returns the existing key
and inserts nothing". -/
theorem findOrCreateVar_hit (g : GlobalVars) (k : VarId) (v : Json)
    (px : String) (hg : WF g) (hmem : (k, v) ∈ g.styles) :
    findOrCreateVar g v px = (k, g) := by
  unfold findOrCreateVar
  cases hfind : g.styles.find? (fun kv => kv.2 == v) with
  | none =>
    exfalso
    have := List.find?_eq_none.mp hfind (k, v) hmem
    simp at this
  | some kv =>
    obtain ⟨hkv2, hkvmem⟩ := find?_beq_eq hfind
    have : kv = (k, v) := payload_unique hg.valsNodup hkvmem hmem (by simp [hkv2])
    rw [this]

/-- After interning, the payload is stored under the returned key. -/
theorem findOrCreateVar_mem (g : GlobalVars) (v : Json) (px : String) :
    ((findOrCreateVar g v px).1, v) ∈ (findOrCreateVar g v px).2.styles := by
  unfold findOrCreateVar
  cases hfind : g.styles.find? (fun kv => kv.2 == v) with
  | some kv =>
    obtain ⟨hkv2, hkvmem⟩ := find?_beq_eq hfind
    simpa [← hkv2] using hkvmem
  | none => simp

/-- Keys returned by `findOrCreateVar` are keys of the resulting store, hence
below its counter. -/
theorem findOrCreateVar_key_lt (g : GlobalVars) (v : Json) (px : String)
    (hg : WF g) :
    (findOrCreateVar g v px).1.2 < (findOrCreateVar g v px).2.counter :=
  (findOrCreateVar_WF g v px hg).keysLt _ (findOrCreateVar_mem g v px)

/-- A store with pairwise-distinct payloads holds at most one entry equal to
any given payload. -/
theorem filter_payload_le_one {l : List (VarId × Json)}
    (h : l.Pairwise (fun a b => a.2 ≠ b.2)) (v : Json) :
    (l.filter (fun kv => kv.2 == v)).length ≤ 1 := by
  induction l with
  | nil => simp
  | cons x t ih =>
    rw [List.pairwise_cons] at h
    by_cases hx : x.2 = v
    · have hnil : t.filter (fun kv => kv.2 == v) = [] := by
        rw [List.filter_eq_nil_iff]
        intro kv hkv
        have := h.1 kv hkv
        simp only [beq_iff_eq]
        rw [hx] at this
        exact fun hc => this hc.symm
      simp [List.filter_cons, hx, hnil]
    · simp only [List.filter_cons, beq_iff_eq, hx, ite_false, if_neg]
      exact ih h.2

/-- C2: interning a payload structurally equal to an already-stored payload
returns the existing key and inserts nothing (so the same payload interned
twice yields the identical key and an unchanged store); interning two
payloads that differ in at least one field yields distinct keys; and every
payload is present in the store at most once. -/
theorem C2_value_store_interning (g : GlobalVars) (v₁ v₂ : Json)
    (p₁ p₂ : String) (hg : WF g) :
    (findOrCreateVar (findOrCreateVar g v₁ p₁).2 v₁ p₂
        = ((findOrCreateVar g v₁ p₁).1, (findOrCreateVar g v₁ p₁).2))
    ∧ (v₁ ≠ v₂ →
        (findOrCreateVar (findOrCreateVar g v₁ p₁).2 v₂ p₂).1
          ≠ (findOrCreateVar g v₁ p₁).1)
    ∧ (∀ v : Json,
        ((findOrCreateVar g v₁ p₁).2.styles.filter (fun kv => kv.2 == v)).length
          ≤ 1) := by
  set r₁ := findOrCreateVar g v₁ p₁ with hr₁
  have hwf₁ : WF r₁.2 := findOrCreateVar_WF g v₁ p₁ hg
  have hmem₁ : (r₁.1, v₁) ∈ r₁.2.styles := findOrCreateVar_mem g v₁ p₁
  refine ⟨findOrCreateVar_hit r₁.2 r₁.1 v₁ p₂ hwf₁ hmem₁, ?_, ?_⟩
  · intro hne
    unfold findOrCreateVar
    cases hfind : r₁.2.styles.find? (fun kv => kv.2 == v₂) with
    | some kv =>
      obtain ⟨hkv2, hkvmem⟩ := find?_beq_eq hfind
      simp only
      intro hkey
      have : kv = (r₁.1, v₁) :=
        List.inj_on_of_nodup_map hwf₁.keysNodup hkvmem hmem₁ (by simpa using hkey)
      rw [this] at hkv2
      exact hne hkv2
    | none =>
      simp only
      intro hkey
      have hlt : r₁.1.2 < r₁.2.counter := hwf₁.keysLt _ hmem₁
      rw [← hkey] at hlt
      simp at hlt
  · intro v
    exact filter_payload_le_one hwf₁.valsNodup v

/-- Witness for C2 at a concrete store: the empty store is well-formed;
interning `"a"` twice yields the same key, and interning `null` after `"a"`
yields a different key. -/
theorem C2_value_store_interning_witness :
    WF ⟨[], 0⟩
    ∧ (findOrCreateVar (findOrCreateVar ⟨[], 0⟩ (.str "a") "fill").2
          (.str "a") "fill"
        = ((findOrCreateVar ⟨[], 0⟩ (.str "a") "fill").1,
           (findOrCreateVar ⟨[], 0⟩ (.str "a") "fill").2))
    ∧ (findOrCreateVar (findOrCreateVar ⟨[], 0⟩ (.str "a") "fill").2
          Json.null "fill").1
        ≠ (findOrCreateVar ⟨[], 0⟩ (.str "a") "fill").1 := by
  have hwf : WF ⟨[], 0⟩ := ⟨by simp, by simp, by simp⟩
  have h := C2_value_store_interning ⟨[], 0⟩ (.str "a") Json.null "fill" "fill" hwf
  exact ⟨hwf, h.1, h.2.1 (by decide)⟩

end Extractors

/-! ## Variable mappings (`variable-mappings.ts` and its design-token variant)

Two implementations of `resolveVariableFromMapping` exist in the sources:

* `src/src/utils/variable-mappings.ts` (namespace `VariableMappingsTs`):
  takes optional inline custom mappings and matches an entry by either the
  namespaced (`VariableID:…`) or the bare form of the stored id;
* the design-token variant (`src/unnamed/part_007` / `part_008`, namespace
  `DesignTokens`): matches by the namespaced form only.

Both are `async` and consult the module-level mapping cache via
`getVariableMappings()`; the cache contents are passed here as the explicit
`allMappings` argument. -/

/-- A variable-mapping entry `{id, name, description?}`. -/
structure VariableMapping where
  id : String
  name : String
  description : Option String
  deriving DecidableEq, Repr

/-- The `Variable[…]` fallback rendering of an identifier (the tail of
`formatVariableReference`): strip one `VariableID:` prefix occurrence, then
`Variable[a:b]` for a two-part id, else `Variable[id]`. -/
def formatVarIdFallback (variableId : String) : String :=
  let cleanId := Js.replaceFirst variableId "VariableID:"
  let parts := Js.splitOnChar ':' cleanId
  if parts.length = 2 then
    "Variable[" ++ parts.getD 0 "" ++ ":" ++ parts.getD 1 "" ++ "]"
  else
    "Variable[" ++ cleanId ++ "]"

/-- `formatVariableReference(variableId, resolvedName?)`: the resolved name
when truthy, else `formatVarIdFallback` (identical in all three source
copies). -/
def formatVariableReference (variableId : String) (resolvedName : Option String) :
    String :=
  match resolvedName with
  | some s => if Js.truthyStr s then s else formatVarIdFallback variableId
  | none => formatVarIdFallback variableId

namespace VariableMappingsTs

/-- `resolveVariableFromMapping(variableId, customMappings?)` of
`variable-mappings.ts`: match custom mappings first, then the cached
mappings, by either the namespaced or the bare id form. -/
def resolveVariableFromMapping (variableId : String)
    (customMappings : Option (List VariableMapping))
    (allMappings : List VariableMapping) : Option String :=
  let cleanId := Js.replaceFirst variableId "VariableID:"
  let fullId :=
    if Js.startsWith variableId "VariableID:" then variableId
    else "VariableID:" ++ variableId
  let hit := fun (ms : List VariableMapping) =>
    ms.find? (fun m => m.id == fullId || m.id == cleanId)
  match customMappings with
  | some cms =>
    match hit cms with
    | some m => some m.name
    | none => (hit allMappings).map (fun m => m.name)
  | none => (hit allMappings).map (fun m => m.name)

end VariableMappingsTs

namespace DesignTokens

/-- `resolveVariableFromMapping(variableId)` of the design-token variant:
normalize to the namespaced form, then match by exact id. -/
def resolveVariableFromMapping (variableId : String)
    (allMappings : List VariableMapping) : Option String :=
  let fullId :=
    if Js.startsWith variableId "VariableID:" then variableId
    else "VariableID:" ++ variableId
  (allMappings.find? (fun m => m.id == fullId)).map (fun m => m.name)

end DesignTokens

/-! ### C9 — identifier normalization -/

theorem strMk_toList (x : String) : (⟨x.toList⟩ : String) = x := by
  cases x
  rfl

theorem isPrefixOf_append_self (l t : List Char) : l.isPrefixOf (l ++ t) = true := by
  induction l with
  | nil => simp
  | cons c cs ih => simp [List.isPrefixOf, ih]

theorem startsWith_append (p x : String) : Js.startsWith (p ++ x) p = true := by
  unfold Js.startsWith
  have : (p ++ x).toList = p.toList ++ x.toList := String.data_append p x
  rw [this]
  exact isPrefixOf_append_self _ _

theorem replaceFirstL_append_self (pat t : List Char) (h : pat ≠ []) :
    Js.replaceFirstL pat (pat ++ t) = t := by
  match pat with
  | [] => exact absurd rfl h
  | c :: cs =>
    unfold Js.replaceFirstL
    rw [show ((c :: cs) ++ t) = c :: (cs ++ t) by simp]
    simp only [isPrefixOf_append_self (c :: cs) t, ite_true, if_pos]
    simp [List.drop_left]

theorem replaceFirst_pfx (p x : String) (h : p.toList ≠ []) :
    Js.replaceFirst (p ++ x) p = x := by
  unfold Js.replaceFirst
  have hd : (p ++ x).toList = p.toList ++ x.toList := String.data_append p x
  rw [hd, replaceFirstL_append_self _ _ h, strMk_toList]

theorem containsL_of_isPrefixOf {pat s : List Char}
    (h : pat.isPrefixOf s = true) : Js.containsL pat s = true := by
  cases s with
  | nil =>
    cases pat with
    | nil => rfl
    | cons c cs => simp [List.isPrefixOf] at h
  | cons c t => simp [Js.containsL, h]

/-- A `find?`-lookup whose matches all carry the name `n` and which has at
least one match returns `n`. -/
theorem find?_map_name {T : List VariableMapping} {p : VariableMapping → Bool}
    {n : String} (hex : ∃ m ∈ T, p m = true)
    (huniq : ∀ m ∈ T, p m = true → m.name = n) :
    (T.find? p).map (fun m => m.name) = some n := by
  cases hfind : T.find? p with
  | none =>
    obtain ⟨m, hm, hpm⟩ := hex
    have := List.find?_eq_none.mp hfind m hm
    rw [hpm] at this
    exact absurd rfl this
  | some m =>
    have h₁ := List.find?_some hfind
    have h₂ := List.mem_of_find?_eq_some hfind
    simp [huniq m h₂ h₁]

/-- C9 (amended): against a table whose only entries matching either form of
the identifier `50:7` carry the name `Surface/Inverse` (and at least one such
entry exists), both the bare and the namespaced query return
`Surface/Inverse` — in both implementations; and in general the bare and the
namespaced form of any identifier not containing the namespace marker
resolve identically. -/
theorem C9_identifier_normalization (T : List VariableMapping)
    (hex : ∃ m ∈ T, m.id = "VariableID:50:7" ∧ m.name = "Surface/Inverse")
    (huniq : ∀ m ∈ T, (m.id = "VariableID:50:7" ∨ m.id = "50:7") →
      m.name = "Surface/Inverse") :
    VariableMappingsTs.resolveVariableFromMapping "50:7" none T
        = some "Surface/Inverse"
    ∧ VariableMappingsTs.resolveVariableFromMapping "VariableID:50:7" none T
        = some "Surface/Inverse"
    ∧ DesignTokens.resolveVariableFromMapping "50:7" T
        = some "Surface/Inverse"
    ∧ DesignTokens.resolveVariableFromMapping "VariableID:50:7" T
        = some "Surface/Inverse"
    ∧ (∀ (x : String) (T₂ : List VariableMapping)
          (cm : Option (List VariableMapping)),
        Js.includes x "VariableID:" = false →
        VariableMappingsTs.resolveVariableFromMapping x cm T₂
            = VariableMappingsTs.resolveVariableFromMapping ("VariableID:" ++ x) cm T₂
        ∧ DesignTokens.resolveVariableFromMapping x T₂
            = DesignTokens.resolveVariableFromMapping ("VariableID:" ++ x) T₂) := by
  have hexTS : ∃ m ∈ T,
      (m.id == "VariableID:50:7" || m.id == "50:7") = true := by
    obtain ⟨m, hm, hid, _⟩ := hex
    exact ⟨m, hm, by simp [hid]⟩
  have huniqTS : ∀ m ∈ T,
      (m.id == "VariableID:50:7" || m.id == "50:7") = true →
      m.name = "Surface/Inverse" := by
    intro m hm hp
    simp only [Bool.or_eq_true, beq_iff_eq] at hp
    exact huniq m hm hp
  have hexDT : ∃ m ∈ T, (m.id == "VariableID:50:7") = true := by
    obtain ⟨m, hm, hid, _⟩ := hex
    exact ⟨m, hm, by simp [hid]⟩
  have huniqDT : ∀ m ∈ T, (m.id == "VariableID:50:7") = true →
      m.name = "Surface/Inverse" := by
    intro m hm hp
    simp only [beq_iff_eq] at hp
    exact huniq m hm (Or.inl hp)
  refine ⟨?_, ?_, ?_, ?_, ?_⟩
  · show (T.find? _).map _ = _
    convert find?_map_name hexTS huniqTS using 3
  · show (T.find? _).map _ = _
    convert find?_map_name hexTS huniqTS using 3
  · exact find?_map_name hexDT huniqDT
  · exact find?_map_name hexDT huniqDT
  · intro x T₂ cm hx
    have hnostart : Js.startsWith x "VariableID:" = false := by
      unfold Js.startsWith
      by_contra hc
      rw [Bool.not_eq_false] at hc
      have := containsL_of_isPrefixOf hc
      unfold Js.includes at hx
      rw [hx] at this
      cases this
    have hclean₁ : Js.replaceFirst x "VariableID:" = x := by
      unfold Js.replaceFirst Js.includes at *
      rw [Js.replaceFirstL_of_not_contains _ _ hx, strMk_toList]
    have hclean₂ : Js.replaceFirst ("VariableID:" ++ x) "VariableID:" = x :=
      replaceFirst_pfx _ x (by decide)
    have hfull₂ : Js.startsWith ("VariableID:" ++ x) "VariableID:" = true :=
      startsWith_append _ x
    constructor
    · unfold VariableMappingsTs.resolveVariableFromMapping
      rw [hclean₁, hclean₂, hnostart, hfull₂]
      simp
    · unfold DesignTokens.resolveVariableFromMapping
      rw [hnostart, hfull₂]
      simp

/-- Witness for C9 at the concrete one-entry table of the specification. -/
theorem C9_identifier_normalization_witness :
    VariableMappingsTs.resolveVariableFromMapping "50:7" none
        [⟨"VariableID:50:7", "Surface/Inverse", none⟩] = some "Surface/Inverse"
    ∧ VariableMappingsTs.resolveVariableFromMapping "VariableID:50:7" none
        [⟨"VariableID:50:7", "Surface/Inverse", none⟩] = some "Surface/Inverse"
    ∧ DesignTokens.resolveVariableFromMapping "50:7"
        [⟨"VariableID:50:7", "Surface/Inverse", none⟩] = some "Surface/Inverse"
    ∧ DesignTokens.resolveVariableFromMapping "VariableID:50:7"
        [⟨"VariableID:50:7", "Surface/Inverse", none⟩] = some "Surface/Inverse" := by
  have h := C9_identifier_normalization
    [⟨"VariableID:50:7", "Surface/Inverse", none⟩]
    ⟨⟨"VariableID:50:7", "Surface/Inverse", none⟩, by simp, rfl, rfl⟩
    (by intro m hm hp; simp at hm; rcases hm with rfl; rfl)
  exact ⟨h.1, h.2.1, h.2.2.1, h.2.2.2.1⟩

/-! ### C1 — `resolveVariableName` in the visuals extractor

Source (`src/unnamed/part_002`):

```
function resolveVariableName(variableId, variables, variableCollections): string | null {
  if (!variableId) return null;
  if (variables && variables[variableId]) {
    const variable = variables[variableId];
    let name = variable.name;
    if (variable.variableCollectionId && variableCollections) {
      const collection = variableCollections[variable.variableCollectionId];
      if (collection && collection.name) {
        name = collection.name + "/" + name;
      }
    }
    return name;
  }
  const mappedName = resolveVariableFromMapping(variableId);
  if (mappedName) {
    return mappedName;
  }
  return formatVariableReference(variableId);
}
```

`resolveVariableFromMapping` (imported from `variable-mappings.ts`) is
`async`, and the call is **not awaited**: `mappedName` is a pending
`Promise` object.  A `Promise` object is truthy regardless of the value it
will settle to, so `if (mappedName)` always takes the return and the
`formatVariableReference` fallback is unreachable; the function returns the
promise itself, contradicting its declared type `string | null`.  The result
domain is therefore modelled by `RName` with an explicit promise
constructor carrying the value the promise would resolve to. -/

namespace Extractors

/-- A record of the API `variables` table. -/
structure FigVariable where
  name : String
  variableCollectionId : Option String
  deriving DecidableEq, Repr

/-- A record of the API `variableCollections` table. -/
structure FigCollection where
  name : String
  deriving DecidableEq, Repr

/-- Possible results of the (buggy) `resolveVariableName`: `null`, a string,
or an un-awaited `Promise` (carrying the value it would resolve to). -/
inductive RName where
  | nullR : RName
  | strR (s : String) : RName
  | promiseR (p : Option String) : RName
  deriving DecidableEq, Repr

/-- `resolveVariableName` of the visuals extractor, as written in the
source.  The second tier returns the un-awaited promise of
`resolveVariableFromMapping` (always truthy), so the fallback tier is dead
code. -/
def resolveVariableName (variableId : String)
    (vars : Option (List (String × FigVariable)))
    (variableCollections : Option (List (String × FigCollection)))
    (allMappings : List VariableMapping) : RName :=
  if variableId = "" then .nullR
  else
    match vars.bind
        (fun vt => (vt.find? (fun kv => kv.1 == variableId)).map (fun kv => kv.2)) with
    | some v =>
      let name :=
        match v.variableCollectionId, variableCollections with
        | some cid, some colls =>
          match (colls.find? (fun kv => kv.1 == cid)).map (fun kv => kv.2) with
          | some coll =>
            if Js.truthyStr coll.name then coll.name ++ "/" ++ v.name else v.name
          | none => v.name
        | _, _ => v.name
      .strR name
    | none =>
      .promiseR (VariableMappingsTs.resolveVariableFromMapping variableId none allMappings)

/-- C1: evaluating the extractor resolver at an identifier that no source
can resolve.  The claim requires the fallback string `Variable[12:34]`; the
code instead returns the un-awaited promise (which will settle to `null`),
because the promise object is truthy and short-circuits the fallback.  The
fallback formatter itself agrees with the claimed format. -/
theorem C1_resolveVariableName_unawaited_promise :
    resolveVariableName "VariableID:12:34" none none [] = .promiseR none
    ∧ formatVariableReference "VariableID:12:34" none = "Variable[12:34]"
    ∧ resolveVariableName "VariableID:12:34" none none []
        ≠ .strR "Variable[12:34]" := by
  refine ⟨by decide, by decide, by decide⟩

end Extractors

/-! ### C6 — fail-open mapping sources

`fetchRemoteMappings` (`variable-mappings.ts` lines 27-57) wraps the fetch,
the status check and the body decoding in a `try` that returns `[]`; the
local-path loop of `getLocalMappings` (lines 62-99) skips a missing path and
catches read/parse errors, continuing with the next candidate path; and
`parseDesignSystemTokens` (`part_007` lines 131-209) catches `JSON.parse`
failures and returns `[]`.  The models below are total functions — nothing
can propagate — and the theorems pin down the error branches. -/

/-- Outcome of the remote fetch: the fetch threw, or a response with an `ok`
flag, a status code and a body (`none` when `response.json()` threw). -/
inductive FetchResp where
  | fetchThrow : FetchResp
  | resp (ok : Bool) (status : Nat) (body : Option Json) : FetchResp
  deriving DecidableEq, Repr

/-- The effective URL: the argument if truthy, else the
`FIGMA_VARIABLE_MAPPINGS_URL` environment variable if truthy, else none. -/
def effUrl (uArg uEnv : Option String) : Option String :=
  let envu := match uEnv with
    | some u => if Js.truthyStr u then some u else none
    | none => none
  match uArg with
  | some u => if Js.truthyStr u then some u else envu
  | none => envu

/-- `fetchRemoteMappings(url?)`: returns the raw decoded entries (a bare
array, or the `mappings` array of an object), and `[]` on a missing URL, a
thrown fetch, a non-OK status, an unparseable body or a malformed shape. -/
def fetchRemoteMappings (uArg uEnv : Option String) (r : FetchResp) : List Json :=
  match effUrl uArg uEnv with
  | none => []
  | some _ =>
    match r with
    | .fetchThrow => []
    | .resp ok _ body =>
      if ok then
        match body with
        | none => []
        | some data =>
          if data.isArray then data.elems
          else
            match data.getField "mappings" with
            | some m => if jsTruthy m && m.isArray then m.elems else []
            | none => []
      else []

namespace DesignTokens

/-- A mapping extracted from a design-token document.  The `id` is kept as a
raw JSON value, as the source copies the `variableId` token verbatim. -/
structure TokenMapping where
  id : Json
  name : String
  description : Json
  deriving DecidableEq, Repr

/-- `Object.entries(v)`: fields of an object, or index-keyed elements of an
array. -/
def entriesJ (j : Json) : List (String × Json) :=
  match j with
  | .objCons _ _ _ | .objNil => j.fields
  | .arrCons _ _ | .arrNil => j.elems.enum.map (fun p => (toString p.1, p.2))
  | _ => []

/-- `collection`/`type` coercion `x || ""` (non-string truthy values would
make the source throw on `.toLowerCase()`; they do not occur in token
documents and are mapped to `""` here). -/
def strOr (o : Option Json) : String :=
  match o with
  | some (.str s) => if Js.truthyStr s then s else ""
  | _ => ""

/-- Lowercase and strip all whitespace (`x.toLowerCase().replace(/\s+/g, "")`). -/
def normalizeKey (s : String) : String :=
  ⟨(s.toList.filter (fun c => !c.isWhitespace)).map Char.toLower⟩

/-- Strip all whitespace (`x.replace(/\s+/g, "")`). -/
def stripWs (s : String) : String := ⟨s.toList.filter (fun c => !c.isWhitespace)⟩

/-- Lowercase a whole string. -/
def lowerStr (s : String) : String := ⟨s.toList.map Char.toLower⟩

/-- Separator class of the camel-case splitter, `/[\s-_]+/`. -/
def isSepTok (c : Char) : Bool := c.isWhitespace || c == '-' || c == '_'

/-- Split on runs of separators (JavaScript `split(/[…]+/)`). -/
def splitRunsL (isSep : Char → Bool) : List Char → List (List Char)
  | [] => [[]]
  | c :: t =>
    let r := splitRunsL isSep t
    if isSep c then
      match t with
      | c2 :: _ => if isSep c2 then r else [] :: r
      | [] => [] :: r
    else
      match r with
      | h :: rs => (c :: h) :: rs
      | [] => [[c]]

/-- `word.charAt(0).toUpperCase() + word.slice(1).toLowerCase()`. -/
def capWord (l : List Char) : List Char :=
  match l with
  | [] => []
  | c :: t => c.toUpper :: t.map Char.toLower

/-- `toCamelCase` of the design-token parser. -/
def toCamelCase (s : String) : String :=
  match splitRunsL isSepTok s.toList with
  | [] => ""
  | w :: rest => ⟨w.map Char.toLower ++ (rest.map capWord).flatten⟩

/-- The dotted camel-case path (`index 0` lowercased whole, later elements
camel-cased, joined with `"."`). -/
def camelPath (elems : List String) : String :=
  match elems with
  | [] => ""
  | e :: rest => String.intercalate "." (lowerStr e :: rest.map toCamelCase)

/-- The mapping pushed for one token object carrying
`extensions["org.lukasoppermann.figmaDesignTokens"].variableId`. -/
def leafMapping (v : Json) (currentPath : List String) : List TokenMapping :=
  match (v.getField "extensions").bind
      (fun e => e.getField "org.lukasoppermann.figmaDesignTokens") with
  | none => []
  | some e2 =>
    match e2.getField "variableId" with
    | none => []
    | some vid =>
      if jsTruthy vid then
        let collection := strOr (e2.getField "collection")
        let ty := strOr (v.getField "type")
        let pathElements :=
          match currentPath with
          | e :: restp =>
            if collection ≠ "" ∧ normalizeKey e = normalizeKey collection
            then restp else currentPath
          | [] => currentPath
        let px :=
          if ty = "color" ∨ collection = "Semantic Tokens" then "RegainColors"
          else if ty = "dimension" then "Dimensions"
          else if ty = "custom-fontStyle" then "Typography"
          else if collection ≠ "" then stripWs collection
          else ""
        let nm :=
          if px ≠ "" then px ++ "." ++ camelPath pathElements
          else camelPath pathElements
        let desc :=
          match v.getField "description" with
          | some d => if jsTruthy d then d else .str ""
          | none => .str ""
        [⟨vid, nm, desc⟩]
      else []

mutual

/-- `extractMappings(obj, path)` — iterate the entries of an object or
array; atoms contribute nothing. -/
def emJson : Json → List String → List TokenMapping
  | .objCons k v rest, path => emEntry k v path ++ emJson rest path
  | .arrCons v rest, path => emEntry "0" v path ++ emArr rest path 1
  | _, _ => []
termination_by j path => (sizeOf j, 0)

/-- Array entries with their stringified indices as keys. -/
def emArr : Json → List String → Nat → List TokenMapping
  | .arrCons v rest, path, i => emEntry (toString i) v path ++ emArr rest path (i + 1)
  | _, _, _ => []
termination_by j path i => (sizeOf j, 0)

/-- One `[key, value]` entry: push a leaf mapping if the value carries a
token extension, then recurse into the value. -/
def emEntry (k : String) (v : Json) (path : List String) : List TokenMapping :=
  let cp := path ++ [k]
  if jsTruthy v && v.isObjLike then leafMapping v cp ++ emJson v cp else []
termination_by (sizeOf v, 1)

end

/-- `parseDesignSystemTokens(content)`: `none` models a `JSON.parse` failure
(caught, yielding `[]`); otherwise walk the parsed document. -/
def parseDesignSystemTokens (content : Option Json) : List TokenMapping :=
  match content with
  | none => []
  | some tokens => emJson tokens []

end DesignTokens

/-- File-system view for the local-mapping path loop: `none` means the path
does not exist; `some none` means it exists but reading/parsing throws or
the document lacks a `variableMappings` array; `some (some ms)` is a good
config file. -/
abbrev LocalFs := String → Option (Option (List VariableMapping))

namespace VariableMappingsTs

/-- `getLocalMappings()` of `variable-mappings.ts`: first candidate path
that exists and parses to a config with a `variableMappings` array wins;
missing or corrupt paths are skipped. -/
def getLocalMappings (fs : LocalFs) : List String → List VariableMapping
  | [] => []
  | p :: rest =>
    match fs p with
    | none => getLocalMappings fs rest
    | some none => getLocalMappings fs rest
    | some (some ms) => ms

end VariableMappingsTs

/-- C6: mapping-source failures are fail-open.  A thrown fetch, a non-OK
response, an unparseable body and a malformed body all yield `[]` from the
remote source; an unparseable design-token document yields `[]`; and a
missing or corrupt local config path is skipped, resolution continuing with
the remaining candidate paths.  (All models are total Lean functions: no
exception can propagate.) -/
theorem C6_fail_open :
    (∀ uArg uEnv, fetchRemoteMappings uArg uEnv .fetchThrow = [])
    ∧ (∀ uArg uEnv st body, fetchRemoteMappings uArg uEnv (.resp false st body) = [])
    ∧ (∀ uArg uEnv st, fetchRemoteMappings uArg uEnv (.resp true st none) = [])
    ∧ (∀ uArg uEnv st (j : Json), j.isArray = false →
        (∀ m, j.getField "mappings" = some m → (jsTruthy m && m.isArray) = false) →
        fetchRemoteMappings uArg uEnv (.resp true st (some j)) = [])
    ∧ DesignTokens.parseDesignSystemTokens none = []
    ∧ (∀ (fs : LocalFs) p rest, fs p = none →
        VariableMappingsTs.getLocalMappings fs (p :: rest)
          = VariableMappingsTs.getLocalMappings fs rest)
    ∧ (∀ (fs : LocalFs) p rest, fs p = some none →
        VariableMappingsTs.getLocalMappings fs (p :: rest)
          = VariableMappingsTs.getLocalMappings fs rest) := by
  refine ⟨?_, ?_, ?_, ?_, rfl, ?_, ?_⟩
  · intro uArg uEnv
    unfold fetchRemoteMappings
    cases effUrl uArg uEnv <;> rfl
  · intro uArg uEnv st body
    unfold fetchRemoteMappings
    cases effUrl uArg uEnv <;> simp
  · intro uArg uEnv st
    unfold fetchRemoteMappings
    cases effUrl uArg uEnv <;> simp
  · intro uArg uEnv st j hj hm
    unfold fetchRemoteMappings
    cases effUrl uArg uEnv with
    | none => rfl
    | some u =>
      cases hg : j.getField "mappings" with
      | none => simp [hj, hg]
      | some m => simp [hj, hg, hm m hg]
  · intro fs p rest hp
    have hstep : VariableMappingsTs.getLocalMappings fs (p :: rest)
        = match fs p with
          | none => VariableMappingsTs.getLocalMappings fs rest
          | some none => VariableMappingsTs.getLocalMappings fs rest
          | some (some ms) => ms := rfl
    rw [hstep, hp]
  · intro fs p rest hp
    have hstep : VariableMappingsTs.getLocalMappings fs (p :: rest)
        = match fs p with
          | none => VariableMappingsTs.getLocalMappings fs rest
          | some none => VariableMappingsTs.getLocalMappings fs rest
          | some (some ms) => ms := rfl
    rw [hstep, hp]

/-- Witness for C6 at concrete error inputs: a malformed remote body (a bare
string) yields no mappings; a missing first path falls through to the second
path's mappings. -/
theorem C6_fail_open_witness :
    fetchRemoteMappings (some "https://x") none (.resp true 200 (some (.str "oops")))
      = []
    ∧ VariableMappingsTs.getLocalMappings
        (fun p => if p = "good" then some (some [⟨"VariableID:1:2", "A", none⟩]) else none)
        ["missing", "good"]
      = [⟨"VariableID:1:2", "A", none⟩] := by
  have h := C6_fail_open
  refine ⟨h.2.2.2.1 (some "https://x") none 200 (.str "oops") (by decide)
    (fun m hm => Option.noConfusion hm), ?_⟩
  rw [h.2.2.2.2.2.1 _ "missing" ["good"] (by decide)]
  decide

/-- C9 as frozen is falsified by a table that *contains* the required entry
but also an earlier entry with the same id: the lookup returns the first
match, `Other`. -/
theorem C9_counterexample :
    (⟨"VariableID:50:7", "Surface/Inverse", none⟩ : VariableMapping)
      ∈ [(⟨"VariableID:50:7", "Other", none⟩ : VariableMapping),
         ⟨"VariableID:50:7", "Surface/Inverse", none⟩]
    ∧ VariableMappingsTs.resolveVariableFromMapping "50:7" none
        [⟨"VariableID:50:7", "Other", none⟩,
         ⟨"VariableID:50:7", "Surface/Inverse", none⟩] = some "Other"
    ∧ DesignTokens.resolveVariableFromMapping "50:7"
        [⟨"VariableID:50:7", "Other", none⟩,
         ⟨"VariableID:50:7", "Surface/Inverse", none⟩] = some "Other" := by
  refine ⟨by simp, by decide, by decide⟩

/-! ### C5 — the cache refresh policy of `getVariableMappings` (part_008)

Source state: module-level `cachedMappings`, `cacheTimestamp`,
`fileWatchTimestamp` and the `fileModTimes` map, with
`CACHE_DURATION = 5 * 60 * 1000` and `FILE_CHECK_INTERVAL = 10 * 1000`.
Each call receives the clock value `now`, the candidate config paths and the
file system as an environment, and is modelled as a state transition that
also emits the I/O events it performs (`statSync`, `readFileSync`, remote
fetch), so that the claimed read policy can be stated about the trace. -/

namespace RefreshCache

/-- A mapping entry as held in the part_008 cache; `fromLocal` is the marker
the refresh code attaches to locally-loaded entries (absent, i.e. `false`,
on remote entries). -/
structure CachedMapping where
  id : String
  name : String
  description : Option String
  fromLocal : Bool
  deriving DecidableEq, Repr

/-- The module-level mutable state. -/
structure CacheState where
  cachedMappings : Option (List CachedMapping)
  cacheTimestamp : Nat
  fileWatchTimestamp : Nat
  fileModTimes : List (String × Nat)
  deriving DecidableEq, Repr

/-- Per-call environment: the clock, the candidate paths, the file system
(`none` = path missing; otherwise its mtime and the parsed
`variableMappings` array, `none` when reading/parsing throws or the array is
absent), the `FIGMA_VARIABLE_MAPPINGS_URL` value and the entries a remote
fetch would deliver (its failure modes all yield `[]`, see C6). -/
structure CallEnv where
  now : Nat
  paths : List String
  fs : String → Option (Nat × Option (List CachedMapping))
  remoteUrl : Option String
  remoteResult : List CachedMapping

/-- Observable I/O performed by a call. -/
inductive IOEvent where
  | statFile (p : String) (mtime : Nat) : IOEvent
  | readFile (p : String) : IOEvent
  | fetchRemote : IOEvent
  deriving DecidableEq, Repr

/-- `fileModTimes.get(p)`. -/
def findMod (l : List (String × Nat)) (k : String) : Option Nat :=
  (l.find? (fun kv => kv.1 == k)).map (fun kv => kv.2)

/-- `fileModTimes.set(p, mtime)`. -/
def setMod (l : List (String × Nat)) (k : String) (v : Nat) : List (String × Nat) :=
  match l with
  | [] => [(k, v)]
  | (k0, v0) :: t => if k0 == k then (k, v) :: t else (k0, v0) :: setMod t k v

def CACHE_DURATION : Nat := 5 * 60 * 1000
def FILE_CHECK_INTERVAL : Nat := 10 * 1000

/-- `getLocalMappings()` of part_008: walk the candidate paths; on an
existing path, stat it, force a cache refresh if the recorded mtime (truthy,
i.e. nonzero) differs, record the mtime, then read and parse; the first path
yielding a `variableMappings` array wins, all failures fall through to the
next path. -/
def getLocalMappingsP8 (env : CallEnv) :
    List String → CacheState → List CachedMapping × CacheState × List IOEvent
  | [], s => ([], s, [])
  | p :: rest, s =>
    match env.fs p with
    | none => getLocalMappingsP8 env rest s
    | some (mtime, parsed) =>
      let cleared : Bool :=
        match findMod s.fileModTimes p with
        | some m => !(m == 0) && !(m == mtime)
        | none => false
      let s₁ := if cleared then { s with cachedMappings := none } else s
      let s₂ := { s₁ with fileModTimes := setMod s₁.fileModTimes p mtime }
      match parsed with
      | some ms => (ms, s₂, [.statFile p mtime, .readFile p])
      | none =>
        let r := getLocalMappingsP8 env rest s₂
        (r.1, r.2.1, .statFile p mtime :: .readFile p :: r.2.2)

/-- The refresh branch of `getVariableMappings()`: fetch the remote source
when the remote duration expired (else keep the cached non-local entries),
always re-run the local loop, mark local entries, and update the cache and
its timestamp only when the combined list changed. -/
def refreshPass (env : CallEnv) (s : CacheState) (sRR sCL : Bool) :
    List CachedMapping × CacheState × List IOEvent :=
  let s₁ := if sCL then { s with fileWatchTimestamp := env.now } else s
  let remote :
      List CachedMapping × List IOEvent :=
    if sRR then
      match effUrl none env.remoteUrl with
      | none => ([], [])
      | some _ => (env.remoteResult, [.fetchRemote])
    else ((s.cachedMappings.getD []).filter (fun m => !m.fromLocal), [])
  let lr := getLocalMappingsP8 env env.paths s₁
  let mappings := remote.1 ++ lr.1.map (fun m => { m with fromLocal := true })
  let s₃ :=
    if lr.2.1.cachedMappings == some mappings then lr.2.1
    else { lr.2.1 with cachedMappings := some mappings, cacheTimestamp := env.now }
  (mappings, s₃, remote.2 ++ lr.2.2)

/-- `getVariableMappings()` of part_008 (cached with auto-refresh). -/
def getVariableMappingsP8 (env : CallEnv) (s : CacheState) :
    List CachedMapping × CacheState × List IOEvent :=
  let sRR := s.cachedMappings.isNone
    || decide (env.now - s.cacheTimestamp > CACHE_DURATION)
  let sCL := s.cachedMappings.isNone
    || decide (env.now - s.fileWatchTimestamp > FILE_CHECK_INTERVAL)
  if !sRR && !sCL && s.cachedMappings.isSome then
    (s.cachedMappings.getD [], s, [])
  else
    refreshPass env s sRR sCL

end RefreshCache

namespace RefreshCache

/-- Concrete entry for the C5 counterexample. -/
def exMapping : CachedMapping := ⟨"VariableID:1:2", "A", none, false⟩

/-- First call: time 0, one config path with mtime 100, no remote URL. -/
def exEnv1 : CallEnv :=
  { now := 0, paths := ["cwd"],
    fs := fun p => if p = "cwd" then some (100, some [exMapping]) else none,
    remoteUrl := none, remoteResult := [] }

/-- Second call: 20000 time-units later, file untouched (same mtime 100). -/
def exEnv2 : CallEnv :=
  { now := 20000, paths := ["cwd"],
    fs := fun p => if p = "cwd" then some (100, some [exMapping]) else none,
    remoteUrl := none, remoteResult := [] }

/-- Initial module state. -/
def exState0 : CacheState := ⟨none, 0, 0, []⟩

end RefreshCache

/-- C5 as frozen is falsified: after a first call recorded mtime 100 for the
config path, a second call 20000 time-units later — with the file's
modification time unchanged at 100 — re-reads the file anyway (the refresh
pass reads unconditionally; the mtime comparison only decides whether the
combined cache is forcibly rebuilt). -/
theorem C5_counterexample :
    RefreshCache.IOEvent.readFile "cwd"
      ∈ (RefreshCache.getVariableMappingsP8 RefreshCache.exEnv2
          (RefreshCache.getVariableMappingsP8 RefreshCache.exEnv1
            RefreshCache.exState0).2.1).2.2
    ∧ RefreshCache.findMod
        (RefreshCache.getVariableMappingsP8 RefreshCache.exEnv1
          RefreshCache.exState0).2.1.fileModTimes "cwd" = some 100
    ∧ RefreshCache.exEnv2.fs "cwd" = some (100, some [RefreshCache.exMapping]) := by
  refine ⟨by decide, by decide, by decide⟩

namespace RefreshCache

/-- The local path loop never fetches the remote source. -/
theorem no_fetch_in_local (env : CallEnv) :
    ∀ (paths : List String) (s : CacheState),
      IOEvent.fetchRemote ∉ (getLocalMappingsP8 env paths s).2.2 := by
  intro paths
  induction paths with
  | nil => intro s; simp [getLocalMappingsP8]
  | cons p rest ih =>
    intro s
    unfold getLocalMappingsP8
    cases env.fs p with
    | none => exact ih s
    | some pr =>
      obtain ⟨mtime, parsed⟩ := pr
      cases parsed with
      | some ms => simp
      | none =>
        simp only [List.mem_cons]
        intro h
        rcases h with h | h | h
        · cases h
        · cases h
        · exact ih _ h

/-- On an existing head path the local loop begins with a stat and a read of
that path. -/
theorem local_reads_head (env : CallEnv) (p : String) (rest : List String)
    (s : CacheState) (mt : Nat) (pr : Option (List CachedMapping))
    (hfs : env.fs p = some (mt, pr)) :
    ∃ tl, (getLocalMappingsP8 env (p :: rest) s).2.2
      = IOEvent.statFile p mt :: IOEvent.readFile p :: tl := by
  unfold getLocalMappingsP8
  rw [hfs]
  cases parsed : pr with
  | some ms => exact ⟨[], rfl⟩
  | none => exact ⟨_, rfl⟩

end RefreshCache

/-- C5 (amended): the actual refresh policy of `getVariableMappings`.
While the cache is fresh on both clocks (remote age within
`CACHE_DURATION`, local-check age within `FILE_CHECK_INTERVAL`), a call
performs no I/O at all and returns the cache with the state unchanged.
Otherwise a refresh pass runs: the first existing candidate config path is
stat-ed *and re-read unconditionally* (whether or not its modification time
changed — the mtime comparison only forces the combined cache to be
rebuilt), and the remote source is fetched exactly when the cache is absent
or older than `CACHE_DURATION` and a URL is configured. -/
theorem C5_cache_refresh_policy (env : RefreshCache.CallEnv)
    (s : RefreshCache.CacheState) :
    (∀ c, s.cachedMappings = some c →
      env.now - s.cacheTimestamp ≤ RefreshCache.CACHE_DURATION →
      env.now - s.fileWatchTimestamp ≤ RefreshCache.FILE_CHECK_INTERVAL →
      RefreshCache.getVariableMappingsP8 env s = (c, s, []))
    ∧ (s.cachedMappings = none
        ∨ RefreshCache.CACHE_DURATION < env.now - s.cacheTimestamp
        ∨ RefreshCache.FILE_CHECK_INTERVAL < env.now - s.fileWatchTimestamp →
      (∀ p rest mt pr, env.paths = p :: rest → env.fs p = some (mt, pr) →
        RefreshCache.IOEvent.readFile p
          ∈ (RefreshCache.getVariableMappingsP8 env s).2.2)
      ∧ (RefreshCache.IOEvent.fetchRemote
            ∈ (RefreshCache.getVariableMappingsP8 env s).2.2 ↔
          (s.cachedMappings = none
            ∨ RefreshCache.CACHE_DURATION < env.now - s.cacheTimestamp)
          ∧ (effUrl none env.remoteUrl).isSome)) := by
  constructor
  · intro c hc h1 h2
    have e1 : decide (env.now - s.cacheTimestamp > RefreshCache.CACHE_DURATION)
        = false := decide_eq_false (by omega)
    have e2 : decide (env.now - s.fileWatchTimestamp
        > RefreshCache.FILE_CHECK_INTERVAL) = false := decide_eq_false (by omega)
    unfold RefreshCache.getVariableMappingsP8
    rw [hc]
    simp [e1, e2]
  · intro href
    have hguard :
        ((!(s.cachedMappings.isNone
            || decide (env.now - s.cacheTimestamp > RefreshCache.CACHE_DURATION)))
          && (!(s.cachedMappings.isNone
            || decide (env.now - s.fileWatchTimestamp
                > RefreshCache.FILE_CHECK_INTERVAL)))
          && s.cachedMappings.isSome) = false := by
      rcases href with h | h | h
      · simp [h]
      · simp [decide_eq_true h]
      · simp [decide_eq_true h]
    have hrun : RefreshCache.getVariableMappingsP8 env s
        = RefreshCache.refreshPass env s
            (s.cachedMappings.isNone
              || decide (env.now - s.cacheTimestamp > RefreshCache.CACHE_DURATION))
            (s.cachedMappings.isNone
              || decide (env.now - s.fileWatchTimestamp
                  > RefreshCache.FILE_CHECK_INTERVAL)) := by
      unfold RefreshCache.getVariableMappingsP8
      simp only [hguard, Bool.false_eq_true, if_false, ite_false]
    rw [hrun]
    unfold RefreshCache.refreshPass
    constructor
    · intro p rest mt pr hpaths hfs
      obtain ⟨tl, htl⟩ := RefreshCache.local_reads_head env p rest
        (if (s.cachedMappings.isNone
              || decide (env.now - s.fileWatchTimestamp
                  > RefreshCache.FILE_CHECK_INTERVAL)) = true
          then { s with fileWatchTimestamp := env.now } else s) mt pr hfs
      simp only [hpaths]
      rw [htl]
      simp
    · rw [List.mem_append]
      have hlocal := RefreshCache.no_fetch_in_local env env.paths
        (if (s.cachedMappings.isNone
              || decide (env.now - s.fileWatchTimestamp
                  > RefreshCache.FILE_CHECK_INTERVAL)) = true
          then { s with fileWatchTimestamp := env.now } else s)
      constructor
    -- forward: membership must come from the remote branch
      · intro h
        rcases h with h | h
        · by_cases hrr : (s.cachedMappings.isNone
              || decide (env.now - s.cacheTimestamp
                  > RefreshCache.CACHE_DURATION)) = true
          · rw [hrr] at h
            simp only [if_true, ite_true] at h
            cases hurl : effUrl none env.remoteUrl with
            | none => rw [hurl] at h; cases h
            | some u =>
              refine ⟨?_, by simp⟩
              rcases Bool.or_eq_true_iff.mp hrr with h1 | h1
              · exact Or.inl (Option.isNone_iff_eq_none.mp h1)
              · exact Or.inr (of_decide_eq_true h1)
          · rw [Bool.not_eq_true] at hrr
            rw [hrr] at h
            simp at h
        · exact absurd h hlocal
      · rintro ⟨h1, h2⟩
        have hrr : (s.cachedMappings.isNone
            || decide (env.now - s.cacheTimestamp
                > RefreshCache.CACHE_DURATION)) = true := by
          rcases h1 with h1 | h1
          · simp [h1]
          · simp [decide_eq_true h1]
        rw [hrr]
        left
        cases hurl : effUrl none env.remoteUrl with
        | none => rw [hurl] at h2; cases h2
        | some u => simp

namespace RefreshCache

/-- A locally-loaded entry as the cache holds it (marked `fromLocal`). -/
def exLocalMapping : CachedMapping := ⟨"VariableID:1:2", "A", none, true⟩

/-- A populated cache state recorded at time 0 with the config mtime known. -/
def exCachedState : CacheState := ⟨some [exLocalMapping], 0, 0, [("cwd", 100)]⟩

/-- A call at time 5000: both freshness windows still open. -/
def exFreshEnv : CallEnv :=
  { now := 5000, paths := ["cwd"],
    fs := fun p => if p = "cwd" then some (100, some [exMapping]) else none,
    remoteUrl := none, remoteResult := [] }

end RefreshCache

/-- Witness for C5 at concrete calls: a fresh-cache call performs no I/O and
returns the cache unchanged; a call after the local-check window re-reads
the config file; with no URL configured the remote source is not fetched. -/
theorem C5_cache_refresh_policy_witness :
    RefreshCache.getVariableMappingsP8 RefreshCache.exFreshEnv
        RefreshCache.exCachedState
      = ([RefreshCache.exLocalMapping], RefreshCache.exCachedState, [])
    ∧ RefreshCache.IOEvent.readFile "cwd"
        ∈ (RefreshCache.getVariableMappingsP8 RefreshCache.exEnv2
            RefreshCache.exCachedState).2.2
    ∧ RefreshCache.IOEvent.fetchRemote
        ∉ (RefreshCache.getVariableMappingsP8 RefreshCache.exEnv2
            RefreshCache.exCachedState).2.2 := by
  have h1 := (C5_cache_refresh_policy RefreshCache.exFreshEnv
    RefreshCache.exCachedState).1 [RefreshCache.exLocalMapping] rfl
    (by decide) (by decide)
  have h2 := (C5_cache_refresh_policy RefreshCache.exEnv2
    RefreshCache.exCachedState).2 (Or.inr (Or.inr (by decide)))
  refine ⟨h1, h2.1 "cwd" [] 100 (some [RefreshCache.exMapping]) rfl (by decide), ?_⟩
  intro hmem
  exact absurd (h2.2.mp hmem).2 (by decide)

/-! ## The variant analyzer (`property-parser.ts`, C7/C8/C10)

Simplified nodes are modelled by `Variants.SNode`: a node payload
(`SNodeData`) plus the children list.  Recursive functions pattern-match the
constructor so that all recursion is structural (and therefore evaluates
inside the kernel, which the concrete witnesses below rely on).
JavaScript `Map`s and `Set`s are insertion-ordered association lists and
duplicate-free lists. -/

namespace Variants

/-- `string | boolean` property values. -/
inductive SB where
  | s (v : String) : SB
  | b (v : Bool) : SB
  deriving DecidableEq, Repr

/-- Truthiness of a `string | boolean` value. -/
def truthySB : SB → Bool
  | .s v => !(v == "")
  | .b b => b

/-- `String(value)` for a `string | boolean` value. -/
def sbToString : SB → String
  | .s v => v
  | .b b => if b then "true" else "false"

/-- One entry of a node's `componentProperties` array (the
`preferredValues` keys are carried for the slot extractor). -/
structure CompProp where
  name : String
  value : String
  type : String
  preferredValues : Option (List String)
  deriving DecidableEq, Repr

/-- `ComponentPropertyDefinition`. -/
structure PropDefn where
  name : String
  type : String
  defaultValue : SB
  variantOptions : Option (List String)
  preferredValues : Option (List String)
  deriving DecidableEq, Repr

/-- The non-recursive payload of a simplified node. -/
structure SNodeData where
  id : String
  name : String
  type : String
  componentProperties : List CompProp
  componentSetId : Option String
  key : Option String
  description : Option String
  componentPropertyDefinitions : Option (List PropDefn)
  deriving DecidableEq, Repr

/-- A simplified node: payload plus children. -/
inductive SNode where
  | mk (data : SNodeData) (children : List SNode)

/-- The payload of a node. -/
def SNode.data : SNode → SNodeData
  | .mk d _ => d

/-- The children of a node. -/
def SNode.children : SNode → List SNode
  | .mk _ cs => cs

/-- JavaScript `s.trim()`. -/
def jsTrim (s : String) : String :=
  ⟨((s.toList.dropWhile Char.isWhitespace).reverse.dropWhile
      Char.isWhitespace).reverse⟩

/-- Lowercase a whole string (`s.toLowerCase()`). -/
def lowerStr (s : String) : String := ⟨s.toList.map Char.toLower⟩

/-- Insertion-ordered `Set.add`. -/
def addOnce (u : List String) (x : String) : List String :=
  if x ∈ u then u else u ++ [x]

/-- Lookup in an insertion-ordered association list. -/
def lookupA (l : List (String × α)) (k : String) : Option α :=
  (l.find? (fun kv => kv.1 == k)).map (fun kv => kv.2)

/-- `Map.set` / object property assignment: overwrite in place or append. -/
def setA (l : List (String × α)) (k : String) (v : α) : List (String × α) :=
  match l with
  | [] => [(k, v)]
  | (k0, v0) :: t => if k0 == k then (k, v) :: t else (k0, v0) :: setA t k v

/-- Update the first entry with the given key in place. -/
def updA (l : List (String × α)) (k : String) (f : α → α) : List (String × α) :=
  match l with
  | [] => []
  | (k0, v0) :: t => if k0 == k then (k0, f v0) :: t else (k0, v0) :: updA t k f

/-- `parseVariantName`: split on commas, each part on `=`, trim; `"true"` and
`"false"` coerce to booleans; entries with a missing or empty key or value
are dropped. -/
def parseVariantName (variantName : String) : List (String × SB) :=
  let parts := (Js.splitOnChar ',' variantName).map jsTrim
  parts.foldl
    (fun props part =>
      let kv := (Js.splitOnChar '=' part).map jsTrim
      match kv with
      | key :: value :: _ =>
        if !(key == "") && !(value == "") then
          setA props key
            (if value == "true" || value == "false" then .b (value == "true")
             else .s value)
        else props
      | _ => props)
    []

/-- Strip a trailing `#digits:digits` suffix (`name.replace(/#\d+:\d+$/, "")`). -/
def stripHashSuffix (s : String) : String :=
  let r := s.toList.reverse
  let d1 := r.takeWhile Char.isDigit
  let r1 := r.dropWhile Char.isDigit
  match d1, r1 with
  | _ :: _, ':' :: r2 =>
    let d2 := r2.takeWhile Char.isDigit
    let r3 := r2.dropWhile Char.isDigit
    match d2, r3 with
    | _ :: _, '#' :: r4 => ⟨r4.reverse⟩
    | _, _ => s
  | _, _ => s

/-- `cleanPropertyName`: strip the positional suffix, trim, and drop a
leading arrow marker (`"↪ "`, two characters). -/
def cleanPropertyName (name : String) : String :=
  let cleaned := jsTrim (stripHashSuffix name)
  if Js.startsWith cleaned "↪ " then ⟨cleaned.toList.drop 2⟩ else cleaned

/-- The property-definition map threaded through `extractPropertyDefinitions`. -/
abbrev PropMap := List (String × PropDefn)

/-- The update performed for one parsed variant-name property. -/
def updateVariantProp (pm : PropMap) (propName : String) (value : SB) : PropMap :=
  let pm₁ :=
    if (lookupA pm propName).isNone then
      pm ++ [(propName, ⟨propName, "VARIANT", .s "", some [], none⟩)]
    else pm
  updA pm₁ propName (fun pd =>
    match value with
    | .b _ =>
      { pd with type := "BOOLEAN",
                defaultValue :=
                  if truthySB pd.defaultValue then pd.defaultValue else .b false }
    | .s v =>
      let pd :=
        { pd with variantOptions :=
            match pd.variantOptions with
            | some l => if v ∈ l then some l else some (l ++ [v])
            | none => none }
      if truthySB pd.defaultValue then pd
      else { pd with defaultValue := .s v })

mutual

/-- `findInstanceSwapProperties`: register `INSTANCE_SWAP` component
properties of `INSTANCE` nodes (cleaned name, first sighting wins), then
recurse into the children. -/
def findInstanceSwapProperties : SNode → PropMap → PropMap
  | .mk d cs, pm =>
    let pm₁ :=
      if d.type == "INSTANCE" then
        d.componentProperties.foldl
          (fun pm prop =>
            if prop.type == "INSTANCE_SWAP" then
              let cleanName := cleanPropertyName prop.name
              if (lookupA pm cleanName).isNone then
                pm ++ [(cleanName,
                  ⟨cleanName, "INSTANCE_SWAP", .s prop.value, none, some []⟩)]
              else pm
            else pm)
          pm
      else pm
    findISL cs pm₁

def findISL : List SNode → PropMap → PropMap
  | [], pm => pm
  | c :: cs, pm => findISL cs (findInstanceSwapProperties c pm)

end

mutual

/-- `findTextProperties`: register `TEXT` component properties found
anywhere in the subtree. -/
def findTextProperties : SNode → PropMap → PropMap
  | .mk d cs, pm =>
    let pm₁ :=
      d.componentProperties.foldl
        (fun pm prop =>
          if prop.type == "TEXT" then
            let cleanName := cleanPropertyName prop.name
            if (lookupA pm cleanName).isNone then
              pm ++ [(cleanName, ⟨cleanName, "TEXT", .s prop.value, none, none⟩)]
            else pm
          else pm)
        pm
    findTPL cs pm₁

def findTPL : List SNode → PropMap → PropMap
  | [], pm => pm
  | c :: cs, pm => findTPL cs (findTextProperties c pm)

end

/-- `extractPropertyDefinitions`: variant-name properties first, then
`INSTANCE_SWAP` and `TEXT` properties discovered by subtree scans. -/
def extractPropertyDefinitions (componentSetNode : SNode)
    (variants : List SNode) : List PropDefn :=
  let pm : PropMap := variants.foldl
    (fun pm v =>
      if (SNode.data v).type == "COMPONENT" then
        (parseVariantName (SNode.data v).name).foldl
          (fun pm kv => updateVariantProp pm kv.1 kv.2) pm
      else pm)
    []
  let pm := variants.foldl (fun pm v => findInstanceSwapProperties v pm) pm
  let pm := variants.foldl (fun pm v => findTextProperties v pm) pm
  pm.map (fun kv => kv.2)

mutual

/-- `analyzeVariantStructure`: record properties whose presence is betrayed
by node-name patterns or bound `INSTANCE_SWAP` properties, in document
order. -/
def analyzeVariantStructure : SNode → List String → List String
  | .mk d cs, u =>
    let u₁ :=
      if !(d.name == "") then
        let nodeName := lowerStr d.name
        let u := if Js.includes nodeName "title" then addOnce u "Title" else u
        let u := if Js.includes nodeName "image" then addOnce u "Image" else u
        let u :=
          if Js.includes nodeName "trailing" && Js.includes nodeName "icon" then
            addOnce u "Trailing icons"
          else u
        let u :=
          if Js.includes nodeName "icon 1" || nodeName == "icon 1" then
            addOnce u "Icon 1"
          else u
        let u :=
          if Js.includes nodeName "icon 2" || nodeName == "icon 2" then
            addOnce u "Icon 2"
          else u
        if Js.includes nodeName "profile" then addOnce u "Profile icon" else u
      else u
    let u₂ :=
      d.componentProperties.foldl
        (fun u prop =>
          if prop.type == "INSTANCE_SWAP" && !(prop.name == "") then
            addOnce u (cleanPropertyName prop.name)
          else u)
        u₁
    avsL cs u₂

def avsL : List SNode → List String → List String
  | [], u => u
  | c :: cs, u => avsL cs (analyzeVariantStructure c u)

end

/-- One entry of the `variants` argument of `inferPropertyRules` (the
optional `node` member is passed separately as `variantNodes`, aligned by
index, which is how the only caller uses it). -/
structure VariantEntry where
  name : String
  properties : List (String × SB)
  deriving DecidableEq, Repr

/-- A visibility rule. -/
structure Rule where
  property : String
  visibleWhen : Option (List (String × SB))
  childProperties : Option (List String)
  deriving DecidableEq, Repr

/-- The hardcoded zero-usage fallback list. -/
def defaultOnlyProps : List String :=
  ["Title", "Image", "Trailing icons", "Icon 1", "Icon 2"]

/-- The hardcoded parent/child grouping. -/
def parentChildMap : List (String × List String) :=
  [("Trailing icons", ["Icon 1", "Icon 2"])]

/-- Phase 1 of `inferPropertyRules`: which `Layout` values each non-variant
property is structurally present under. -/
def usageMapFn (variants : List VariantEntry) (defs : List PropDefn)
    (variantNodes : Option (List SNode)) : List (String × List String) :=
  let init : List (String × List String) :=
    defs.foldl (fun m d => if d.type == "VARIANT" then m else setA m d.name []) []
  match variantNodes with
  | none => init
  | some ns =>
    ns.enum.foldl
      (fun m p =>
        match variants.get? p.1 with
        | none => m
        | some variant =>
          match lookupA variant.properties "Layout" with
          | some (.s v) =>
            if !(v == "") then
              (analyzeVariantStructure p.2 []).foldl
                (fun m propName =>
                  if (lookupA m propName).isSome then
                    updA m propName (fun set => addOnce set v)
                  else m)
                m
            else m
          | _ => m)
      init

/-- The rules pushed for one usage-map entry: a visibility condition for a
single-layout property, the hardcoded `Default` fallback for a zero-usage
property from the known list, nothing otherwise. -/
def usageRuleFor (kv : String × List String) : List Rule :=
  if kv.2.length = 1 then
    [⟨kv.1, some [("Layout", .s (kv.2.headD ""))], none⟩]
  else if kv.2.length = 0 then
    if kv.1 ∈ defaultOnlyProps then
      [⟨kv.1, some [("Layout", .s "Default")], none⟩]
    else []
  else []

/-- Phase 2: usage-based visibility rules. -/
def usageRules (m : List (String × List String)) : List Rule :=
  m.foldl (fun rules kv => rules ++ usageRuleFor kv) []

/-- Update the first rule with the given property name in place. -/
def updRule (rules : List Rule) (p : String) (f : Rule → Rule) : List Rule :=
  match rules with
  | [] => []
  | r :: t => if r.property == p then f r :: t else r :: updRule t p f

/-- Phase 3: attach the hardcoded child lists to (or create) the parent
rules. -/
def addParentChild (rules : List Rule) : List Rule :=
  parentChildMap.foldl
    (fun rules pc =>
      if (rules.find? (fun r => r.property == pc.1)).isSome then
        updRule rules pc.1 (fun r => { r with childProperties := some pc.2 })
      else rules ++ [⟨pc.1, none, some pc.2⟩])
    rules

/-- One child step of phase 4: a child with no rule gets the conjunction of
the parent's condition and `parent = true`; a child whose rule lacks a
visibility condition has one installed; a child whose rule already carries a
condition is left alone. -/
def extendChildStep (parentName : String) (w : List (String × SB))
    (rules : List Rule) (child : String) : List Rule :=
  match rules.find? (fun r => r.property == child) with
  | none => rules ++ [⟨child, some (w ++ [(parentName, .b true)]), none⟩]
  | some childRule =>
    if childRule.visibleWhen.isNone then
      updRule rules child
        (fun r => { r with visibleWhen := some (w ++ [(parentName, .b true)]) })
    else rules

/-- Phase 4: run the child step for every hardcoded parent whose rule
carries a visibility condition. -/
def extendChildren (rules : List Rule) : List Rule :=
  parentChildMap.foldl
    (fun rules pc =>
      match rules.find? (fun r => r.property == pc.1) with
      | some parentRule =>
        match parentRule.visibleWhen with
        | some w => pc.2.foldl (extendChildStep pc.1 w) rules
        | none => rules
      | none => rules)
    rules

/-- `inferPropertyRules`. -/
def inferPropertyRules (variants : List VariantEntry) (defs : List PropDefn)
    (variantNodes : Option (List SNode)) : List Rule :=
  extendChildren (addParentChild (usageRules (usageMapFn variants defs variantNodes)))

end Variants

namespace Variants

/-- One entry of the `variants` array of the enhanced component-set data
(`node` is the corresponding element of the variant-node list, which the
caller passes alongside). -/
structure EnhVariant where
  id : String
  name : String
  properties : List (String × SB)
  deriving DecidableEq, Repr

/-- The enhanced component-set data (the trailing `...componentSetNode`
spread is carried as the `node` field; the node's own `id`, `name`, `type`,
`key` and `description` — which the spread would re-assert — are identical
to the explicit fields by construction). -/
structure EnhancedData where
  id : String
  name : String
  key : Option String
  description : Option String
  propertyDefinitions : List PropDefn
  variants : List EnhVariant
  propertyRules : List Rule
  node : SNode

/-- `enhanceComponentSetData`: `null` for anything but a `COMPONENT_SET`;
variants are the direct `COMPONENT` children; parsed properties are
completed with defaults of `BOOLEAN` definitions. -/
def enhanceComponentSetData (componentSetNode : SNode) : Option EnhancedData :=
  if !((SNode.data componentSetNode).type == "COMPONENT_SET") then none
  else
    let variants := (SNode.children componentSetNode).filter
      (fun c => (SNode.data c).type == "COMPONENT")
    let defs := extractPropertyDefinitions componentSetNode variants
    let variantData := variants.map (fun v =>
      let parsed := parseVariantName (SNode.data v).name
      let fullProps := defs.foldl
        (fun fp d =>
          if d.type == "BOOLEAN" && (lookupA fp d.name).isNone then
            fp ++ [(d.name, d.defaultValue)]
          else fp)
        parsed
      (⟨(SNode.data v).id, (SNode.data v).name, fullProps⟩ : EnhVariant))
    let rules := inferPropertyRules
      (variantData.map (fun vd => (⟨vd.name, vd.properties⟩ : VariantEntry)))
      defs (some variants)
    some
      { id := (SNode.data componentSetNode).id,
        name := (SNode.data componentSetNode).name,
        key := (SNode.data componentSetNode).key,
        description := (SNode.data componentSetNode).description,
        propertyDefinitions := defs,
        variants := variantData,
        propertyRules := rules,
        node := componentSetNode }

end Variants

/-! ## `analyzeComponentSet` (part_009, C10) -/

namespace VariantAnalyzer

open Variants

/-- A slot record. -/
structure SlotInfo where
  slot : String
  content : String
  nodeId : Option String
  accepts : Option (List String)
  deriving DecidableEq, Repr

/-- A part_009 property rule (its `equals` values are stringified). -/
structure PRule where
  property : String
  visibleWhen : Option (List (String × String))
  childProperties : Option (List String)
  deriving DecidableEq, Repr

/-- A variant record (`structure` is a reserved word in Lean, so the
`structure` field is named `structSlots`). -/
structure VariantInfo where
  id : String
  name : String
  properties : List (String × SB)
  structSlots : List SlotInfo
  deriving DecidableEq, Repr

/-- The analysis result. -/
structure ComponentVariantAnalysis where
  componentSetId : String
  componentSetName : String
  variants : List VariantInfo
  propertyRules : List PRule
  slotDefinitions : List (String × SlotInfo)
  deriving DecidableEq, Repr

/-- `findVariants`: the direct `COMPONENT` children, followed by every node
of `allNodes` of type `COMPONENT` whose `componentSetId` references the
set. -/
def findVariants (componentSetNode : SNode) (allNodes : List SNode) :
    List SNode :=
  (SNode.children componentSetNode).filter
      (fun c => (SNode.data c).type == "COMPONENT")
    ++ allNodes.filter
      (fun n => (SNode.data n).type == "COMPONENT"
        && (SNode.data n).componentSetId == some (SNode.data componentSetNode).id)

/-- `extractAcceptedComponents`: the truthy `preferredValues` keys of the
instance's component properties. -/
def extractAcceptedComponents (d : SNodeData) : List String :=
  d.componentProperties.foldl
    (fun acc prop =>
      match prop.preferredValues with
      | some keys => acc ++ keys.filter (fun k => !(k == ""))
      | none => acc)
    []

mutual

/-- `traverseNode` of `extractStructure`: instance-swap slots, name-based
slots, then the children with a `/`-joined path. -/
def traverseNode : SNode → String → List SlotInfo
  | .mk d cs, path =>
    let s₁ :=
      match (if d.type == "INSTANCE" then
          d.componentProperties.find? (fun p => p.type == "INSTANCE_SWAP")
        else none) with
      | some swapProp =>
        [⟨if d.name == "" then path else d.name,
          "Instance swap: " ++ swapProp.name, some d.id,
          some (extractAcceptedComponents d)⟩]
      | none => []
    let s₂ :=
      if !(d.name == "")
          && (Js.includes d.name "slot" || Js.includes d.name "Slot") then
        [(⟨d.name, d.type, some d.id, none⟩ : SlotInfo)]
      else []
    s₁ ++ s₂ ++ travList cs path 0

def travList : List SNode → String → Nat → List SlotInfo
  | [], _, _ => []
  | c :: cs, path, i =>
    traverseNode c
        (path ++ "/" ++
          (if (SNode.data c).name == "" then toString i else (SNode.data c).name))
      ++ travList cs path (i + 1)

end

/-- `extractStructure`. -/
def extractStructure (componentNode : SNode) : List SlotInfo :=
  traverseNode componentNode ""

/-- `extractVariantInfo`: `null` for non-`COMPONENT` nodes; otherwise the
parsed name properties (the source re-implements `parseVariantName`'s split
logic inline, identically) and the slot structure. -/
def extractVariantInfo (componentNode : SNode) : Option VariantInfo :=
  if !((SNode.data componentNode).type == "COMPONENT") then none
  else
    some ⟨(SNode.data componentNode).id, (SNode.data componentNode).name,
      parseVariantName (SNode.data componentNode).name,
      extractStructure componentNode⟩

/-- Add a value to a `Record<string, Set<string>>`. -/
def addToSetMap (m : List (String × List String)) (k v : String) :
    List (String × List String) :=
  match lookupA m k with
  | some set => updA m k (fun s => addOnce s v)
  | none => m ++ [(k, [v])]

/-- The `/^(.+?)\s+\d+$/` parent-name match: a nonempty prefix, a whitespace
run, a digit run at the end; yields the prefix. -/
def parentMatch (name : String) : Option String :=
  let r := name.toList.reverse
  let d := r.takeWhile Char.isDigit
  let r1 := r.dropWhile Char.isDigit
  match d with
  | [] => none
  | _ :: _ =>
    let w := r1.takeWhile Char.isWhitespace
    let r2 := r1.dropWhile Char.isWhitespace
    match w, r2 with
    | _ :: _, _ :: _ => some ⟨r2.reverse⟩
    | _, _ => none

/-- Update the first part_009 rule with the given property name in place. -/
def updPRule (rules : List PRule) (p : String) (f : PRule → PRule) : List PRule :=
  match rules with
  | [] => []
  | r :: t => if r.property == p then f r :: t else r :: updPRule t p f

/-- `analyzePropertyRules`: co-occurrence-based visibility rules, then child
grouping from the set's property definitions. -/
def analyzePropertyRules (variants : List VariantInfo) (componentSetNode : SNode) :
    List PRule :=
  let occ : List (String × List String) :=
    variants.foldl
      (fun occ v =>
        v.properties.foldl
          (fun occ kv => addToSetMap occ kv.1 (sbToString kv.2)) occ)
      []
  let propertyNames := occ.map (fun kv => kv.1)
  let rules₁ : List PRule :=
    propertyNames.foldl
      (fun rules prop =>
        let appearsWith : List (String × List String) :=
          variants.foldl
            (fun aw v =>
              if (lookupA v.properties prop).isSome then
                propertyNames.foldl
                  (fun aw otherProp =>
                    if !(otherProp == prop)
                        && (lookupA v.properties otherProp).isSome then
                      addToSetMap aw otherProp
                        (sbToString ((lookupA v.properties otherProp).getD (.s "")))
                    else aw)
                  aw
              else aw)
            []
        let visibleWhen : List (String × String) :=
          appearsWith.foldl
            (fun vw kv =>
              let allValues := (lookupA occ kv.1).getD []
              if kv.2.length < allValues.length then
                if kv.2.length = 1 then vw ++ [(kv.1, kv.2.headD "")] else vw
              else vw)
            []
        if !visibleWhen.isEmpty then
          rules ++ [(⟨prop, some visibleWhen, none⟩ : PRule)]
        else rules)
      []
  match (SNode.data componentSetNode).componentPropertyDefinitions with
  | none => rules₁
  | some defs =>
    defs.foldl
      (fun rules d =>
        match parentMatch d.name with
        | some parentName =>
          if (rules.find? (fun r => r.property == parentName)).isSome then
            updPRule rules parentName (fun r =>
              { r with childProperties := some ((r.childProperties.getD []) ++ [d.name]) })
          else rules
        | none => rules)
      rules₁

/-- `extractSlotDefinitions`: first slot of each name wins, across all
variants. -/
def extractSlotDefinitions (variants : List SNode) :
    List (String × SlotInfo) :=
  variants.foldl
    (fun slots v =>
      match extractVariantInfo v with
      | some vi =>
        vi.structSlots.foldl
          (fun slots slot =>
            if (lookupA slots slot.slot).isNone then slots ++ [(slot.slot, slot)]
            else slots)
          slots
      | none => slots)
    []

/-- `analyzeComponentSet`: `null` for anything but a `COMPONENT_SET`. -/
def analyzeComponentSet (componentSetNode : SNode) (allNodes : List SNode) :
    Option ComponentVariantAnalysis :=
  if !((SNode.data componentSetNode).type == "COMPONENT_SET") then none
  else
    let variants := findVariants componentSetNode allNodes
    some
      { componentSetId := (SNode.data componentSetNode).id,
        componentSetName := (SNode.data componentSetNode).name,
        variants := variants.filterMap extractVariantInfo,
        propertyRules :=
          analyzePropertyRules (variants.filterMap extractVariantInfo)
            componentSetNode,
        slotDefinitions := extractSlotDefinitions variants }

end VariantAnalyzer

/-! ### C10 — type guards and variant discovery -/

/-- On a list of `COMPONENT` nodes, `extractVariantInfo` never rejects, and
the variant ids are the node ids in order. -/
theorem filterMap_extract_ids (l : List Variants.SNode)
    (h : ∀ v ∈ l, (Variants.SNode.data v).type = "COMPONENT") :
    (l.filterMap VariantAnalyzer.extractVariantInfo).map (fun vi => vi.id)
      = l.map (fun v => (Variants.SNode.data v).id) := by
  induction l with
  | nil => rfl
  | cons c cs ih =>
    have hc : VariantAnalyzer.extractVariantInfo c
        = some ⟨(Variants.SNode.data c).id, (Variants.SNode.data c).name,
            Variants.parseVariantName (Variants.SNode.data c).name,
            VariantAnalyzer.extractStructure c⟩ := by
      unfold VariantAnalyzer.extractVariantInfo
      simp [h c (List.mem_cons_self c cs)]
    simp only [List.filterMap_cons, hc, List.map_cons]
    rw [ih (fun v hv => h v (List.mem_cons_of_mem c hv))]

/-- C10 (amended): both analyzers return `null` (and build nothing) for any
node that is not a `COMPONENT_SET`.  For a `COMPONENT_SET`,
`enhanceComponentSetData` treats exactly the direct children of type
`COMPONENT` as variants, while `analyzeComponentSet` additionally treats
every node of `allNodes` of type `COMPONENT` whose `componentSetId` equals
the set's id as a variant. -/
theorem C10_component_set_guards :
    (∀ (n : Variants.SNode) (allNodes : List Variants.SNode),
      (Variants.SNode.data n).type ≠ "COMPONENT_SET" →
      Variants.enhanceComponentSetData n = none
      ∧ VariantAnalyzer.analyzeComponentSet n allNodes = none)
    ∧ (∀ cs : Variants.SNode, (Variants.SNode.data cs).type = "COMPONENT_SET" →
      ∃ e, Variants.enhanceComponentSetData cs = some e
        ∧ e.variants.map (fun v => v.id)
          = ((Variants.SNode.children cs).filter
              (fun c => (Variants.SNode.data c).type == "COMPONENT")).map
              (fun c => (Variants.SNode.data c).id))
    ∧ (∀ (cs : Variants.SNode) (allNodes : List Variants.SNode),
      (Variants.SNode.data cs).type = "COMPONENT_SET" →
      ∃ a, VariantAnalyzer.analyzeComponentSet cs allNodes = some a
        ∧ a.variants.map (fun v => v.id)
          = (((Variants.SNode.children cs).filter
                (fun c => (Variants.SNode.data c).type == "COMPONENT"))
              ++ allNodes.filter
                (fun n => (Variants.SNode.data n).type == "COMPONENT"
                  && (Variants.SNode.data n).componentSetId
                      == some (Variants.SNode.data cs).id)).map
              (fun c => (Variants.SNode.data c).id)) := by
  refine ⟨?_, ?_, ?_⟩
  · intro n allNodes h
    have hb : ((Variants.SNode.data n).type == "COMPONENT_SET") = false := by
      simp [h]
    constructor
    · unfold Variants.enhanceComponentSetData
      rw [hb]
      rfl
    · unfold VariantAnalyzer.analyzeComponentSet
      rw [hb]
      rfl
  · intro cs h
    have hb : ((Variants.SNode.data cs).type == "COMPONENT_SET") = true := by
      simp [h]
    unfold Variants.enhanceComponentSetData
    rw [hb]
    refine ⟨_, rfl, ?_⟩
    simp [List.map_map]
  · intro cs allNodes h
    have hb : ((Variants.SNode.data cs).type == "COMPONENT_SET") = true := by
      simp [h]
    unfold VariantAnalyzer.analyzeComponentSet
    rw [hb]
    refine ⟨_, rfl, ?_⟩
    unfold VariantAnalyzer.findVariants
    rw [filterMap_extract_ids]
    intro v hv
    rcases List.mem_append.mp hv with hv | hv
    · have := (List.mem_filter.mp hv).2
      simpa using this
    · have := (List.mem_filter.mp hv).2
      have := (Bool.and_eq_true _ _).mp this
      simpa using this.1

namespace VariantAnalyzer

/-- A component set with no children at all. -/
def c10cs : Variants.SNode :=
  .mk ⟨"cs1", "Set", "COMPONENT_SET", [], none, none, none, none⟩ []

/-- A component that is not a child of the set but references it through
`componentSetId`. -/
def c10ext : Variants.SNode :=
  .mk ⟨"c9", "Layout=X", "COMPONENT", [], some "cs1", none, none, none⟩ []

/-- A node that is not a component set. -/
def c10other : Variants.SNode :=
  .mk ⟨"n1", "X", "FRAME", [], none, none, none, none⟩ []

/-- A set with one direct `COMPONENT` child. -/
def c10child : Variants.SNode :=
  .mk ⟨"c1", "Layout=A", "COMPONENT", [], none, none, none, none⟩ []

/-- The set node owning `c10child`. -/
def c10cs2 : Variants.SNode :=
  .mk ⟨"cs2", "Set2", "COMPONENT_SET", [], none, none, none, none⟩ [c10child]

end VariantAnalyzer

/-- C10 as frozen ("only direct children of type COMPONENT are treated as
variants") is falsified on `analyzeComponentSet`: a set with *no* children
still acquires the externally-referencing component `c9` as a variant. -/
theorem C10_counterexample :
    (VariantAnalyzer.analyzeComponentSet VariantAnalyzer.c10cs
        [VariantAnalyzer.c10ext]).map (fun a => a.variants.map (fun v => v.id))
      = some ["c9"]
    ∧ (Variants.SNode.children VariantAnalyzer.c10cs).length = 0 := by
  refine ⟨by decide, by decide⟩

/-- Witness for C10 at concrete nodes: a `FRAME` yields `null` from both
analyzers; a set with one `COMPONENT` child yields exactly that child as
variant in `enhanceComponentSetData`, and `analyzeComponentSet` adds the
referencing external component. -/
theorem C10_component_set_guards_witness :
    (Variants.enhanceComponentSetData VariantAnalyzer.c10other = none
      ∧ VariantAnalyzer.analyzeComponentSet VariantAnalyzer.c10other [] = none)
    ∧ (∃ e, Variants.enhanceComponentSetData VariantAnalyzer.c10cs2 = some e
        ∧ e.variants.map (fun v => v.id)
          = ((Variants.SNode.children VariantAnalyzer.c10cs2).filter
              (fun c => (Variants.SNode.data c).type == "COMPONENT")).map
              (fun c => (Variants.SNode.data c).id))
    ∧ (∃ a, VariantAnalyzer.analyzeComponentSet VariantAnalyzer.c10cs2
          [VariantAnalyzer.c10ext] = some a
        ∧ a.variants.map (fun v => v.id)
          = (((Variants.SNode.children VariantAnalyzer.c10cs2).filter
                (fun c => (Variants.SNode.data c).type == "COMPONENT"))
              ++ [VariantAnalyzer.c10ext].filter
                (fun n => (Variants.SNode.data n).type == "COMPONENT"
                  && (Variants.SNode.data n).componentSetId
                      == some (Variants.SNode.data VariantAnalyzer.c10cs2).id)).map
              (fun c => (Variants.SNode.data c).id)) := by
  have h := C10_component_set_guards
  exact ⟨h.1 VariantAnalyzer.c10other [] (by decide),
    h.2.1 VariantAnalyzer.c10cs2 (by decide),
    h.2.2 VariantAnalyzer.c10cs2 [VariantAnalyzer.c10ext] (by decide)⟩

/-! ### Rule-pipeline lemmas for C7 and C8 -/

namespace Variants

theorem foldl_append_flatten {α β : Type} (g : α → List β) (m : List α)
    (init : List β) :
    m.foldl (fun acc x => acc ++ g x) init = init ++ (m.map g).flatten := by
  induction m generalizing init with
  | nil => simp
  | cons x xs ih => simp [ih]

theorem mem_usageRules {m : List (String × List String)}
    {kv : String × List String} (hkv : kv ∈ m) {r : Rule}
    (hr : r ∈ usageRuleFor kv) : r ∈ usageRules m := by
  unfold usageRules
  rw [foldl_append_flatten]
  simp only [List.nil_append, List.mem_flatten]
  exact ⟨usageRuleFor kv, List.mem_map.mpr ⟨kv, hkv, rfl⟩, hr⟩

theorem lookupA_mem {α : Type} {l : List (String × α)} {k : String} {v : α}
    (h : lookupA l k = some v) : (k, v) ∈ l := by
  unfold lookupA at h
  cases hfind : l.find? (fun kv => kv.1 == k) with
  | none => rw [hfind] at h; cases h
  | some kv =>
    rw [hfind] at h
    have h₁ := List.find?_some hfind
    have h₂ := List.mem_of_find?_eq_some hfind
    obtain ⟨k', v'⟩ := kv
    have hv : some v' = some v := h
    have hkk : k' = k := by simpa using h₁
    have hvv : v' = v := by injection hv
    rw [← hkk, ← hvv]
    exact h₂

/-- `updRule` under a `property`- and `visibleWhen`-preserving update keeps,
for every member, a member with the same property and condition. -/
theorem mem_updRule_preserve {rules : List Rule} {p : String} {f : Rule → Rule}
    (hf : ∀ x, (f x).property = x.property ∧ (f x).visibleWhen = x.visibleWhen)
    {r : Rule} (hr : r ∈ rules) :
    ∃ s ∈ updRule rules p f, s.property = r.property
      ∧ s.visibleWhen = r.visibleWhen := by
  induction rules with
  | nil => cases hr
  | cons x t ih =>
    unfold updRule
    by_cases hx : (x.property == p) = true
    · rw [hx]
      simp only [if_true, ite_true]
      rcases List.mem_cons.mp hr with hr1 | hr1
      · exact ⟨f x, List.mem_cons_self _ _, by rw [hr1]; exact (hf x).1,
          by rw [hr1]; exact (hf x).2⟩
      · exact ⟨r, List.mem_cons_of_mem _ hr1, rfl, rfl⟩
    · rw [Bool.not_eq_true] at hx
      rw [hx]
      simp only [Bool.false_eq_true, if_false, ite_false]
      rcases List.mem_cons.mp hr with hr1 | hr1
      · exact ⟨x, List.mem_cons_self _ _, by rw [hr1], by rw [hr1]⟩
      · obtain ⟨s, hs, h1, h2⟩ := ih hr1
        exact ⟨s, List.mem_cons_of_mem _ hs, h1, h2⟩

/-- A member whose property differs from the updated one survives `updRule`
unchanged. -/
theorem mem_updRule_of_prop_ne {rules : List Rule} {p : String} {f : Rule → Rule}
    {r : Rule} (hr : r ∈ rules) (hne : (r.property == p) = false) :
    r ∈ updRule rules p f := by
  induction rules with
  | nil => cases hr
  | cons x t ih =>
    unfold updRule
    by_cases hx : (x.property == p) = true
    · rw [if_pos hx]
      rcases List.mem_cons.mp hr with hr1 | hr1
      · exfalso
        rw [hr1, hx] at hne
        cases hne
      · exact List.mem_cons_of_mem _ hr1
    · rw [if_neg hx]
      rcases List.mem_cons.mp hr with hr1 | hr1
      · rw [hr1]; exact List.mem_cons_self _ _
      · exact List.mem_cons_of_mem _ (ih hr1)

/-- When the first match of the updated property has no visibility
condition, every member that *does* carry one survives `updRule`
unchanged. -/
theorem mem_updRule_of_vw_some {rules : List Rule} {p : String} {f : Rule → Rule}
    {c : Rule} (hfind : rules.find? (fun r => r.property == p) = some c)
    (hc : c.visibleWhen = none) {r : Rule} (hr : r ∈ rules)
    (hrw : r.visibleWhen.isSome) : r ∈ updRule rules p f := by
  induction rules with
  | nil => cases hr
  | cons x t ih =>
    unfold updRule
    by_cases hx : (x.property == p) = true
    · rw [@List.find?_cons_of_pos _ (fun r => r.property == p) x t hx] at hfind
      have hxc : x = c := by injection hfind
      rw [if_pos hx]
      rcases List.mem_cons.mp hr with hr1 | hr1
      · exfalso
        rw [hr1, hxc, hc] at hrw
        cases hrw
      · exact List.mem_cons_of_mem _ hr1
    · rw [@List.find?_cons_of_neg _ (fun r => r.property == p) x t hx] at hfind
      rw [if_neg hx]
      rcases List.mem_cons.mp hr with hr1 | hr1
      · rw [hr1]; exact List.mem_cons_self _ _
      · exact List.mem_cons_of_mem _ (ih hfind hr1)

/-- The first match itself is replaced by its image under `updRule`. -/
theorem image_mem_updRule {rules : List Rule} {p : String} {f : Rule → Rule}
    {c : Rule} (hfind : rules.find? (fun r => r.property == p) = some c) :
    f c ∈ updRule rules p f := by
  induction rules with
  | nil => cases hfind
  | cons x t ih =>
    unfold updRule
    by_cases hx : (x.property == p) = true
    · rw [@List.find?_cons_of_pos _ (fun r => r.property == p) x t hx] at hfind
      have hxc : x = c := by injection hfind
      rw [if_pos hx, hxc]
      exact List.mem_cons_self _ _
    · rw [@List.find?_cons_of_neg _ (fun r => r.property == p) x t hx] at hfind
      rw [if_neg hx]
      exact List.mem_cons_of_mem _ (ih hfind)

/-- `find?` at the updated property returns the image of the original first
match, provided the update preserves `property`. -/
theorem find?_updRule_same {rules : List Rule} {p : String} {f : Rule → Rule}
    (hf : ∀ x, (f x).property = x.property) {c : Rule}
    (hfind : rules.find? (fun r => r.property == p) = some c) :
    (updRule rules p f).find? (fun r => r.property == p) = some (f c) := by
  induction rules with
  | nil => cases hfind
  | cons x t ih =>
    unfold updRule
    by_cases hx : (x.property == p) = true
    · rw [@List.find?_cons_of_pos _ (fun r => r.property == p) x t hx] at hfind
      have hxc : x = c := by injection hfind
      rw [if_pos hx,
        @List.find?_cons_of_pos _ (fun r => r.property == p) (f x) t
          (by show ((f x).property == p) = true; rw [hf x]; exact hx),
        hxc]
    · rw [@List.find?_cons_of_neg _ (fun r => r.property == p) x t hx] at hfind
      rw [if_neg hx,
        @List.find?_cons_of_neg _ (fun r => r.property == p) x (updRule t p f) hx]
      exact ih hfind

/-- `find?` at a different property is untouched by `updRule`, provided the
update preserves `property`. -/
theorem find?_updRule_ne {rules : List Rule} {p q : String} {f : Rule → Rule}
    (hf : ∀ x, (f x).property = x.property) (hne : p ≠ q) :
    (updRule rules p f).find? (fun r => r.property == q)
      = rules.find? (fun r => r.property == q) := by
  induction rules with
  | nil => rfl
  | cons x t ih =>
    unfold updRule
    by_cases hx : (x.property == p) = true
    · have hxq : ¬ ((fun r => Rule.property r == q) x = true) := by
        simp only [beq_iff_eq] at hx ⊢
        rw [hx]
        exact fun h => hne h
      have hfxq : ¬ ((fun r => Rule.property r == q) (f x) = true) := by
        simp only [hf x]
        exact hxq
      rw [if_pos hx,
        @List.find?_cons_of_neg _ (fun r => r.property == q) (f x) t hfxq,
        @List.find?_cons_of_neg _ (fun r => r.property == q) x t hxq]
    · rw [if_neg hx]
      by_cases hxq : ((fun r => Rule.property r == q) x = true)
      · rw [@List.find?_cons_of_pos _ (fun r => r.property == q) x (updRule t p f) hxq,
          @List.find?_cons_of_pos _ (fun r => r.property == q) x t hxq]
      · rw [@List.find?_cons_of_neg _ (fun r => r.property == q) x (updRule t p f) hxq,
          @List.find?_cons_of_neg _ (fun r => r.property == q) x t hxq]
        exact ih

/-- `find?` over an appended non-matching singleton. -/
theorem find?_append_singleton_none {l : List Rule} {p : Rule → Bool}
    (h : l.find? p = none) {x : Rule} (hx : p x = false) :
    (l ++ [x]).find? p = none := by
  induction l with
  | nil => simp [List.find?, hx]
  | cons y t ih =>
    have hy := List.find?_eq_none.mp h y (List.mem_cons_self _ _)
    rw [List.cons_append, List.find?_cons_of_neg _ hy]
    refine ih ?_
    rw [List.find?_eq_none]
    intro a ha
    exact List.find?_eq_none.mp h a (List.mem_cons_of_mem _ ha)

/-- A member with a visibility condition survives one child step with its
property and condition intact. -/
theorem mem_extendChildStep {pn : String} {w : List (String × SB)}
    {rules : List Rule} {child : String} {r : Rule} (hr : r ∈ rules)
    (hrw : r.visibleWhen.isSome) :
    r ∈ extendChildStep pn w rules child := by
  unfold extendChildStep
  split
  next hfind => exact List.mem_append_left _ hr
  next childRule hfind =>
    split
    next hvw =>
      exact mem_updRule_of_vw_some hfind (Option.isNone_iff_eq_none.mp hvw) hr hrw
    next hvw => exact hr

/-- A member whose property is not the child's survives one child step
unchanged. -/
theorem mem_extendChildStep_of_ne {pn : String} {w : List (String × SB)}
    {rules : List Rule} {child : String} {r : Rule} (hr : r ∈ rules)
    (hne : (r.property == child) = false) :
    r ∈ extendChildStep pn w rules child := by
  unfold extendChildStep
  split
  next hfind => exact List.mem_append_left _ hr
  next childRule hfind =>
    split
    next hvw => exact mem_updRule_of_prop_ne hr hne
    next hvw => exact hr

/-- The concrete stage-3 unfolding (the hardcoded parent map is a
singleton). -/
theorem addParentChild_eq (rules : List Rule) :
    addParentChild rules =
      if (rules.find? (fun r => r.property == "Trailing icons")).isSome then
        updRule rules "Trailing icons"
          (fun r => { r with childProperties := some ["Icon 1", "Icon 2"] })
      else rules ++ [⟨"Trailing icons", none, some ["Icon 1", "Icon 2"]⟩] := rfl

/-- The concrete stage-4 unfolding. -/
theorem extendChildren_eq (rules : List Rule) :
    extendChildren rules =
      match rules.find? (fun r => r.property == "Trailing icons") with
      | some parentRule =>
        match parentRule.visibleWhen with
        | some w =>
          extendChildStep "Trailing icons" w
            (extendChildStep "Trailing icons" w rules "Icon 1") "Icon 2"
        | none => rules
      | none => rules := rfl

/-- A stage-2 rule with a visibility condition survives to the final rule
list (as a rule with the same property and condition). -/
theorem preserve_to_final {rules : List Rule} {r : Rule} (hr : r ∈ rules)
    {w : List (String × SB)} (hw : r.visibleWhen = some w) :
    ∃ s ∈ extendChildren (addParentChild rules),
      s.property = r.property ∧ s.visibleWhen = some w := by
  -- stage 2 keeps property and condition
  have h₂ : ∃ s ∈ addParentChild rules,
      s.property = r.property ∧ s.visibleWhen = some w := by
    rw [addParentChild_eq]
    by_cases hfind :
        ((rules.find? (fun r => r.property == "Trailing icons")).isSome) = true
    · rw [if_pos hfind]
      obtain ⟨s, hs, h1, h2⟩ :=
        @mem_updRule_preserve rules "Trailing icons"
          (fun r => { r with childProperties := some ["Icon 1", "Icon 2"] })
          (fun x => ⟨rfl, rfl⟩) r hr
      exact ⟨s, hs, h1, by rw [h2, hw]⟩
    · rw [if_neg hfind]
      exact ⟨r, List.mem_append_left _ hr, rfl, hw⟩
  obtain ⟨s, hs, h1, h2⟩ := h₂
  refine ⟨s, ?_, h1, h2⟩
  rw [extendChildren_eq]
  split
  next parentRule hfind =>
    split
    next w2 hvw =>
      exact mem_extendChildStep
        (mem_extendChildStep hs (by rw [h2]; rfl)) (by rw [h2]; rfl)
    next hvw => exact hs
  next hfind => exact hs

end Variants

/-- C7: for every non-variant property, if the structural-usage analysis
detects it under exactly one `Layout` value, the emitted rules contain a rule
requiring that value; if it is detected under zero values but belongs to the
hardcoded structurally-dependent list, a rule requiring `Layout = Default`
is still emitted. -/
theorem C7_visibility_rule_inference (variants : List Variants.VariantEntry)
    (defs : List Variants.PropDefn) (variantNodes : Option (List Variants.SNode))
    (p v : String) :
    (Variants.lookupA (Variants.usageMapFn variants defs variantNodes) p
        = some [v] →
      ∃ r ∈ Variants.inferPropertyRules variants defs variantNodes,
        r.property = p ∧ r.visibleWhen = some [("Layout", Variants.SB.s v)])
    ∧ (Variants.lookupA (Variants.usageMapFn variants defs variantNodes) p
        = some [] →
      p ∈ Variants.defaultOnlyProps →
      ∃ r ∈ Variants.inferPropertyRules variants defs variantNodes,
        r.property = p
          ∧ r.visibleWhen = some [("Layout", Variants.SB.s "Default")]) := by
  constructor
  · intro h
    have hmem := Variants.lookupA_mem h
    have hrule : (⟨p, some [("Layout", Variants.SB.s v)], none⟩ : Variants.Rule)
        ∈ Variants.usageRules (Variants.usageMapFn variants defs variantNodes) := by
      refine Variants.mem_usageRules hmem ?_
      unfold Variants.usageRuleFor
      simp
    obtain ⟨s, hs, h1, h2⟩ := Variants.preserve_to_final hrule rfl
    exact ⟨s, hs, h1, h2⟩
  · intro h hdef
    have hmem := Variants.lookupA_mem h
    have hrule :
        (⟨p, some [("Layout", Variants.SB.s "Default")], none⟩ : Variants.Rule)
        ∈ Variants.usageRules (Variants.usageMapFn variants defs variantNodes) := by
      refine Variants.mem_usageRules hmem ?_
      unfold Variants.usageRuleFor
      simp [hdef]
    obtain ⟨s, hs, h1, h2⟩ := Variants.preserve_to_final hrule rfl
    exact ⟨s, hs, h1, h2⟩

namespace Variants

/-- The `Title` text child of the `Layout=Default` variant of the C7
example. -/
def c7title : SNode :=
  .mk ⟨"t1", "Title", "TEXT", [⟨"Title#1:2", "Hello", "TEXT", none⟩],
    none, none, none, none⟩ []

/-- `Layout=Default` variant possessing the `Title` text property. -/
def c7v1 : SNode :=
  .mk ⟨"v1", "Layout=Default", "COMPONENT", [], none, none, none, none⟩ [c7title]

/-- `Layout=Compact` variant lacking it. -/
def c7v2 : SNode :=
  .mk ⟨"v2", "Layout=Compact", "COMPONENT", [], none, none, none, none⟩ []

/-- The owning component set of the C7 example. -/
def c7cs : SNode :=
  .mk ⟨"cs7", "TopBar", "COMPONENT_SET", [], none, none, none, none⟩ [c7v1, c7v2]

/-- The parsed variant entries of the C7 example. -/
def c7entries : List VariantEntry :=
  [⟨"Layout=Default", parseVariantName "Layout=Default"⟩,
   ⟨"Layout=Compact", parseVariantName "Layout=Compact"⟩]

/-- The extracted property definitions of the C7 example. -/
def c7defs : List PropDefn := extractPropertyDefinitions c7cs [c7v1, c7v2]

end Variants

/-- Witness for C7 at the specification's example: two variants, the
`Layout=Default` one possessing a `Title` text property and the
`Layout=Compact` one lacking it, yield the rule
`{property: Title, visibleWhen: [{property: Layout, equals: Default}]}`. -/
theorem C7_visibility_rule_inference_witness :
    Variants.lookupA
        (Variants.usageMapFn Variants.c7entries Variants.c7defs
          (some [Variants.c7v1, Variants.c7v2])) "Title" = some ["Default"]
    ∧ ∃ r ∈ Variants.inferPropertyRules Variants.c7entries Variants.c7defs
        (some [Variants.c7v1, Variants.c7v2]),
      r.property = "Title"
        ∧ r.visibleWhen = some [("Layout", Variants.SB.s "Default")] :=
  ⟨by decide,
   (C7_visibility_rule_inference Variants.c7entries Variants.c7defs
      (some [Variants.c7v1, Variants.c7v2]) "Title" "Default").1 (by decide)⟩

namespace Variants

/-- `find?` at a property other than the stepped child is untouched by one
child step. -/
theorem find?_extendChildStep_ne {pn : String} {w : List (String × SB)}
    {rules : List Rule} {child c : String} (hne : child ≠ c)
    (h : rules.find? (fun r => r.property == c) = none) :
    (extendChildStep pn w rules child).find? (fun r => r.property == c)
      = none := by
  unfold extendChildStep
  split
  next hfind =>
    refine find?_append_singleton_none h ?_
    simpa using fun hcc => hne hcc
  next childRule hfind =>
    split
    next hvw =>
      rw [@find?_updRule_ne rules child c
        (fun r => { r with visibleWhen := some (w ++ [(pn, SB.b true)]) })
        (fun x => rfl) hne]
      exact h
    next hvw => exact h

/-- A child step with no existing rule for the child appends the
conjunction rule. -/
theorem extendChildStep_of_none {pn : String} {w : List (String × SB)}
    {rules : List Rule} {child : String}
    (h : rules.find? (fun r => r.property == child) = none) :
    extendChildStep pn w rules child
      = rules ++ [⟨child, some (w ++ [(pn, .b true)]), none⟩] := by
  unfold extendChildStep
  rw [h]

/-- Stage-4 unfolding when the parent rule and its condition are known. -/
theorem extendChildren_of_parent {rules : List Rule} {pr : Rule}
    {w : List (String × SB)}
    (hfind : rules.find? (fun r => r.property == "Trailing icons") = some pr)
    (hw : pr.visibleWhen = some w) :
    extendChildren rules
      = extendChildStep "Trailing icons" w
          (extendChildStep "Trailing icons" w rules "Icon 1") "Icon 2" := by
  rw [extendChildren_eq]
  simp only [hfind, hw]

end Variants

/-- C8 (amended): the emitted rules always contain a `Trailing icons` rule
with `childProperties = ["Icon 1", "Icon 2"]`.  When the usage phase
produced a `Trailing icons` rule carrying a visibility condition `w`, every
hardcoded child *without* a usage-phase rule of its own receives a rule
whose condition is `w` extended by `Trailing icons = true`; a child that
already has a usage-phase rule with a condition keeps that condition
unchanged. -/
theorem C8_parent_child_grouping :
    (∀ (variants : List Variants.VariantEntry) (defs : List Variants.PropDefn)
        (variantNodes : Option (List Variants.SNode)),
      ∃ r ∈ Variants.inferPropertyRules variants defs variantNodes,
        r.property = "Trailing icons"
          ∧ r.childProperties = some ["Icon 1", "Icon 2"])
    ∧ (∀ (variants : List Variants.VariantEntry) (defs : List Variants.PropDefn)
        (variantNodes : Option (List Variants.SNode)) (pr : Variants.Rule)
        (w : List (String × Variants.SB)) (c : String),
      (Variants.usageRules
          (Variants.usageMapFn variants defs variantNodes)).find?
          (fun r => r.property == "Trailing icons") = some pr →
      pr.visibleWhen = some w →
      (c = "Icon 1" ∨ c = "Icon 2") →
      (Variants.usageRules
          (Variants.usageMapFn variants defs variantNodes)).find?
          (fun r => r.property == c) = none →
      ∃ r ∈ Variants.inferPropertyRules variants defs variantNodes,
        r.property = c
          ∧ r.visibleWhen
              = some (w ++ [("Trailing icons", Variants.SB.b true)]))
    ∧ (∀ (variants : List Variants.VariantEntry) (defs : List Variants.PropDefn)
        (variantNodes : Option (List Variants.SNode)) (cr : Variants.Rule)
        (wc : List (String × Variants.SB)) (c : String),
      (Variants.usageRules
          (Variants.usageMapFn variants defs variantNodes)).find?
          (fun r => r.property == c) = some cr →
      cr.visibleWhen = some wc →
      ∃ r ∈ Variants.inferPropertyRules variants defs variantNodes,
        r.property = c ∧ r.visibleWhen = some wc) := by
  refine ⟨?_, ?_, ?_⟩
  · intro variants defs variantNodes
    show ∃ r ∈ Variants.extendChildren (Variants.addParentChild
      (Variants.usageRules (Variants.usageMapFn variants defs variantNodes))), _
    set s₁ := Variants.usageRules (Variants.usageMapFn variants defs variantNodes)
      with hs₁
    have h₂ : ∃ r ∈ Variants.addParentChild s₁,
        r.property = "Trailing icons"
          ∧ r.childProperties = some ["Icon 1", "Icon 2"] := by
      rw [Variants.addParentChild_eq]
      by_cases hfind :
          ((s₁.find? (fun r => r.property == "Trailing icons")).isSome) = true
      · rw [if_pos hfind]
        obtain ⟨pr, hpr⟩ := Option.isSome_iff_exists.mp hfind
        refine ⟨_, Variants.image_mem_updRule hpr, ?_, rfl⟩
        have := List.find?_some hpr
        simpa using this
      · rw [if_neg hfind]
        exact ⟨_, List.mem_append_right _ (List.mem_singleton_self _), rfl, rfl⟩
    obtain ⟨r₂, hr₂, hp₂, hc₂⟩ := h₂
    refine ⟨r₂, ?_, hp₂, hc₂⟩
    rw [Variants.extendChildren_eq]
    split
    next parentRule hfind =>
      split
      next w2 hvw =>
        refine Variants.mem_extendChildStep_of_ne
          (Variants.mem_extendChildStep_of_ne hr₂ ?_) ?_
        · rw [hp₂]; decide
        · rw [hp₂]; decide
      next hvw => exact hr₂
    next hfind => exact hr₂
  · intro variants defs variantNodes pr w c h1 h2 hc h3
    set s₁ := Variants.usageRules (Variants.usageMapFn variants defs variantNodes)
      with hs₁
    have hcne : "Trailing icons" ≠ c := by
      rcases hc with rfl | rfl <;> decide
    have hfind2 :
        ((s₁.find? (fun r => r.property == "Trailing icons")).isSome) = true := by
      rw [h1]; rfl
    have hs₂ : Variants.addParentChild s₁
        = Variants.updRule s₁ "Trailing icons"
            (fun r => { r with childProperties := some ["Icon 1", "Icon 2"] }) := by
      rw [Variants.addParentChild_eq, if_pos hfind2]
    have hfindTI :
        (Variants.updRule s₁ "Trailing icons"
            (fun r => { r with childProperties := some ["Icon 1", "Icon 2"] })).find?
            (fun r => r.property == "Trailing icons")
          = some { pr with childProperties := some ["Icon 1", "Icon 2"] } :=
      @Variants.find?_updRule_same s₁ "Trailing icons"
        (fun r => { r with childProperties := some ["Icon 1", "Icon 2"] })
        (fun x => rfl) pr h1
    have hfindc :
        (Variants.updRule s₁ "Trailing icons"
            (fun r => { r with childProperties := some ["Icon 1", "Icon 2"] })).find?
            (fun r => r.property == c) = none := by
      rw [@Variants.find?_updRule_ne s₁ "Trailing icons" c
        (fun r => { r with childProperties := some ["Icon 1", "Icon 2"] })
        (fun x => rfl) hcne]
      exact h3
    have hvw2 :
        ({ pr with childProperties := some ["Icon 1", "Icon 2"] }
          : Variants.Rule).visibleWhen = some w := h2
    show ∃ r ∈ Variants.extendChildren (Variants.addParentChild s₁), _
    rw [hs₂, Variants.extendChildren_of_parent hfindTI hvw2]
    rcases hc with rfl | rfl
    · -- c = "Icon 1": the first child step appends the conjunction rule
      have hstep1 : Variants.extendChildStep "Trailing icons" w
          (Variants.updRule s₁ "Trailing icons"
            (fun r => { r with childProperties := some ["Icon 1", "Icon 2"] }))
          "Icon 1"
          = Variants.updRule s₁ "Trailing icons"
              (fun r => { r with childProperties := some ["Icon 1", "Icon 2"] })
            ++ [⟨"Icon 1", some (w ++ [("Trailing icons", Variants.SB.b true)]),
                none⟩] :=
        Variants.extendChildStep_of_none hfindc
      refine ⟨⟨"Icon 1", some (w ++ [("Trailing icons", Variants.SB.b true)]),
        none⟩, ?_, rfl, rfl⟩
      refine Variants.mem_extendChildStep_of_ne ?_ rfl
      rw [hstep1]
      exact List.mem_append_right _ (List.mem_singleton_self _)
    · -- c = "Icon 2": still no rule after the first child step, so the
      -- second child step appends the conjunction rule
      have hfindc3 : (Variants.extendChildStep "Trailing icons" w
          (Variants.updRule s₁ "Trailing icons"
            (fun r => { r with childProperties := some ["Icon 1", "Icon 2"] }))
          "Icon 1").find? (fun r => r.property == "Icon 2") = none :=
        Variants.find?_extendChildStep_ne (by decide) hfindc
      have hstep2 : Variants.extendChildStep "Trailing icons" w
          (Variants.extendChildStep "Trailing icons" w
            (Variants.updRule s₁ "Trailing icons"
              (fun r => { r with childProperties := some ["Icon 1", "Icon 2"] }))
            "Icon 1") "Icon 2"
          = Variants.extendChildStep "Trailing icons" w
              (Variants.updRule s₁ "Trailing icons"
                (fun r => { r with childProperties := some ["Icon 1", "Icon 2"] }))
              "Icon 1"
            ++ [⟨"Icon 2", some (w ++ [("Trailing icons", Variants.SB.b true)]),
                none⟩] :=
        Variants.extendChildStep_of_none hfindc3
      refine ⟨⟨"Icon 2", some (w ++ [("Trailing icons", Variants.SB.b true)]),
        none⟩, ?_, rfl, rfl⟩
      rw [hstep2]
      exact List.mem_append_right _ (List.mem_singleton_self _)
  · intro variants defs variantNodes cr wc c hfind hvw
    have hcr := List.mem_of_find?_eq_some hfind
    have hprop : cr.property = c := by simpa using List.find?_some hfind
    obtain ⟨s, hs, h1, h2⟩ := Variants.preserve_to_final hcr hvw
    exact ⟨s, hs, by rw [h1, hprop], h2⟩

namespace Variants

/-- `icon 1` instance exposing the `Icon 1` instance-swap property. -/
def c8Icon1 : SNode :=
  .mk ⟨"i1", "icon 1", "INSTANCE", [⟨"Icon 1#10:1", "X", "INSTANCE_SWAP", none⟩],
    none, none, none, none⟩ []

/-- `icon 2` instance exposing the `Icon 2` instance-swap property. -/
def c8Icon2 : SNode :=
  .mk ⟨"i2", "icon 2", "INSTANCE", [⟨"Icon 2#10:2", "Y", "INSTANCE_SWAP", none⟩],
    none, none, none, none⟩ []

/-- `Layout=Default` variant with both icons (its own name also exposes the
`Trailing icons` usage pattern). -/
def c8ceV1 : SNode :=
  .mk ⟨"v1", "Layout=Default, Trailing icons=true", "COMPONENT", [],
    none, none, none, none⟩ [c8Icon1, c8Icon2]

/-- Counterexample second variant: only `icon 1`, so `Icon 2` is present
under exactly one layout and receives its own usage rule. -/
def c8ceV2 : SNode :=
  .mk ⟨"v2", "Layout=Compact", "COMPONENT", [], none, none, none, none⟩ [c8Icon1]

/-- Counterexample component set. -/
def c8ceSet : SNode :=
  .mk ⟨"cs8", "Bar", "COMPONENT_SET", [], none, none, none, none⟩ [c8ceV1, c8ceV2]

/-- Witness second variant: both icons, so neither icon gets its own rule
and both receive the parent conjunction. -/
def c8wV2 : SNode :=
  .mk ⟨"v2", "Layout=Compact", "COMPONENT", [], none, none, none, none⟩
    [c8Icon1, c8Icon2]

/-- Witness component set. -/
def c8wSet : SNode :=
  .mk ⟨"cs8w", "Bar", "COMPONENT_SET", [], none, none, none, none⟩ [c8ceV1, c8wV2]

/-- Witness variant entries. -/
def c8wEntries : List VariantEntry :=
  [⟨"Layout=Default, Trailing icons=true",
    parseVariantName "Layout=Default, Trailing icons=true"⟩,
   ⟨"Layout=Compact", parseVariantName "Layout=Compact"⟩]

/-- Witness property definitions. -/
def c8wDefs : List PropDefn := extractPropertyDefinitions c8wSet [c8ceV1, c8wV2]

/-- Counterexample variant entries. -/
def c8ceEntries : List VariantEntry :=
  [⟨"Layout=Default, Trailing icons=true",
    parseVariantName "Layout=Default, Trailing icons=true"⟩,
   ⟨"Layout=Compact", parseVariantName "Layout=Compact"⟩]

/-- Counterexample property definitions. -/
def c8ceDefs : List PropDefn := extractPropertyDefinitions c8ceSet [c8ceV1, c8ceV2]

end Variants

/-- C8 as frozen is falsified: this variant set exposes the `Icon 1` and
`Icon 2` instance-swap properties and the boolean `Trailing icons`
property, and the `Trailing icons` rule with both children is emitted — but
`Icon 2`, being structurally present under exactly one layout, keeps its own
usage rule `[Layout = Default]` and never receives the claimed conjunction
with `Trailing icons = true`. -/
theorem C8_counterexample :
    (Variants.enhanceComponentSetData Variants.c8ceSet).map (fun e =>
      (e.propertyDefinitions.any
          (fun d => d.name == "Icon 1" && d.type == "INSTANCE_SWAP"),
       e.propertyDefinitions.any
          (fun d => d.name == "Icon 2" && d.type == "INSTANCE_SWAP"),
       e.propertyDefinitions.any
          (fun d => d.name == "Trailing icons" && d.type == "BOOLEAN"),
       e.propertyRules.any
          (fun r => r.property == "Trailing icons"
            && r.childProperties == some ["Icon 1", "Icon 2"]),
       e.propertyRules.any
          (fun r => r.property == "Icon 2"
            && r.visibleWhen == some [("Layout", Variants.SB.s "Default"),
                ("Trailing icons", Variants.SB.b true)])))
      = some (true, true, true, true, false) := by
  decide

/-- Witness for C8: in a set where both icons occur in both layouts (so
neither has a usage rule of its own) and `Trailing icons` occurs only under
`Layout=Default`, the parent rule carries the children and both icons
receive `[Layout = Default, Trailing icons = true]`; and in the
counterexample set, `Icon 2` keeps its own `[Layout = Default]` rule. -/
theorem C8_parent_child_grouping_witness :
    (∃ r ∈ Variants.inferPropertyRules Variants.c8wEntries Variants.c8wDefs
        (some [Variants.c8ceV1, Variants.c8wV2]),
      r.property = "Trailing icons"
        ∧ r.childProperties = some ["Icon 1", "Icon 2"])
    ∧ (∃ r ∈ Variants.inferPropertyRules Variants.c8wEntries Variants.c8wDefs
        (some [Variants.c8ceV1, Variants.c8wV2]),
      r.property = "Icon 1"
        ∧ r.visibleWhen = some ([("Layout", Variants.SB.s "Default")]
            ++ [("Trailing icons", Variants.SB.b true)]))
    ∧ (∃ r ∈ Variants.inferPropertyRules Variants.c8wEntries Variants.c8wDefs
        (some [Variants.c8ceV1, Variants.c8wV2]),
      r.property = "Icon 2"
        ∧ r.visibleWhen = some ([("Layout", Variants.SB.s "Default")]
            ++ [("Trailing icons", Variants.SB.b true)]))
    ∧ (∃ r ∈ Variants.inferPropertyRules Variants.c8ceEntries Variants.c8ceDefs
        (some [Variants.c8ceV1, Variants.c8ceV2]),
      r.property = "Icon 2"
        ∧ r.visibleWhen = some [("Layout", Variants.SB.s "Default")]) := by
  have h := C8_parent_child_grouping
  refine ⟨h.1 Variants.c8wEntries Variants.c8wDefs
      (some [Variants.c8ceV1, Variants.c8wV2]), ?_, ?_, ?_⟩
  · exact h.2.1 Variants.c8wEntries Variants.c8wDefs
      (some [Variants.c8ceV1, Variants.c8wV2])
      ⟨"Trailing icons", some [("Layout", Variants.SB.s "Default")], none⟩
      [("Layout", Variants.SB.s "Default")] "Icon 1"
      (by decide) (by decide) (Or.inl rfl) (by decide)
  · exact h.2.1 Variants.c8wEntries Variants.c8wDefs
      (some [Variants.c8ceV1, Variants.c8wV2])
      ⟨"Trailing icons", some [("Layout", Variants.SB.s "Default")], none⟩
      [("Layout", Variants.SB.s "Default")] "Icon 2"
      (by decide) (by decide) (Or.inr rfl) (by decide)
  · exact h.2.2 Variants.c8ceEntries Variants.c8ceDefs
      (some [Variants.c8ceV1, Variants.c8ceV2])
      ⟨"Icon 2", some [("Layout", Variants.SB.s "Default")], none⟩
      [("Layout", Variants.SB.s "Default")] "Icon 2"
      (by decide) (by decide)

/-! ## C3 — the post-resolution pass (`resolveVariablesInDesign`, part_004)

Value-level model of the third `resolveVariablesInDesign` in
`src/unnamed/part_004` (lines 288–477) together with the text-style
resolvers of the design-token `variable-mappings` module it imports
(`src/unnamed/part_007`).  Conventions:

* `JSON.parse(JSON.stringify(x))` is a deep copy; at the value level it is
  the identity (the aliasing/mutation aspect is treated separately under
  claim C4 with an explicit heap model).
* The `Set` of variable ids is an insertion-ordered deduplicating list; the
  `Map` of resolutions is an association list.  Since the ids are
  deduplicated, each key is `set` exactly once and `filterMap` models the
  build loop exactly.
* The source functions recurse over arrays and object values; on the
  cons-encoded `Json` this is structural recursion over the cons cells (a
  non-array tail of an `arrCons` never arises from a JavaScript value).
* `applyResolutions` rewrites an object (`variable`/`variableId` fields)
  and then recurses into the values of the rewritten object.  The rewrite
  writes only strings, on which the recursion is the identity, and the
  recursion preserves each field's key, string-ness and truthiness, so
  rewriting after the per-field recursion (as `applyResolutionsJ` does, to
  stay structurally recursive) produces the same object.
* The id-resolution loop calls `varId.startsWith` and the text-style lookup
  calls `styleId.startsWith`/`fontFamily.toLowerCase`, which throw on
  non-string operands; the model covers designs whose collected `variable`,
  truthy `textStyleId` and truthy `fontFamily` fields are strings (on other
  designs the source function rejects with a `TypeError`). -/

namespace DesignTokens

/-- Parsed text-style font properties (`TextStyleMapping.properties` of
`part_007`). -/
structure TextStyleProps where
  fontFamily : Option String
  fontWeight : Option Int
  fontSize : Option Int
  lineHeight : Option Int
  letterSpacing : Option Int
  deriving DecidableEq, Repr

/-- A text-style mapping `{styleId, name, properties}` of `part_007`. -/
structure TextStyleMapping where
  styleId : String
  name : String
  properties : TextStyleProps
  deriving DecidableEq, Repr

/-- `resolveTextStyleFromMapping(styleId)` of `part_007`: exact match, then
with an added `S:` prefix, then with a stripped `S:` prefix. -/
def resolveTextStyleFromMapping (styleId : String)
    (textStyles : List TextStyleMapping) : Option String :=
  let m1 := textStyles.find? (fun s => s.styleId == styleId)
  let m2 :=
    match m1 with
    | some m => some m
    | none =>
      if !(Js.startsWith styleId "S:") then
        textStyles.find? (fun s => s.styleId == "S:" ++ styleId)
      else none
  let m3 :=
    match m2 with
    | some m => some m
    | none =>
      if Js.startsWith styleId "S:" then
        textStyles.find? (fun s => s.styleId == (⟨styleId.toList.drop 2⟩ : String))
      else none
  m3.map (fun m => m.name)

/-- The argument object of `resolveTextStyleByProperties`, as read off a
style-data object (fields may be absent). -/
structure TextStyleQuery where
  fontFamily : Option Json
  fontSize : Option Json
  fontWeight : Option Json
  lineHeight : Option Json
  deriving Repr

/-- `resolveTextStyleByProperties(properties)` of `part_007`: find the first
text style whose normalized font family does not conflict and whose
`fontSize`/`fontWeight` strictly equal the queried ones when queried
(`lineHeight` is not compared by the source). -/
def resolveTextStyleByProperties (q : TextStyleQuery)
    (textStyles : List TextStyleMapping) : Option String :=
  let normalizedFamily : Option String :=
    match q.fontFamily with
    | some (.str s) => some (stripWs (lowerStr s))
    | _ => none
  let hit := textStyles.find? (fun style =>
    let styleFamilyNorm : Option String :=
      style.properties.fontFamily.map (fun f => stripWs (lowerStr f))
    let famReject : Bool :=
      match normalizedFamily, styleFamilyNorm with
      | some a, some b => Js.truthyStr a && Js.truthyStr b && a != b
      | _, _ => false
    if famReject then false
    else if q.fontSize.isSome && (style.properties.fontSize.map Json.num) != q.fontSize then
      false
    else if q.fontWeight.isSome && (style.properties.fontWeight.map Json.num) != q.fontWeight then
      false
    else true)
  hit.map (fun m => m.name)

end DesignTokens

namespace PostResolve

/-- Truthiness of a possibly-absent field value (`undefined` is falsy). -/
def optTruthy : Option Json → Bool
  | some v => jsTruthy v
  | none => false

/-- Truthiness of a `string | null` result. -/
def optStrTruthy : Option String → Bool
  | some s => Js.truthyStr s
  | none => false

/-- `Map.get` on the resolutions association list. -/
def mapGet (m : List (String × String)) (k : String) : Option String :=
  (m.find? (fun p => p.1 == k)).map (fun p => p.2)

/-- `variableIds.add(data.variable)`: insertion-ordered, deduplicating (the
model covers designs whose collected `variable` fields are strings, see the
module comment). -/
def addVar (d : Json) (acc : List String) : List String :=
  match d.getField "variable" with
  | some (.str s) => if acc.contains s then acc else acc ++ [s]
  | _ => acc

mutual
/-- `findVariableIds(data, variableIds)` of part_004: arrays visit items,
recording objects that carry a `variable` key without recursing into them;
objects record their own `variable` and recurse into every value. -/
def findVariableIdsJ : Json → List String → List String
  | .arrCons hd tl, acc =>
    findVariableIdsJ tl
      (if hd.jsTruthy && hd.isObjLike && hd.hasField "variable" then addVar hd acc
       else findVariableIdsJ hd acc)
  | .objCons k v rest, acc =>
    findIdsVals rest (findVariableIdsJ v (addVar (.objCons k v rest) acc))
  | _, acc => acc
/-- The `Object.values` loop of `findVariableIds` over the remaining
fields. -/
def findIdsVals : Json → List String → List String
  | .objCons _ v rest, acc => findIdsVals rest (findVariableIdsJ v acc)
  | _, acc => acc
end

/-- One step of the id-resolution loop of `resolveVariablesInDesign`:
unwrap `Variable[XX:YY]` to `VariableID:XX:YY`, resolve from the
design-token mappings, and keep only a truthy resolved name (the
`if (resolvedName)` gate before `resolutions.set`). -/
def resolveForId (T : List VariableMapping) (varId : String) : Option String :=
  match DesignTokens.resolveVariableFromMapping
      (if Js.startsWith varId "Variable[" && Js.endsWith varId "]" then
        "VariableID:" ++ Js.sliceDropEnds varId 9 1
      else varId) T with
  | some n => if Js.truthyStr n then some n else none
  | none => none

/-- The id-resolution loop: each deduplicated id is `set` at most once, so
the `Map` is the association list of the successfully resolved ids. -/
def buildResolutions (T : List VariableMapping) (ids : List String) :
    List (String × String) :=
  ids.filterMap (fun varId => (resolveForId T varId).map (fun n => (varId, n)))

/-- The `'variable' in data` rewrite block of `applyResolutions`: on a truthy
resolution, write `variableId` (only when the present value is falsy:
`!item.variableId`), converting `Variable[XX:YY]` to `VariableID:XX:YY`,
then overwrite `variable` with the resolved name.  On objects without a
string `variable` or without a truthy resolution this is the identity. -/
def applyVarObj (res : List (String × String)) (d : Json) : Json :=
  match d.getField "variable" with
  | some (.str s) =>
    match mapGet res s with
    | some r =>
      if Js.truthyStr r then
        let vidFalsy :=
          match d.getField "variableId" with
          | some w => !jsTruthy w
          | none => true
        let d1 :=
          if vidFalsy && Js.startsWith s "Variable[" then
            d.setField "variableId" (.str ("VariableID:" ++ Js.sliceDropEnds s 9 1))
          else if vidFalsy then
            d.setField "variableId" (.str s)
          else d
        d1.setField "variable" (.str r)
      else d
    | none => d
  | _ => d

mutual
/-- `applyResolutions(data, resolutions)` of part_004: arrays rewrite items
that carry a `variable` key in place (without recursing into them) and
recurse into the others; objects rewrite their own `variable`/`variableId`
and recurse into every value.  See the module comment on the
rewrite/recursion order. -/
def applyResolutionsJ (res : List (String × String)) : Json → Json
  | .arrCons hd tl =>
    .arrCons
      (if hd.jsTruthy && hd.isObjLike && hd.hasField "variable" then applyVarObj res hd
       else applyResolutionsJ res hd)
      (applyResolutionsJ res tl)
  | .objCons k v rest =>
    applyVarObj res (.objCons k (applyResolutionsJ res v) (applyResFields res rest))
  | j => j
/-- The `Object.values` loop of `applyResolutions` over the remaining
fields. -/
def applyResFields (res : List (String × String)) : Json → Json
  | .objCons k v rest => .objCons k (applyResolutionsJ res v) (applyResFields res rest)
  | j => j
end

/-- The values of the `globalVars.styles` container, in iteration order
(`Object.values`; for an array container, its elements). -/
def styleVals : Json → List Json
  | .objCons _ v rest => v :: styleVals rest
  | .arrCons hd tl => hd :: styleVals tl
  | _ => []

/-- The id-collection loop `for (const styleData of Object.values(styles))
findVariableIds(styleData, variableIds)`. -/
def collectStyleVals : Json → List String → List String
  | .objCons _ v rest, acc => collectStyleVals rest (findVariableIdsJ v acc)
  | .arrCons hd tl, acc => collectStyleVals tl (findVariableIdsJ hd acc)
  | _, acc => acc

/-- The application loop `for (const styleData of Object.values(styles))
applyResolutions(styleData, resolutions)` (in-place mutation of each style
value). -/
def applyStyleVals (res : List (String × String)) : Json → Json
  | .objCons k v rest => .objCons k (applyResolutionsJ res v) (applyStyleVals res rest)
  | .arrCons hd tl => .arrCons (applyResolutionsJ res hd) (applyStyleVals res tl)
  | j => j

/-- One entry of the `resolveTextStyles` loop: an object-like style value
with a truthy (string) `textStyleId` is replaced by its resolved semantic
name — by style id, else by font properties when `fontFamily` is truthy —
when one is found; everything else is left in place. -/
def textEntryVal (textStyles : List DesignTokens.TextStyleMapping) (v : Json) : Json :=
  if v.jsTruthy && v.isObjLike then
    match v.getField "textStyleId" with
    | some (.str tid) =>
      if Js.truthyStr tid then
        let r1 := DesignTokens.resolveTextStyleFromMapping tid textStyles
        let r2 :=
          if !(optStrTruthy r1) && optTruthy (v.getField "fontFamily") then
            DesignTokens.resolveTextStyleByProperties
              ⟨v.getField "fontFamily", v.getField "fontSize",
               v.getField "fontWeight", v.getField "lineHeight"⟩ textStyles
          else r1
        match r2 with
        | some n => if Js.truthyStr n then .str n else v
        | none => v
      else v
    | _ => v
  else v

/-- The `resolveTextStyles` entry loop over `globalVars.styles`
(`Object.entries` with in-place reassignment of resolved entries). -/
def textStyleVals (textStyles : List DesignTokens.TextStyleMapping) : Json → Json
  | .objCons k v rest =>
    .objCons k (textEntryVal textStyles v) (textStyleVals textStyles rest)
  | .arrCons hd tl =>
    .arrCons (textEntryVal textStyles hd) (textStyleVals textStyles tl)
  | j => j

/-- The repeated guard `data.globalVars && data.globalVars.styles`: both
fields present and truthy. -/
def gvStyles (d : Json) : Option (Json × Json) :=
  match d.getField "globalVars" with
  | some gv =>
    if jsTruthy gv then
      match gv.getField "styles" with
      | some st => if jsTruthy st then some (gv, st) else none
      | none => none
    else none
  | none => none

/-- `resolveTextStyles(data)` of part_004 (the in-place mutation of the
`styles` container rendered as a write-back through the access path). -/
def resolveTextStylesJ (textStyles : List DesignTokens.TextStyleMapping)
    (d : Json) : Json :=
  match gvStyles d with
  | some (gv, st) =>
    d.setField "globalVars" (gv.setField "styles" (textStyleVals textStyles st))
  | none => d

/-- `resolveVariablesInDesign(simplifiedDesign)` of part_004 (third copy):
deep-clone (value identity), collect variable ids from `globalVars.styles`,
resolve them against the design-token mappings, apply the resolutions, then
resolve text styles. -/
def resolveVariablesInDesignJ (T : List VariableMapping)
    (textStyles : List DesignTokens.TextStyleMapping) (d : Json) : Json :=
  let variableIds :=
    match gvStyles d with
    | some (_, st) => collectStyleVals st []
    | none => []
  let resolutions := buildResolutions T variableIds
  let applied :=
    match gvStyles d with
    | some (gv, st) =>
      d.setField "globalVars" (gv.setField "styles" (applyStyleVals resolutions st))
    | none => d
  resolveTextStylesJ textStyles applied

/-- A mapping table is *separated* when no mapped name resolves again as a
variable id (resolved names and ids live in separate namespaces).  The
frozen claim fails without this: a table may map one id to a string that is
itself a resolvable id, see `C3_counterexample`. -/
def SeparatedTable (T : List VariableMapping) : Prop :=
  ∀ m ∈ T, resolveForId T m.name = none

end PostResolve

namespace PostResolve

/-- Counterexample mapping table: the first id resolves to a string that is
itself the second mapping's id. -/
def c3T : List VariableMapping :=
  [⟨"VariableID:1:2", "VariableID:3:4", none⟩,
   ⟨"VariableID:3:4", "Other", none⟩]

/-- Counterexample design: one style entry referencing `Variable[1:2]`, with
a present-but-empty `variableId`. -/
def c3d : Json :=
  .objCons "globalVars"
    (.objCons "styles"
      (.objCons "fill_0"
        (.objCons "variable" (.str "Variable[1:2]")
          (.objCons "variableId" (.str "") .objNil))
        .objNil)
      .objNil)
    .objNil

/-- The counterexample design's single style entry. -/
def c3entry (d : Json) : Option Json :=
  (d.getField "globalVars").bind
    (fun gv => (gv.getField "styles").bind (fun st => st.getField "fill_0"))

/-- The counterexample design after one resolution pass. -/
def c3d1 : Json := resolveVariablesInDesignJ c3T [] c3d

/-- The counterexample design after two resolution passes. -/
def c3d2 : Json := resolveVariablesInDesignJ c3T [] c3d1

end PostResolve

/-- C3 as frozen is falsified: with a mapping table whose first entry
resolves to the second entry's id, the first pass rewrites `variable` to
`VariableID:3:4` and the second pass rewrites it again to `Other`; and the
first pass overwrites the present (empty, hence falsy) `variableId`. -/
theorem C3_counterexample :
    ((PostResolve.c3entry PostResolve.c3d1).bind (fun e => e.getField "variable")
        = some (.str "VariableID:3:4"))
    ∧ ((PostResolve.c3entry PostResolve.c3d2).bind (fun e => e.getField "variable")
        = some (.str "Other"))
    ∧ ((PostResolve.c3entry PostResolve.c3d).bind (fun e => e.getField "variableId")
        = some (.str ""))
    ∧ ((PostResolve.c3entry PostResolve.c3d1).bind (fun e => e.getField "variableId")
        = some (.str "VariableID:1:2")) := by
  decide

namespace PostResolve

/-- Is this value a string? (kind tracking for the traversal lemmas). -/
def isStrB : Json → Bool
  | .str _ => true
  | _ => false

/-- The string `variable` field of an object, as a zero-or-one-element
list (the contribution of one `'variable' in data` site to the id set). -/
def varAtom (d : Json) : List String :=
  match d.getField "variable" with
  | some (.str s) => [s]
  | _ => []

mutual
/-- All ids `findVariableIds` can collect from a value, in order and with
duplicates (the pure contents of the traversal, used to reason about the
accumulator-threading functions). -/
def varsOf : Json → List String
  | .arrCons hd tl =>
    (if hd.jsTruthy && hd.isObjLike && hd.hasField "variable" then varAtom hd
     else varsOf hd) ++ varsOf tl
  | .objCons k v rest =>
    varAtom (.objCons k v rest) ++ (varsOf v ++ varsOfFields rest)
  | _ => []
/-- `varsOf` over the remaining fields of an object. -/
def varsOfFields : Json → List String
  | .objCons _ v rest => varsOf v ++ varsOfFields rest
  | _ => []
end

/-- The resolutions map has no truthy entry for this key (so
`applyResolutions` leaves a `variable` holding it unchanged). -/
def lookupFalsy (res : List (String × String)) (y : String) : Prop :=
  ∀ r, mapGet res y = some r → Js.truthyStr r = false

theorem getField_objCons (d : Json) (k : String) (v : Json)
    (h : d.getField k = some v) : ∃ a b c, d = .objCons a b c := by
  cases d <;> simp [Json.getField] at h <;> exact ⟨_, _, _, rfl⟩

theorem setField_objCons (a : String) (b c : Json) (k : String) (x : Json) :
    ∃ p q t, Json.setField (.objCons a b c) k x = .objCons p q t := by
  unfold Json.setField
  by_cases h : (a == k) = true
  · rw [if_pos h]; exact ⟨_, _, _, rfl⟩
  · rw [if_neg h]; exact ⟨_, _, _, rfl⟩

theorem setField_of_getField (d : Json) (k : String) (v : Json)
    (h : d.getField k = some v) : d.setField k v = d := by
  induction d with
  | objCons a b c ihb ihc =>
    unfold Json.getField at h
    unfold Json.setField
    by_cases hk : (a == k) = true
    · rw [if_pos hk] at h; rw [if_pos hk]
      injection h with h; rw [h]
    · rw [if_neg hk] at h; rw [if_neg hk, ihc h]
  | _ => simp [Json.getField] at h

theorem setField_setField (d : Json) (k : String) (v w : Json) :
    (d.setField k v).setField k w = d.setField k w := by
  induction d with
  | objCons a b c ihb ihc =>
    by_cases hk : (a == k) = true
    · simp only [Json.setField, if_pos hk]
    · simp only [Json.setField, if_neg hk, ihc]
  | objNil => simp [Json.setField]
  | _ => rfl

theorem getField_setField_present (d : Json) (k : String) (v w : Json)
    (h : d.getField k = some w) : (d.setField k v).getField k = some v := by
  induction d with
  | objCons a b c ihb ihc =>
    unfold Json.getField at h
    by_cases hk : (a == k) = true
    · simp only [Json.setField, if_pos hk, Json.getField, hk]
      simp
    · rw [if_neg hk] at h
      simp only [Json.setField, if_neg hk, Json.getField, hk]
      simp only [Bool.false_eq_true, if_neg]
      exact ihc h
  | _ => simp [Json.getField] at h

theorem getField_setField_ne (d : Json) (k k2 : String) (v : Json)
    (h : (k == k2) = false) : (d.setField k v).getField k2 = d.getField k2 := by
  induction d with
  | objCons a b c ihb ihc =>
    by_cases hk : (a == k) = true
    · have hak2 : (a == k2) = false := by
        have : a = k := by simpa using hk
        rw [this]; exact h
      simp only [Json.setField, if_pos hk, Json.getField, hak2]
      simp
    · simp only [Json.setField, if_neg hk, Json.getField]
      by_cases h2 : (a == k2) = true
      · simp only [h2, if_pos]
      · simp only [Bool.not_eq_true] at h2
        simp only [h2, Bool.false_eq_true, if_neg, ihc]
  | objNil => simp [Json.setField, Json.getField, h]
  | _ => rfl

theorem mem_addVar (d : Json) (acc : List String) (x : String) :
    x ∈ addVar d acc ↔ x ∈ acc ∨ x ∈ varAtom d := by
  unfold addVar varAtom
  cases h : d.getField "variable" with
  | none => simp
  | some v =>
    cases v <;> simp
    next s =>
    by_cases hs : s ∈ acc
    · simp only [hs, if_pos]
      constructor
      · intro hx; exact Or.inl hx
      · rintro (hx | hx)
        · exact hx
        · rw [hx]; exact hs
    · simp [hs, List.mem_append]

theorem mem_findVariableIdsJ (x : String) (d : Json) :
    ∀ acc, (x ∈ findVariableIdsJ d acc ↔ x ∈ acc ∨ x ∈ varsOf d)
      ∧ (x ∈ findIdsVals d acc ↔ x ∈ acc ∨ x ∈ varsOfFields d) := by
  induction d with
  | arrCons hd tl ihhd ihtl =>
    intro acc
    constructor
    · rw [show findVariableIdsJ (.arrCons hd tl) acc
          = findVariableIdsJ tl
              (if hd.jsTruthy && hd.isObjLike && hd.hasField "variable" then addVar hd acc
               else findVariableIdsJ hd acc) from rfl]
      rw [show varsOf (.arrCons hd tl)
          = (if hd.jsTruthy && hd.isObjLike && hd.hasField "variable" then varAtom hd
             else varsOf hd) ++ varsOf tl from rfl]
      rw [(ihtl _).1]
      by_cases hc : (hd.jsTruthy && hd.isObjLike && hd.hasField "variable") = true
      · simp only [if_pos hc, mem_addVar, List.mem_append]
        tauto
      · simp only [if_neg hc, (ihhd acc).1, List.mem_append]
        tauto
    · constructor
      · intro hx; exact Or.inl hx
      · rintro (hx | hx)
        · exact hx
        · simp [varsOfFields] at hx
  | objCons k v rest ihv ihrest =>
    intro acc
    constructor
    · rw [show findVariableIdsJ (.objCons k v rest) acc
          = findIdsVals rest (findVariableIdsJ v (addVar (.objCons k v rest) acc)) from rfl]
      rw [show varsOf (.objCons k v rest)
          = varAtom (.objCons k v rest) ++ (varsOf v ++ varsOfFields rest) from rfl]
      rw [(ihrest _).2, (ihv _).1, mem_addVar]
      simp only [List.mem_append]
      tauto
    · rw [show findIdsVals (.objCons k v rest) acc
          = findIdsVals rest (findVariableIdsJ v acc) from rfl]
      rw [show varsOfFields (.objCons k v rest) = varsOf v ++ varsOfFields rest from rfl]
      rw [(ihrest _).2, (ihv _).1]
      simp only [List.mem_append]
      tauto
  | _ =>
    intro acc
    constructor <;> simp [findVariableIdsJ, findIdsVals, varsOf, varsOfFields]

theorem mem_collectStyleVals (x : String) (st : Json) :
    ∀ acc, x ∈ collectStyleVals st acc
      ↔ x ∈ acc ∨ ∃ v ∈ styleVals st, x ∈ varsOf v := by
  induction st with
  | objCons k v rest ihv ihrest =>
    intro acc
    rw [show collectStyleVals (.objCons k v rest) acc
        = collectStyleVals rest (findVariableIdsJ v acc) from rfl]
    rw [show styleVals (.objCons k v rest) = v :: styleVals rest from rfl]
    rw [ihrest _, (mem_findVariableIdsJ x v acc).1]
    simp only [List.mem_cons]
    constructor
    · rintro ((hx | hx) | ⟨w, hw, hxw⟩)
      · exact Or.inl hx
      · exact Or.inr ⟨v, Or.inl rfl, hx⟩
      · exact Or.inr ⟨w, Or.inr hw, hxw⟩
    · rintro (hx | ⟨w, (hw | hw), hxw⟩)
      · exact Or.inl (Or.inl hx)
      · exact Or.inl (Or.inr (hw ▸ hxw))
      · exact Or.inr ⟨w, hw, hxw⟩
  | arrCons hd tl ihhd ihtl =>
    intro acc
    rw [show collectStyleVals (.arrCons hd tl) acc
        = collectStyleVals tl (findVariableIdsJ hd acc) from rfl]
    rw [show styleVals (.arrCons hd tl) = hd :: styleVals tl from rfl]
    rw [ihtl _, (mem_findVariableIdsJ x hd acc).1]
    simp only [List.mem_cons]
    constructor
    · rintro ((hx | hx) | ⟨w, hw, hxw⟩)
      · exact Or.inl hx
      · exact Or.inr ⟨hd, Or.inl rfl, hx⟩
      · exact Or.inr ⟨w, Or.inr hw, hxw⟩
    · rintro (hx | ⟨w, (hw | hw), hxw⟩)
      · exact Or.inl (Or.inl hx)
      · exact Or.inl (Or.inr (hw ▸ hxw))
      · exact Or.inr ⟨w, hw, hxw⟩
  | _ =>
    intro acc
    simp [collectStyleVals, styleVals]

theorem mapGet_mem (m : List (String × String)) (k v : String)
    (h : mapGet m k = some v) : (k, v) ∈ m := by
  unfold mapGet at h
  rw [Option.map_eq_some'] at h
  obtain ⟨q, hq, hv⟩ := h
  have hk : (q.1 == k) = true :=
    @List.find?_some _ (fun p => p.1 == k) q m hq
  have hmem := List.mem_of_find?_eq_some hq
  have : q = (k, v) := by
    have h1 : q.1 = k := by simpa using hk
    cases q
    simp only at h1 hv
    rw [h1, hv]
  rw [← this]; exact hmem

theorem mem_buildResolutions (T : List VariableMapping) (ids : List String)
    (p : String × String) (h : p ∈ buildResolutions T ids) :
    p.1 ∈ ids ∧ resolveForId T p.1 = some p.2 := by
  unfold buildResolutions at h
  rw [List.mem_filterMap] at h
  obtain ⟨a, ha, heq⟩ := h
  rw [Option.map_eq_some'] at heq
  obtain ⟨n, hn, hpn⟩ := heq
  rw [← hpn]
  exact ⟨ha, hn⟩

theorem mapGet_buildResolutions_not_mem (T : List VariableMapping) (x : String) :
    ∀ ids, x ∉ ids → mapGet (buildResolutions T ids) x = none := by
  intro ids
  induction ids with
  | nil => intro h; rfl
  | cons y t ih =>
    intro hx
    have hxy : x ≠ y := fun h => hx (h ▸ List.mem_cons_self y t)
    have hxt : x ∉ t := fun h => hx (List.mem_cons_of_mem y h)
    unfold buildResolutions
    rw [List.filterMap_cons]
    cases hres : resolveForId T y with
    | none => simpa [buildResolutions] using ih hxt
    | some n =>
      simp only [Option.map_some']
      unfold mapGet
      rw [List.find?_cons_of_neg]
      · exact ih hxt
      · simp
        exact fun h => (hxy h.symm).elim

theorem mapGet_buildResolutions_mem (T : List VariableMapping) (x : String) :
    ∀ ids, x ∈ ids → mapGet (buildResolutions T ids) x = resolveForId T x := by
  intro ids
  induction ids with
  | nil => intro h; exact absurd h (List.not_mem_nil x)
  | cons y t ih =>
    intro hx
    unfold buildResolutions
    rw [List.filterMap_cons]
    by_cases hxy : x = y
    · subst hxy
      cases hres : resolveForId T x with
      | none =>
        by_cases hxt : x ∈ t
        · simpa [buildResolutions, hres] using ih hxt
        · simp only [Option.map_none']
          exact mapGet_buildResolutions_not_mem T x t hxt
      | some n =>
        simp only [Option.map_some']
        unfold mapGet
        rw [List.find?_cons_of_pos]
        · simp
        · simp
    · have hxt : x ∈ t := by
        rcases List.mem_cons.mp hx with h | h
        · exact absurd h hxy
        · exact h
      cases hres : resolveForId T y with
      | none => simpa [buildResolutions] using ih hxt
      | some n =>
        simp only [Option.map_some']
        unfold mapGet
        rw [List.find?_cons_of_neg]
        · exact ih hxt
        · simp
          exact fun h => (hxy h.symm).elim

theorem buildResolutions_eq_nil (T : List VariableMapping) (ids : List String)
    (h : ∀ x ∈ ids, resolveForId T x = none) : buildResolutions T ids = [] := by
  unfold buildResolutions
  induction ids with
  | nil => rfl
  | cons y t ih =>
    rw [List.filterMap_cons, h y (List.mem_cons_self y t)]
    exact ih (fun x hx => h x (List.mem_cons_of_mem y hx))

theorem resolveForId_truthy (T : List VariableMapping) (x n : String)
    (h : resolveForId T x = some n) : Js.truthyStr n = true := by
  unfold resolveForId at h
  split at h
  · next m hf =>
    by_cases ht : Js.truthyStr m = true
    · simp only [if_pos ht] at h
      injection h with h
      rw [← h]; exact ht
    · simp only [if_neg ht] at h
      exact absurd h (by simp)
  · exact absurd h (by simp)

theorem resolveForId_name_mem (T : List VariableMapping) (x n : String)
    (h : resolveForId T x = some n) : ∃ m ∈ T, m.name = n := by
  unfold resolveForId at h
  split at h
  · next m2 hf =>
    have hm2 : m2 = n := by
      by_cases ht : Js.truthyStr m2 = true
      · simp only [if_pos ht] at h; injection h
      · simp only [if_neg ht] at h; exact absurd h (by simp)
    subst hm2
    unfold DesignTokens.resolveVariableFromMapping at hf
    rw [Option.map_eq_some'] at hf
    obtain ⟨m, hm, hname⟩ := hf
    exact ⟨m, List.mem_of_find?_eq_some hm, hname⟩
  · exact absurd h (by simp)

theorem getField_variable_ite (d : Json) (c1 c2 : Bool) (w1 w2 : Json) :
    ((if c1 = true then d.setField "variableId" w1
      else if c2 = true then d.setField "variableId" w2 else d).getField "variable")
      = d.getField "variable" := by
  by_cases h1 : c1 = true
  · rw [if_pos h1]; exact getField_setField_ne d "variableId" "variable" w1 (by decide)
  · rw [if_neg h1]
    by_cases h2 : c2 = true
    · rw [if_pos h2]; exact getField_setField_ne d "variableId" "variable" w2 (by decide)
    · rw [if_neg h2]

theorem isObj_ite_setField (d : Json) (c1 c2 : Bool) (w1 w2 : Json)
    (hobj : ∃ a b c, d = .objCons a b c) :
    ∃ a b c, (if c1 = true then d.setField "variableId" w1
      else if c2 = true then d.setField "variableId" w2 else d) = .objCons a b c := by
  obtain ⟨a, b, c, rfl⟩ := hobj
  by_cases h1 : c1 = true
  · rw [if_pos h1]; exact setField_objCons a b c _ _
  · rw [if_neg h1]
    by_cases h2 : c2 = true
    · rw [if_pos h2]; exact setField_objCons a b c _ _
    · rw [if_neg h2]; exact ⟨_, _, _, rfl⟩

theorem applyVarObj_variable (res : List (String × String)) (d : Json) :
    (applyVarObj res d).getField "variable"
      = match d.getField "variable" with
        | some (.str s) =>
          match mapGet res s with
          | some r => if Js.truthyStr r then some (.str r) else some (.str s)
          | none => some (.str s)
        | u => u := by
  unfold applyVarObj
  cases hv : d.getField "variable" with
  | none => simp [hv]
  | some v =>
    cases v with
    | str s =>
      simp only [hv]
      cases hg : mapGet res s with
      | none =>
        simp only [hg]
        exact hv
      | some r =>
        simp only [hg]
        by_cases ht : Js.truthyStr r = true
        · simp only [if_pos ht]
          split
          · next h1 =>
            apply getField_setField_present
            rw [getField_setField_ne _ _ _ _ (by decide)]
            exact hv
          · next h1 =>
            split
            · next h2 =>
              apply getField_setField_present
              rw [getField_setField_ne _ _ _ _ (by decide)]
              exact hv
            · next h2 =>
              exact getField_setField_present _ _ _ _ hv
        · simp only [if_neg ht, hv]
    | null => simp [hv]
    | bool b => simp [hv]
    | num n => simp [hv]
    | arrNil => simp [hv]
    | arrCons a b => simp [hv]
    | objNil => simp [hv]
    | objCons a b c => simp [hv]

theorem applyVarObj_objCons (res : List (String × String)) (a : String) (b c : Json) :
    ∃ p q t, applyVarObj res (.objCons a b c) = .objCons p q t := by
  unfold applyVarObj
  cases hv : Json.getField (.objCons a b c) "variable" with
  | none => exact ⟨_, _, _, rfl⟩
  | some v =>
    cases v with
    | str s =>
      simp only [hv]
      cases hg : mapGet res s with
      | none => exact ⟨_, _, _, rfl⟩
      | some r =>
        simp only [hg]
        by_cases ht : Js.truthyStr r = true
        · simp only [if_pos ht]
          split
          · next h1 =>
            obtain ⟨p, q, t, hpqt⟩ := setField_objCons a b c "variableId"
              (.str ("VariableID:" ++ Js.sliceDropEnds s 9 1))
            rw [hpqt]
            exact setField_objCons p q t _ _
          · next h1 =>
            split
            · next h2 =>
              obtain ⟨p, q, t, hpqt⟩ := setField_objCons a b c "variableId" (.str s)
              rw [hpqt]
              exact setField_objCons p q t _ _
            · next h2 =>
              exact setField_objCons a b c _ _
        · simp only [if_neg ht]
          exact ⟨_, _, _, rfl⟩
    | null => exact ⟨_, _, _, rfl⟩
    | bool b2 => exact ⟨_, _, _, rfl⟩
    | num n => exact ⟨_, _, _, rfl⟩
    | arrNil => exact ⟨_, _, _, rfl⟩
    | arrCons p q => exact ⟨_, _, _, rfl⟩
    | objNil => exact ⟨_, _, _, rfl⟩
    | objCons p q t => exact ⟨_, _, _, rfl⟩

theorem getField_applyResFields (res : List (String × String)) (d : Json)
    (key : String) :
    (applyResFields res d).getField key = (d.getField key).map (applyResolutionsJ res) := by
  induction d with
  | objCons a v rest ihv ihrest =>
    rw [show applyResFields res (.objCons a v rest)
        = .objCons a (applyResolutionsJ res v) (applyResFields res rest) from rfl]
    unfold Json.getField
    by_cases hk : (a == key) = true
    · simp [hk]
    · simp only [hk, Bool.false_eq_true, if_neg, if_false]
      exact ihrest
  | _ => rfl

theorem getField_applyObjStep (res : List (String × String)) (a : String)
    (b c : Json) (key : String) :
    (Json.objCons a (applyResolutionsJ res b) (applyResFields res c)).getField key
      = ((Json.objCons a b c).getField key).map (applyResolutionsJ res) := by
  unfold Json.getField
  by_cases hk : (a == key) = true
  · simp [hk]
  · simp only [hk, Bool.false_eq_true, if_neg, if_false]
    exact getField_applyResFields res c key

theorem applyVarObj_shape (res : List (String × String)) (d : Json) :
    (applyVarObj res d).jsTruthy = d.jsTruthy
    ∧ (applyVarObj res d).isObjLike = d.isObjLike
    ∧ isStrB (applyVarObj res d) = isStrB d := by
  cases d with
  | objCons a b c =>
    obtain ⟨p, q, t, h⟩ := applyVarObj_objCons res a b c
    rw [h]
    exact ⟨rfl, rfl, rfl⟩
  | null => simp [applyVarObj, Json.getField]
  | bool b => simp [applyVarObj, Json.getField]
  | num n => simp [applyVarObj, Json.getField]
  | str s => simp [applyVarObj, Json.getField]
  | arrNil => simp [applyVarObj, Json.getField]
  | arrCons hd tl => simp [applyVarObj, Json.getField]
  | objNil => simp [applyVarObj, Json.getField]

theorem hasField_applyVarObj (res : List (String × String)) (d : Json) :
    (applyVarObj res d).hasField "variable" = d.hasField "variable" := by
  unfold Json.hasField
  rw [applyVarObj_variable]
  cases hv : d.getField "variable" with
  | none => simp
  | some v =>
    cases v with
    | str s =>
      simp only
      cases hg : mapGet res s with
      | none => simp
      | some r =>
        by_cases ht : Js.truthyStr r = true
        · simp [ht]
        · simp [ht]
    | null => simp
    | bool b => simp
    | num n => simp
    | arrNil => simp
    | arrCons a b => simp
    | objNil => simp
    | objCons a b c => simp

theorem apply_shape (res : List (String × String)) (d : Json) :
    (applyResolutionsJ res d).jsTruthy = d.jsTruthy
    ∧ (applyResolutionsJ res d).isObjLike = d.isObjLike
    ∧ isStrB (applyResolutionsJ res d) = isStrB d
    ∧ (applyResolutionsJ res d).hasField "variable" = d.hasField "variable" := by
  cases d with
  | arrCons hd tl =>
    rw [show applyResolutionsJ res (.arrCons hd tl)
        = .arrCons
            (if hd.jsTruthy && hd.isObjLike && hd.hasField "variable" then applyVarObj res hd
             else applyResolutionsJ res hd)
            (applyResolutionsJ res tl) from rfl]
    exact ⟨rfl, rfl, rfl, rfl⟩
  | objCons a b c =>
    rw [show applyResolutionsJ res (.objCons a b c)
        = applyVarObj res
            (.objCons a (applyResolutionsJ res b) (applyResFields res c)) from rfl]
    obtain ⟨p, q, t, h⟩ :=
      applyVarObj_objCons res a (applyResolutionsJ res b) (applyResFields res c)
    have hf := hasField_applyVarObj res
      (.objCons a (applyResolutionsJ res b) (applyResFields res c))
    rw [h] at hf ⊢
    refine ⟨rfl, rfl, rfl, ?_⟩
    rw [hf]
    unfold Json.hasField
    rw [getField_applyObjStep]
    simp [Option.isSome_map]
  | null => exact ⟨rfl, rfl, rfl, rfl⟩
  | bool b => exact ⟨rfl, rfl, rfl, rfl⟩
  | num n => exact ⟨rfl, rfl, rfl, rfl⟩
  | str s => exact ⟨rfl, rfl, rfl, rfl⟩
  | arrNil => exact ⟨rfl, rfl, rfl, rfl⟩
  | objNil => exact ⟨rfl, rfl, rfl, rfl⟩

theorem mem_varsOfFields_setField_str (d : Json) (k s y : String)
    (h : y ∈ varsOfFields (d.setField k (.str s))) : y ∈ varsOfFields d := by
  induction d with
  | objCons a b c ihb ihc =>
    by_cases hk : (a == k) = true
    · rw [show Json.setField (.objCons a b c) k (.str s) = .objCons a (.str s) c from by
          simp [Json.setField, hk]] at h
      rw [show varsOfFields (.objCons a (.str s) c)
          = varsOf (.str s) ++ varsOfFields c from rfl] at h
      rw [show varsOf (Json.str s) = [] from rfl] at h
      rw [List.nil_append] at h
      rw [show varsOfFields (.objCons a b c) = varsOf b ++ varsOfFields c from rfl]
      exact List.mem_append_right _ h
    · rw [show Json.setField (.objCons a b c) k (.str s)
          = .objCons a b (Json.setField c k (.str s)) from by
          simp [Json.setField, hk]] at h
      rw [show varsOfFields (.objCons a b (Json.setField c k (.str s)))
          = varsOf b ++ varsOfFields (Json.setField c k (.str s)) from rfl] at h
      rw [show varsOfFields (.objCons a b c) = varsOf b ++ varsOfFields c from rfl]
      rcases List.mem_append.mp h with h2 | h2
      · exact List.mem_append_left _ h2
      · exact List.mem_append_right _ (ihc h2)
  | objNil =>
    rw [show Json.setField .objNil k (.str s) = .objCons k (.str s) .objNil from rfl] at h
    rw [show varsOfFields (.objCons k (.str s) .objNil)
        = varsOf (.str s) ++ varsOfFields .objNil from rfl] at h
    simpa [varsOf, varsOfFields] using h
  | null => exact h
  | bool b => exact h
  | num n => exact h
  | str s2 => exact h
  | arrNil => exact h
  | arrCons hd tl ih1 ih2 => exact h

theorem mem_varsOfFields_applyVarObj (res : List (String × String)) (d : Json)
    (y : String) (h : y ∈ varsOfFields (applyVarObj res d)) : y ∈ varsOfFields d := by
  unfold applyVarObj at h
  cases hv : d.getField "variable" with
  | none => simp only [hv] at h; exact h
  | some v =>
    cases v with
    | str s =>
      simp only [hv] at h
      cases hg : mapGet res s with
      | none => simp only [hg] at h; exact h
      | some r =>
        simp only [hg] at h
        by_cases ht : Js.truthyStr r = true
        · simp only [if_pos ht] at h
          have h2 := mem_varsOfFields_setField_str _ _ _ _ h
          split at h2
          · exact mem_varsOfFields_setField_str _ _ _ _ h2
          · split at h2
            · exact mem_varsOfFields_setField_str _ _ _ _ h2
            · exact h2
        · simp only [if_neg ht] at h; exact h
    | null => simp only [hv] at h; exact h
    | bool b => simp only [hv] at h; exact h
    | num n => simp only [hv] at h; exact h
    | arrNil => simp only [hv] at h; exact h
    | arrCons a b => simp only [hv] at h; exact h
    | objNil => simp only [hv] at h; exact h
    | objCons a b c => simp only [hv] at h; exact h

theorem varAtom_applyObjStep (res : List (String × String)) (a : String) (b c : Json) :
    varAtom (.objCons a (applyResolutionsJ res b) (applyResFields res c))
      = varAtom (.objCons a b c) := by
  unfold varAtom
  rw [getField_applyObjStep]
  cases hu : (Json.objCons a b c).getField "variable" with
  | none => rfl
  | some u =>
    cases u with
    | str s => rfl
    | null => rfl
    | bool b2 => rfl
    | num n => rfl
    | arrNil => rfl
    | arrCons p q => rfl
    | objCons a2 b2 c2 =>
      obtain ⟨p, q, t, hpqt⟩ :=
        applyVarObj_objCons res a2 (applyResolutionsJ res b2) (applyResFields res c2)
      simp only [Option.map_some']
      rw [show applyResolutionsJ res (.objCons a2 b2 c2)
          = applyVarObj res
              (.objCons a2 (applyResolutionsJ res b2) (applyResFields res c2)) from rfl]
      rw [hpqt]
    | objNil => rfl

theorem mem_varsOf_of_isObj (d : Json) (hobj : d.isObj = true) (y : String) :
    y ∈ varsOf d ↔ y ∈ varAtom d ∨ y ∈ varsOfFields d := by
  cases d with
  | objCons a b c =>
    rw [show varsOf (.objCons a b c)
        = varAtom (.objCons a b c) ++ (varsOf b ++ varsOfFields c) from rfl]
    rw [show varsOfFields (.objCons a b c) = varsOf b ++ varsOfFields c from rfl]
    simp [List.mem_append]
  | objNil => simp [varsOf, varsOfFields, varAtom, Json.getField]
  | _ => simp [Json.isObj] at hobj

theorem mem_varAtom_applyVarObj (res : List (String × String)) (d : Json)
    (y : String) (h : y ∈ varAtom (applyVarObj res d)) :
    (∃ p ∈ res, y = p.2) ∨ (y ∈ varAtom d ∧ lookupFalsy res y) := by
  unfold varAtom at h ⊢
  rw [applyVarObj_variable] at h
  cases hv : d.getField "variable" with
  | none => simp only [hv] at h; exact absurd h (by simp)
  | some v =>
    cases v with
    | str s =>
      simp only [hv] at h ⊢
      cases hg : mapGet res s with
      | none =>
        simp only [hg] at h
        have hy : y = s := by simpa using h
        refine Or.inr ⟨by simp [hy], ?_⟩
        intro r2 hr2
        rw [hy] at hr2
        rw [hr2] at hg
        exact absurd hg (by simp)
      | some r =>
        simp only [hg] at h
        by_cases ht : Js.truthyStr r = true
        · simp only [if_pos ht] at h
          have hy : y = r := by simpa using h
          exact Or.inl ⟨(s, r), mapGet_mem res s r hg, hy⟩
        · simp only [if_neg ht] at h
          have hy : y = s := by simpa using h
          refine Or.inr ⟨by simp [hy], ?_⟩
          intro r2 hr2
          rw [hy] at hr2
          rw [hr2] at hg
          injection hg with hg
          rw [← hg] at ht
          simpa using ht
    | null => simp only [hv] at h; exact absurd h (by simp)
    | bool b => simp only [hv] at h; exact absurd h (by simp)
    | num n => simp only [hv] at h; exact absurd h (by simp)
    | arrNil => simp only [hv] at h; exact absurd h (by simp)
    | arrCons a b => simp only [hv] at h; exact absurd h (by simp)
    | objNil => simp only [hv] at h; exact absurd h (by simp)
    | objCons a b c => simp only [hv] at h; exact absurd h (by simp)

theorem mem_varsOf_apply (res : List (String × String)) (d : Json) :
    (∀ y ∈ varsOf (applyResolutionsJ res d),
      (∃ p ∈ res, y = p.2) ∨ (y ∈ varsOf d ∧ lookupFalsy res y))
    ∧ (∀ y ∈ varsOfFields (applyResFields res d),
      (∃ p ∈ res, y = p.2) ∨ (y ∈ varsOfFields d ∧ lookupFalsy res y)) := by
  induction d with
  | arrCons hd tl ihhd ihtl =>
    constructor
    · intro y hy
      rw [show applyResolutionsJ res (.arrCons hd tl)
          = .arrCons
              (if hd.jsTruthy && hd.isObjLike && hd.hasField "variable" then
                applyVarObj res hd
              else applyResolutionsJ res hd)
              (applyResolutionsJ res tl) from rfl] at hy
      rw [show varsOf (.arrCons hd tl)
          = (if hd.jsTruthy && hd.isObjLike && hd.hasField "variable" then varAtom hd
             else varsOf hd) ++ varsOf tl from rfl]
      by_cases hc : (hd.jsTruthy && hd.isObjLike && hd.hasField "variable") = true
      · rw [if_pos hc] at hy
        have hc2 : ((applyVarObj res hd).jsTruthy && (applyVarObj res hd).isObjLike
            && (applyVarObj res hd).hasField "variable") = true := by
          rw [(applyVarObj_shape res hd).1, (applyVarObj_shape res hd).2.1,
            hasField_applyVarObj]
          exact hc
        rw [show varsOf (.arrCons (applyVarObj res hd) (applyResolutionsJ res tl))
            = (if (applyVarObj res hd).jsTruthy && (applyVarObj res hd).isObjLike
                  && (applyVarObj res hd).hasField "variable" then
                varAtom (applyVarObj res hd)
              else varsOf (applyVarObj res hd)) ++ varsOf (applyResolutionsJ res tl)
            from rfl] at hy
        rw [hc2, if_pos rfl] at hy
        rw [if_pos hc]
        rcases List.mem_append.mp hy with h2 | h2
        · rcases mem_varAtom_applyVarObj res hd y h2 with h3 | ⟨h3, h4⟩
          · exact Or.inl h3
          · exact Or.inr ⟨List.mem_append_left _ h3, h4⟩
        · rcases (ihtl.1 y h2) with h3 | ⟨h3, h4⟩
          · exact Or.inl h3
          · exact Or.inr ⟨List.mem_append_right _ h3, h4⟩
      · rw [if_neg hc] at hy
        have hc2 : ((applyResolutionsJ res hd).jsTruthy && (applyResolutionsJ res hd).isObjLike
            && (applyResolutionsJ res hd).hasField "variable") = false := by
          rw [(apply_shape res hd).1, (apply_shape res hd).2.1,
            (apply_shape res hd).2.2.2]
          simpa using hc
        rw [show varsOf (.arrCons (applyResolutionsJ res hd) (applyResolutionsJ res tl))
            = (if (applyResolutionsJ res hd).jsTruthy && (applyResolutionsJ res hd).isObjLike
                  && (applyResolutionsJ res hd).hasField "variable" then
                varAtom (applyResolutionsJ res hd)
              else varsOf (applyResolutionsJ res hd)) ++ varsOf (applyResolutionsJ res tl)
            from rfl] at hy
        rw [hc2] at hy
        simp only [Bool.false_eq_true, if_neg, if_false] at hy
        rw [if_neg hc]
        rcases List.mem_append.mp hy with h2 | h2
        · rcases (ihhd.1 y h2) with h3 | ⟨h3, h4⟩
          · exact Or.inl h3
          · exact Or.inr ⟨List.mem_append_left _ h3, h4⟩
        · rcases (ihtl.1 y h2) with h3 | ⟨h3, h4⟩
          · exact Or.inl h3
          · exact Or.inr ⟨List.mem_append_right _ h3, h4⟩
    · intro y hy
      rw [show applyResFields res (.arrCons hd tl) = .arrCons hd tl from rfl] at hy
      exact Or.inr ⟨hy, by
        rw [show varsOfFields (.arrCons hd tl) = [] from rfl] at hy
        exact absurd hy (by simp)⟩
  | objCons a b c ihb ihc =>
    constructor
    · intro y hy
      rw [show applyResolutionsJ res (.objCons a b c)
          = applyVarObj res
              (.objCons a (applyResolutionsJ res b) (applyResFields res c)) from rfl] at hy
      have hobj : (applyVarObj res
          (.objCons a (applyResolutionsJ res b) (applyResFields res c))).isObj = true := by
        obtain ⟨p, q, t, hpqt⟩ :=
          applyVarObj_objCons res a (applyResolutionsJ res b) (applyResFields res c)
        rw [hpqt]; rfl
      rw [mem_varsOf_of_isObj _ hobj] at hy
      have hobj2 : (Json.objCons a b c).isObj = true := rfl
      rw [mem_varsOf_of_isObj _ hobj2]
      rcases hy with h2 | h2
      · rcases mem_varAtom_applyVarObj res _ y h2 with h3 | ⟨h3, h4⟩
        · exact Or.inl h3
        · rw [varAtom_applyObjStep] at h3
          exact Or.inr ⟨Or.inl h3, h4⟩
      · have h3 := mem_varsOfFields_applyVarObj res _ y h2
        rw [show varsOfFields (.objCons a (applyResolutionsJ res b) (applyResFields res c))
            = varsOf (applyResolutionsJ res b) ++ varsOfFields (applyResFields res c)
            from rfl] at h3
        rw [show varsOfFields (.objCons a b c) = varsOf b ++ varsOfFields c from rfl]
        rcases List.mem_append.mp h3 with h4 | h4
        · rcases (ihb.1 y h4) with h5 | ⟨h5, h6⟩
          · exact Or.inl h5
          · exact Or.inr ⟨Or.inr (List.mem_append_left _ h5), h6⟩
        · rcases (ihc.2 y h4) with h5 | ⟨h5, h6⟩
          · exact Or.inl h5
          · exact Or.inr ⟨Or.inr (List.mem_append_right _ h5), h6⟩
    · intro y hy
      rw [show applyResFields res (.objCons a b c)
          = .objCons a (applyResolutionsJ res b) (applyResFields res c) from rfl] at hy
      rw [show varsOfFields (.objCons a (applyResolutionsJ res b) (applyResFields res c))
          = varsOf (applyResolutionsJ res b) ++ varsOfFields (applyResFields res c)
          from rfl] at hy
      rw [show varsOfFields (.objCons a b c) = varsOf b ++ varsOfFields c from rfl]
      rcases List.mem_append.mp hy with h2 | h2
      · rcases (ihb.1 y h2) with h3 | ⟨h3, h4⟩
        · exact Or.inl h3
        · exact Or.inr ⟨List.mem_append_left _ h3, h4⟩
      · rcases (ihc.2 y h2) with h3 | ⟨h3, h4⟩
        · exact Or.inl h3
        · exact Or.inr ⟨List.mem_append_right _ h3, h4⟩
  | null => exact ⟨fun y hy => absurd hy (by simp [varsOf]), fun y hy => absurd hy (by simp [varsOfFields])⟩
  | bool b => exact ⟨fun y hy => absurd hy (by simp [varsOf]), fun y hy => absurd hy (by simp [varsOfFields])⟩
  | num n => exact ⟨fun y hy => absurd hy (by simp [varsOf]), fun y hy => absurd hy (by simp [varsOfFields])⟩
  | str s => exact ⟨fun y hy => absurd hy (by simp [varsOf]), fun y hy => absurd hy (by simp [varsOfFields])⟩
  | arrNil => exact ⟨fun y hy => absurd hy (by simp [varsOf]), fun y hy => absurd hy (by simp [varsOfFields])⟩
  | objNil => exact ⟨fun y hy => absurd hy (by simp [varsOf]), fun y hy => absurd hy (by simp [varsOfFields])⟩

theorem applyVarObj_nil (d : Json) : applyVarObj [] d = d := by
  unfold applyVarObj
  cases hv : d.getField "variable" with
  | none => rfl
  | some v =>
    cases v with
    | str s => rfl
    | null => rfl
    | bool b => rfl
    | num n => rfl
    | arrNil => rfl
    | arrCons a b => rfl
    | objNil => rfl
    | objCons a b c => rfl

theorem apply_nil (d : Json) :
    applyResolutionsJ [] d = d ∧ applyResFields [] d = d := by
  induction d with
  | arrCons hd tl ihhd ihtl =>
    constructor
    · rw [show applyResolutionsJ [] (.arrCons hd tl)
          = .arrCons
              (if hd.jsTruthy && hd.isObjLike && hd.hasField "variable" then
                applyVarObj [] hd
              else applyResolutionsJ [] hd)
              (applyResolutionsJ [] tl) from rfl]
      rw [applyVarObj_nil, ihhd.1, ihtl.1, ite_self]
    · rfl
  | objCons a b c ihb ihc =>
    constructor
    · rw [show applyResolutionsJ [] (.objCons a b c)
          = applyVarObj [] (.objCons a (applyResolutionsJ [] b) (applyResFields [] c))
          from rfl]
      rw [ihb.1, ihc.2, applyVarObj_nil]
    · rw [show applyResFields [] (.objCons a b c)
          = .objCons a (applyResolutionsJ [] b) (applyResFields [] c) from rfl]
      rw [ihb.1, ihc.2]
  | null => exact ⟨rfl, rfl⟩
  | bool b => exact ⟨rfl, rfl⟩
  | num n => exact ⟨rfl, rfl⟩
  | str s => exact ⟨rfl, rfl⟩
  | arrNil => exact ⟨rfl, rfl⟩
  | objNil => exact ⟨rfl, rfl⟩

theorem applyStyleVals_nil (st : Json) : applyStyleVals [] st = st := by
  induction st with
  | objCons a b c ihb ihc =>
    rw [show applyStyleVals [] (.objCons a b c)
        = .objCons a (applyResolutionsJ [] b) (applyStyleVals [] c) from rfl]
    rw [(apply_nil b).1, ihc]
  | arrCons hd tl ihhd ihtl =>
    rw [show applyStyleVals [] (.arrCons hd tl)
        = .arrCons (applyResolutionsJ [] hd) (applyStyleVals [] tl) from rfl]
    rw [(apply_nil hd).1, ihtl]
  | null => rfl
  | bool b => rfl
  | num n => rfl
  | str s => rfl
  | arrNil => rfl
  | objNil => rfl

theorem styleVals_applyStyleVals (res : List (String × String)) (st : Json) :
    styleVals (applyStyleVals res st) = (styleVals st).map (applyResolutionsJ res) := by
  induction st with
  | objCons a b c ihb ihc =>
    rw [show applyStyleVals res (.objCons a b c)
        = .objCons a (applyResolutionsJ res b) (applyStyleVals res c) from rfl]
    rw [show styleVals (.objCons a (applyResolutionsJ res b) (applyStyleVals res c))
        = applyResolutionsJ res b :: styleVals (applyStyleVals res c) from rfl]
    rw [show styleVals (.objCons a b c) = b :: styleVals c from rfl]
    rw [List.map_cons, ihc]
  | arrCons hd tl ihhd ihtl =>
    rw [show applyStyleVals res (.arrCons hd tl)
        = .arrCons (applyResolutionsJ res hd) (applyStyleVals res tl) from rfl]
    rw [show styleVals (.arrCons (applyResolutionsJ res hd) (applyStyleVals res tl))
        = applyResolutionsJ res hd :: styleVals (applyStyleVals res tl) from rfl]
    rw [show styleVals (.arrCons hd tl) = hd :: styleVals tl from rfl]
    rw [List.map_cons, ihtl]
  | null => rfl
  | bool b => rfl
  | num n => rfl
  | str s => rfl
  | arrNil => rfl
  | objNil => rfl

theorem styleVals_textStyleVals (textStyles : List DesignTokens.TextStyleMapping)
    (st : Json) :
    styleVals (textStyleVals textStyles st) = (styleVals st).map (textEntryVal textStyles) := by
  induction st with
  | objCons a b c ihb ihc =>
    rw [show textStyleVals textStyles (.objCons a b c)
        = .objCons a (textEntryVal textStyles b) (textStyleVals textStyles c) from rfl]
    rw [show styleVals (.objCons a (textEntryVal textStyles b) (textStyleVals textStyles c))
        = textEntryVal textStyles b :: styleVals (textStyleVals textStyles c) from rfl]
    rw [show styleVals (.objCons a b c) = b :: styleVals c from rfl]
    rw [List.map_cons, ihc]
  | arrCons hd tl ihhd ihtl =>
    rw [show textStyleVals textStyles (.arrCons hd tl)
        = .arrCons (textEntryVal textStyles hd) (textStyleVals textStyles tl) from rfl]
    rw [show styleVals (.arrCons (textEntryVal textStyles hd) (textStyleVals textStyles tl))
        = textEntryVal textStyles hd :: styleVals (textStyleVals textStyles tl) from rfl]
    rw [show styleVals (.arrCons hd tl) = hd :: styleVals tl from rfl]
    rw [List.map_cons, ihtl]
  | null => rfl
  | bool b => rfl
  | num n => rfl
  | str s => rfl
  | arrNil => rfl
  | objNil => rfl

theorem jsTruthy_applyStyleVals (res : List (String × String)) (st : Json) :
    (applyStyleVals res st).jsTruthy = st.jsTruthy := by
  cases st <;> rfl

theorem jsTruthy_textStyleVals (textStyles : List DesignTokens.TextStyleMapping)
    (st : Json) : (textStyleVals textStyles st).jsTruthy = st.jsTruthy := by
  cases st <;> rfl

theorem textEntryVal_cases (textStyles : List DesignTokens.TextStyleMapping) (v : Json) :
    textEntryVal textStyles v = v ∨ ∃ n, textEntryVal textStyles v = .str n := by
  unfold textEntryVal
  by_cases hguard : (v.jsTruthy && v.isObjLike) = true
  · rw [if_pos hguard]
    cases hts : v.getField "textStyleId" with
    | none => simp only [hts]; exact Or.inl trivial
    | some tv =>
      cases tv with
      | str tid =>
        simp only [hts]
        by_cases htr : Js.truthyStr tid = true
        · rw [if_pos htr]
          split
          · next n hn =>
            by_cases htn : Js.truthyStr n = true
            · rw [if_pos htn]; exact Or.inr ⟨n, rfl⟩
            · rw [if_neg htn]; exact Or.inl rfl
          · exact Or.inl rfl
        · rw [if_neg htr]; exact Or.inl rfl
      | null => simp only [hts]; exact Or.inl trivial
      | bool b => simp only [hts]; exact Or.inl trivial
      | num n => simp only [hts]; exact Or.inl trivial
      | arrNil => simp only [hts]; exact Or.inl trivial
      | arrCons a b => simp only [hts]; exact Or.inl trivial
      | objNil => simp only [hts]; exact Or.inl trivial
      | objCons a b c => simp only [hts]; exact Or.inl trivial
  · rw [if_neg hguard]; exact Or.inl rfl

theorem textEntryVal_str (textStyles : List DesignTokens.TextStyleMapping) (n : String) :
    textEntryVal textStyles (.str n) = .str n := by
  unfold textEntryVal
  simp [Json.isObjLike]

theorem textEntryVal_idem (textStyles : List DesignTokens.TextStyleMapping) (v : Json) :
    textEntryVal textStyles (textEntryVal textStyles v) = textEntryVal textStyles v := by
  rcases textEntryVal_cases textStyles v with h | ⟨n, h⟩
  · rw [h, h]
  · rw [h, textEntryVal_str]

theorem textStyleVals_idem (textStyles : List DesignTokens.TextStyleMapping) (st : Json) :
    textStyleVals textStyles (textStyleVals textStyles st) = textStyleVals textStyles st := by
  induction st with
  | objCons a b c ihb ihc =>
    rw [show textStyleVals textStyles (.objCons a b c)
        = .objCons a (textEntryVal textStyles b) (textStyleVals textStyles c) from rfl]
    rw [show textStyleVals textStyles
          (.objCons a (textEntryVal textStyles b) (textStyleVals textStyles c))
        = .objCons a (textEntryVal textStyles (textEntryVal textStyles b))
            (textStyleVals textStyles (textStyleVals textStyles c)) from rfl]
    rw [textEntryVal_idem, ihc]
  | arrCons hd tl ihhd ihtl =>
    rw [show textStyleVals textStyles (.arrCons hd tl)
        = .arrCons (textEntryVal textStyles hd) (textStyleVals textStyles tl) from rfl]
    rw [show textStyleVals textStyles
          (.arrCons (textEntryVal textStyles hd) (textStyleVals textStyles tl))
        = .arrCons (textEntryVal textStyles (textEntryVal textStyles hd))
            (textStyleVals textStyles (textStyleVals textStyles tl)) from rfl]
    rw [textEntryVal_idem, ihtl]
  | null => rfl
  | bool b => rfl
  | num n => rfl
  | str s => rfl
  | arrNil => rfl
  | objNil => rfl

theorem mem_varsOf_textEntryVal (textStyles : List DesignTokens.TextStyleMapping)
    (v : Json) (y : String) (h : y ∈ varsOf (textEntryVal textStyles v)) :
    y ∈ varsOf v := by
  rcases textEntryVal_cases textStyles v with h2 | ⟨n, h2⟩
  · rw [h2] at h; exact h
  · rw [h2] at h
    rw [show varsOf (Json.str n) = [] from rfl] at h
    exact absurd h (by simp)

theorem gvStyles_eq_some (d gv st : Json) (h : gvStyles d = some (gv, st)) :
    d.getField "globalVars" = some gv ∧ jsTruthy gv = true
    ∧ gv.getField "styles" = some st ∧ jsTruthy st = true := by
  unfold gvStyles at h
  split at h
  · next gv2 hg =>
    split at h
    · next htg =>
      split at h
      · next st2 hs =>
        split at h
        · next hts =>
          rw [Option.some_inj, Prod.mk.injEq] at h
          obtain ⟨h1, h2⟩ := h
          subst h1; subst h2
          exact ⟨hg, htg, hs, hts⟩
        · exact absurd h (by simp)
      · exact absurd h (by simp)
    · exact absurd h (by simp)
  · exact absurd h (by simp)

theorem gvStyles_setField (d gv st X : Json) (h : gvStyles d = some (gv, st))
    (hX : jsTruthy X = true) :
    gvStyles (d.setField "globalVars" (gv.setField "styles" X))
      = some (gv.setField "styles" X, X) := by
  obtain ⟨hg, htg, hs, hts⟩ := gvStyles_eq_some d gv st h
  have hgf : (d.setField "globalVars" (gv.setField "styles" X)).getField "globalVars"
      = some (gv.setField "styles" X) := getField_setField_present _ _ _ _ hg
  have hsf : (gv.setField "styles" X).getField "styles" = some X :=
    getField_setField_present _ _ _ _ hs
  have htgv : jsTruthy (gv.setField "styles" X) = true := by
    obtain ⟨a, b, c, hgv⟩ := getField_objCons gv "styles" st hs
    subst hgv
    obtain ⟨p, q, t, hset⟩ := setField_objCons a b c "styles" X
    rw [hset]; rfl
  unfold gvStyles
  simp only [hgf, htgv, hsf, hX, if_true]

end PostResolve

/-- C3, amended: the claim holds under separation of the mapping table.  (1)
Whenever no mapped name resolves again as a variable id
(`PostResolve.SeparatedTable`), `resolveVariablesInDesign` is idempotent:
a second pass over its own output changes nothing at all (in particular no
`variable` field).  (2) The `variableId` write never clobbers a truthy
value: it is written only when absent or falsy (the frozen "added only when
absent" is refuted for a present-but-empty `variableId`, see
`C3_counterexample`). -/
theorem C3_resolution_idempotence :
    (∀ (T : List VariableMapping) (TS : List DesignTokens.TextStyleMapping) (d : Json),
      PostResolve.SeparatedTable T →
        PostResolve.resolveVariablesInDesignJ T TS
            (PostResolve.resolveVariablesInDesignJ T TS d)
          = PostResolve.resolveVariablesInDesignJ T TS d)
    ∧ (∀ (res : List (String × String)) (d w : Json),
        d.getField "variableId" = some w → jsTruthy w = true →
          (PostResolve.applyVarObj res d).getField "variableId" = some w) := by
  constructor
  · intro T TS d hsep
    cases hgs : PostResolve.gvStyles d with
    | none =>
      have hrun : PostResolve.resolveVariablesInDesignJ T TS d = d := by
        unfold PostResolve.resolveVariablesInDesignJ PostResolve.resolveTextStylesJ
        simp only [hgs]
      rw [hrun, hrun]
    | some p =>
      obtain ⟨gv, st⟩ := p
      obtain ⟨hg, htg, hs, hts⟩ := PostResolve.gvStyles_eq_some d gv st hgs
      have hst1t : jsTruthy (PostResolve.applyStyleVals
          (PostResolve.buildResolutions T (PostResolve.collectStyleVals st [])) st) = true := by
        rw [PostResolve.jsTruthy_applyStyleVals]; exact hts
      have hst2t : jsTruthy (PostResolve.textStyleVals TS (PostResolve.applyStyleVals
          (PostResolve.buildResolutions T (PostResolve.collectStyleVals st [])) st)) = true := by
        rw [PostResolve.jsTruthy_textStyleVals]; exact hst1t
      have hrun : PostResolve.resolveVariablesInDesignJ T TS d
          = d.setField "globalVars" (gv.setField "styles"
              (PostResolve.textStyleVals TS (PostResolve.applyStyleVals
                (PostResolve.buildResolutions T (PostResolve.collectStyleVals st [])) st))) := by
        unfold PostResolve.resolveVariablesInDesignJ PostResolve.resolveTextStylesJ
        simp only [hgs]
        simp only [PostResolve.gvStyles_setField d gv st _ hgs hst1t]
        rw [PostResolve.setField_setField, PostResolve.setField_setField]
      have hgs1 := PostResolve.gvStyles_setField d gv st
        (PostResolve.textStyleVals TS (PostResolve.applyStyleVals
          (PostResolve.buildResolutions T (PostResolve.collectStyleVals st [])) st))
        hgs hst2t
      have hids2 : ∀ x ∈ PostResolve.collectStyleVals
          (PostResolve.textStyleVals TS (PostResolve.applyStyleVals
            (PostResolve.buildResolutions T (PostResolve.collectStyleVals st [])) st)) [],
          PostResolve.resolveForId T x = none := by
        intro x hx
        rcases (PostResolve.mem_collectStyleVals x _ []).mp hx with hfalse | ⟨v2, hv2, hxv2⟩
        · exact absurd hfalse (by simp)
        · rw [PostResolve.styleVals_textStyleVals, List.mem_map] at hv2
          obtain ⟨v1, hv1, rfl⟩ := hv2
          have hx1 : x ∈ PostResolve.varsOf v1 :=
            PostResolve.mem_varsOf_textEntryVal TS v1 x hxv2
          rw [PostResolve.styleVals_applyStyleVals, List.mem_map] at hv1
          obtain ⟨v0, hv0, rfl⟩ := hv1
          rcases (PostResolve.mem_varsOf_apply
              (PostResolve.buildResolutions T (PostResolve.collectStyleVals st [])) v0).1
              x hx1 with ⟨q, hq, rfl⟩ | ⟨hx0, hfalsy⟩
          · obtain ⟨hqin, hqres⟩ := PostResolve.mem_buildResolutions T _ q hq
            obtain ⟨m, hm, hmname⟩ := PostResolve.resolveForId_name_mem T q.1 q.2 hqres
            have hmn := hsep m hm
            rw [hmname] at hmn
            exact hmn
          · have hxids1 : x ∈ PostResolve.collectStyleVals st [] :=
              (PostResolve.mem_collectStyleVals x st []).mpr (Or.inr ⟨v0, hv0, hx0⟩)
            have hmg := PostResolve.mapGet_buildResolutions_mem T x _ hxids1
            cases hres : PostResolve.resolveForId T x with
            | none => rfl
            | some n =>
              have htr := PostResolve.resolveForId_truthy T x n hres
              rw [hres] at hmg
              have hfn := hfalsy n hmg
              rw [htr] at hfn
              exact absurd hfn (by simp)
      have hres2nil : PostResolve.buildResolutions T
          (PostResolve.collectStyleVals
            (PostResolve.textStyleVals TS (PostResolve.applyStyleVals
              (PostResolve.buildResolutions T (PostResolve.collectStyleVals st [])) st)) [])
          = [] := PostResolve.buildResolutions_eq_nil T _ hids2
      rw [hrun]
      unfold PostResolve.resolveVariablesInDesignJ PostResolve.resolveTextStylesJ
      simp only [hgs1]
      rw [hres2nil, PostResolve.applyStyleVals_nil]
      rw [PostResolve.setField_setField, PostResolve.setField_setField]
      simp only [hgs1]
      rw [PostResolve.textStyleVals_idem]
      rw [PostResolve.setField_setField, PostResolve.setField_setField]
  · intro res d w hw htw
    unfold PostResolve.applyVarObj
    cases hv : d.getField "variable" with
    | none => simp only [hv]; exact hw
    | some v =>
      cases v with
      | str s =>
        simp only [hv]
        cases hg : PostResolve.mapGet res s with
        | none => exact hw
        | some r =>
          by_cases ht : Js.truthyStr r = true
          · simp only [if_pos ht, hw, htw, Bool.not_true, Bool.false_and,
              Bool.false_eq_true, if_false]
            rw [PostResolve.getField_setField_ne _ _ _ _ (by decide)]
            exact hw
          · simp only [if_neg ht]; exact hw
      | null => simp only [hv]; exact hw
      | bool b => simp only [hv]; exact hw
      | num n => simp only [hv]; exact hw
      | arrNil => simp only [hv]; exact hw
      | arrCons a b => simp only [hv]; exact hw
      | objNil => simp only [hv]; exact hw
      | objCons a b c => simp only [hv]; exact hw

namespace PostResolve

/-- Witness mapping table: one id mapped to a semantic name that does not
resolve again. -/
def c3wT : List VariableMapping := [⟨"VariableID:9:9", "Primary/Main", none⟩]

/-- Witness design: one style entry referencing `Variable[9:9]`. -/
def c3wd : Json :=
  .objCons "globalVars"
    (.objCons "styles"
      (.objCons "fill_0"
        (.objCons "variable" (.str "Variable[9:9]") .objNil)
        .objNil)
      .objNil)
    .objNil

/-- Witness object carrying a truthy `variableId`. -/
def c3vo : Json :=
  .objCons "variable" (.str "a")
    (.objCons "variableId" (.str "VariableID:7:7") .objNil)

end PostResolve

/-- Witness for C3: the separated one-entry table is idempotent on the
witness design, and a truthy `variableId` survives `applyVarObj` untouched. -/
theorem C3_resolution_idempotence_witness :
    (PostResolve.resolveVariablesInDesignJ PostResolve.c3wT []
        (PostResolve.resolveVariablesInDesignJ PostResolve.c3wT [] PostResolve.c3wd)
      = PostResolve.resolveVariablesInDesignJ PostResolve.c3wT [] PostResolve.c3wd)
    ∧ ((PostResolve.applyVarObj [("a", "b")] PostResolve.c3vo).getField "variableId"
        = some (.str "VariableID:7:7")) :=
  ⟨C3_resolution_idempotence.1 PostResolve.c3wT [] PostResolve.c3wd
     (show ∀ m ∈ PostResolve.c3wT,
        PostResolve.resolveForId PostResolve.c3wT m.name = none by decide),
   C3_resolution_idempotence.2 [("a", "b")] PostResolve.c3vo (.str "VariableID:7:7")
     (by decide) (by decide)⟩

/-! ## C4 — `resolveVariablesInDesign` never mutates its argument

The no-mutation contract is about aliasing, which the value-level model of
C3 cannot express.  Here the same function is embedded over an explicit
heap: arrays and objects live in numbered cells (`HCell`), values (`HVal`)
are atoms or cell references, and in-place mutation is `List.set` on the
heap.  `JSON.parse(JSON.stringify(x))` is `cloneVal`: a deep copy that
allocates fresh cells at the end of the heap (children first).  The
traversals recurse on explicit fuel (the heap embedding has no structural
measure); the frame theorem holds for every fuel, so no fuel-sufficiency
hypothesis is needed.  The claim is then: for every input heap, every cell
of the original heap is unchanged after the call — the returned heap
restricted to the original addresses (`List.take h.length`) is exactly
`h`. -/

namespace HeapModel

/-- Inline JavaScript values: JSON atoms plus references to heap cells. -/
inductive HVal where
  | vnull : HVal
  | vbool (b : Bool) : HVal
  | vnum (n : Int) : HVal
  | vstr (s : String) : HVal
  | vref (a : Nat) : HVal
  deriving DecidableEq, Repr

/-- A heap cell: an array of values or an object field list. -/
inductive HCell where
  | carr (items : List HVal) : HCell
  | cobj (fs : List (String × HVal)) : HCell
  deriving DecidableEq, Repr

/-- The heap: cells addressed by their list index. -/
abbrev Heap := List HCell

/-- JavaScript truthiness of a heap value (arrays and objects are truthy). -/
def hvalTruthy : HVal → Bool
  | .vnull => false
  | .vbool b => b
  | .vnum n => !(n == 0)
  | .vstr s => Js.truthyStr s
  | .vref _ => true

/-- First field named `k` of an object field list. -/
def lookupF (fs : List (String × HVal)) (k : String) : Option HVal :=
  (fs.find? (fun p => p.1 == k)).map (fun p => p.2)

/-- Assignment on an object field list: overwrite the first field named `k`
in place, or append (JavaScript property-creation order). -/
def setF (fs : List (String × HVal)) (k : String) (v : HVal) :
    List (String × HVal) :=
  match fs with
  | [] => [(k, v)]
  | (k2, v2) :: rest => if k2 == k then (k2, v) :: rest else (k2, v2) :: setF rest k v

/-- Property access `v[k]` through the heap (`undefined` on non-objects). -/
def hGetField (h : Heap) (v : HVal) (k : String) : Option HVal :=
  match v with
  | .vref a =>
    match h.get? a with
    | some (.cobj fs) => lookupF fs k
    | _ => none
  | _ => none

/-- The cell addresses referenced from an object field list. -/
def fieldRefs : List (String × HVal) → List Nat
  | [] => []
  | (_, .vref a) :: rest => a :: fieldRefs rest
  | _ :: rest => fieldRefs rest

/-- The cell addresses referenced from an array item list. -/
def itemRefs : List HVal → List Nat
  | [] => []
  | .vref a :: rest => a :: itemRefs rest
  | _ :: rest => itemRefs rest

/-- The cell addresses referenced from a cell. -/
def cellRefs : HCell → List Nat
  | .carr items => itemRefs items
  | .cobj fs => fieldRefs fs

/-- Clone a list of values left to right, threading the heap. -/
def cloneList (f : Heap → HVal → HVal × Heap) :
    Heap → List HVal → List HVal × Heap
  | h, [] => ([], h)
  | h, v :: rest =>
    let p := f h v
    let q := cloneList f p.2 rest
    (p.1 :: q.1, q.2)

/-- Clone the values of a field list left to right, threading the heap. -/
def clonePairs (f : Heap → HVal → HVal × Heap) :
    Heap → List (String × HVal) → List (String × HVal) × Heap
  | h, [] => ([], h)
  | h, (k, v) :: rest =>
    let p := f h v
    let q := clonePairs f p.2 rest
    ((k, p.1) :: q.1, q.2)

/-- `JSON.parse(JSON.stringify(x))`: a deep structural copy allocating fresh
cells at the end of the heap, children first.  Fuel bounds the copied
depth; atoms copy as themselves and a dangling reference copies as `null`
(neither arises from a JavaScript object graph with enough fuel). -/
def cloneVal : Nat → Heap → HVal → HVal × Heap
  | 0, h, _ => (.vnull, h)
  | fuel + 1, h, v =>
    match v with
    | .vref a =>
      match h.get? a with
      | some (.carr items) =>
        let p := cloneList (fun hh w => cloneVal fuel hh w) h items
        (.vref p.2.length, p.2 ++ [.carr p.1])
      | some (.cobj fs) =>
        let p := clonePairs (fun hh w => cloneVal fuel hh w) h fs
        (.vref p.2.length, p.2 ++ [.cobj p.1])
      | none => (.vnull, h)
    | w => (w, h)

/-- `item && typeof item === 'object' && 'variable' in item` for an array
item: a reference to an object cell carrying a `variable` field. -/
def hItemIsVarObj (h : Heap) (item : HVal) : Bool :=
  match item with
  | .vref a =>
    match h.get? a with
    | some (.cobj fs) => (lookupF fs "variable").isSome
    | _ => false
  | _ => false

/-- `findVariableIds` over the heap (pure reads; mirrors the value-level
`PostResolve.findVariableIdsJ`, see C3). -/
def findVariableIdsH : Nat → Heap → HVal → List String → List String
  | 0, _, _, acc => acc
  | fuel + 1, h, v, acc =>
    if !hvalTruthy v then acc
    else
      match v with
      | .vref a =>
        match h.get? a with
        | some (.carr items) =>
          items.foldl (fun ac item =>
            if hItemIsVarObj h item then
              match hGetField h item "variable" with
              | some (.vstr s) => if ac.contains s then ac else ac ++ [s]
              | _ => ac
            else findVariableIdsH fuel h item ac) acc
        | some (.cobj fs) =>
          let a1 :=
            match lookupF fs "variable" with
            | some (.vstr s) => if acc.contains s then acc else acc ++ [s]
            | _ => acc
          fs.foldl (fun ac p => findVariableIdsH fuel h p.2 ac) a1
        | none => acc
      | _ => acc

/-- The `'variable' in data` rewrite block of `applyResolutions`, mutating
the object cell at `a` in place (same per-object logic as
`PostResolve.applyVarObj`). -/
def applyVarObjH (res : List (String × String)) (h : Heap) (a : Nat) : Heap :=
  match h.get? a with
  | some (.cobj fs) =>
    match lookupF fs "variable" with
    | some (.vstr s) =>
      match PostResolve.mapGet res s with
      | some r =>
        if Js.truthyStr r then
          let vidFalsy :=
            match lookupF fs "variableId" with
            | some w => !hvalTruthy w
            | none => true
          let fs1 :=
            if vidFalsy && Js.startsWith s "Variable[" then
              setF fs "variableId" (.vstr ("VariableID:" ++ Js.sliceDropEnds s 9 1))
            else if vidFalsy then
              setF fs "variableId" (.vstr s)
            else fs
          h.set a (.cobj (setF fs1 "variable" (.vstr r)))
        else h
      | none => h
    | _ => h
  | _ => h

/-- The cell address of a reference value, if any. -/
def refAddr : HVal → Option Nat
  | .vref a => some a
  | _ => none

/-- The array-item loop of `applyResolutions`: items carrying a `variable`
key are rewritten in place and not recursed into; the others are recursed
into (with the recursion passed in as `f`). -/
def applyItems (res : List (String × String)) (f : HVal → Heap → Heap) :
    List HVal → Heap → Heap
  | [], h => h
  | item :: rest, h =>
    let h1 :=
      if hItemIsVarObj h item then
        match refAddr item with
        | some a => applyVarObjH res h a
        | none => h
      else f item h
    applyItems res f rest h1

/-- The `Object.values` recursion loop of `applyResolutions` over the
(post-rewrite) field values of an object. -/
def applyFieldVals (f : HVal → Heap → Heap) :
    List (String × HVal) → Heap → Heap
  | [], h => h
  | (_, v) :: rest, h => applyFieldVals f rest (f v h)

/-- `applyResolutions(data, resolutions)` over the heap: the source order is
kept literally — an object cell is rewritten first and the recursion then
runs over the values of the rewritten cell. -/
def applyResolutionsH (res : List (String × String)) :
    Nat → HVal → Heap → Heap
  | 0, _, h => h
  | fuel + 1, v, h =>
    if !hvalTruthy v then h
    else
      match v with
      | .vref a =>
        match h.get? a with
        | some (.carr items) =>
          applyItems res (fun w hh => applyResolutionsH res fuel w hh) items h
        | some (.cobj fs) =>
          let h1 := if (lookupF fs "variable").isSome then applyVarObjH res h a else h
          match h1.get? a with
          | some (.cobj fs1) =>
            applyFieldVals (fun w hh => applyResolutionsH res fuel w hh) fs1 h1
          | _ => h1
        | none => h
      | _ => h

/-- A field value read back as a JSON atom (for the property-based
text-style query; an object-valued font property is outside the modelled
domain, see the C3 module comment). -/
def hFieldJson (h : Heap) (v : HVal) (k : String) : Option Json :=
  (hGetField h v k).bind (fun w =>
    match w with
    | .vnull => some .null
    | .vbool b => some (.bool b)
    | .vnum n => some (.num n)
    | .vstr s => some (.str s)
    | .vref _ => none)

/-- The resolved semantic name of one `resolveTextStyles` entry, if any
(by style id, else by font properties when `fontFamily` is truthy). -/
def textEntryNameH (textStyles : List DesignTokens.TextStyleMapping)
    (h : Heap) (styleData : HVal) : Option String :=
  match hGetField h styleData "textStyleId" with
  | some (.vstr tid) =>
    if Js.truthyStr tid then
      let r1 := DesignTokens.resolveTextStyleFromMapping tid textStyles
      if !(PostResolve.optStrTruthy r1)
          && (match hGetField h styleData "fontFamily" with
              | some w => hvalTruthy w
              | none => false) then
        DesignTokens.resolveTextStyleByProperties
          ⟨hFieldJson h styleData "fontFamily", hFieldJson h styleData "fontSize",
           hFieldJson h styleData "fontWeight", hFieldJson h styleData "lineHeight"⟩
          textStyles
      else r1
    else none
  | _ => none

/-- The `Object.entries` view of the styles container cell. -/
def cellEntries : HCell → List (String × HVal)
  | .cobj fs => fs
  | .carr items => items.enum.map (fun p => (toString p.1, p.2))

/-- Assignment `cell[k] = v` (numeric index for an array cell). -/
def cellSetEntry : HCell → String → HVal → HCell
  | .cobj fs, k, v => .cobj (setF fs k v)
  | .carr items, k, v =>
    match k.toNat? with
    | some i => .carr (items.set i v)
    | none => .carr items

/-- The `resolveTextStyles` entry loop: a truthy object-like entry whose
name resolves is replaced — in the styles cell at `sa`, in place — by the
semantic name. -/
def textEntriesH (textStyles : List DesignTokens.TextStyleMapping) (sa : Nat) :
    List (String × HVal) → Heap → Heap
  | [], h => h
  | (styleId, styleData) :: rest, h =>
    let h1 :=
      if hvalTruthy styleData && (refAddr styleData).isSome then
        match textEntryNameH textStyles h styleData with
        | some n =>
          if Js.truthyStr n then
            match h.get? sa with
            | some c => h.set sa (cellSetEntry c styleId (.vstr n))
            | none => h
          else h
        | none => h
      else h
    textEntriesH textStyles sa rest h1

/-- The guard `data.globalVars && data.globalVars.styles` over the heap:
the truthy styles container, if both fields are present and truthy. -/
def hStylesVal (h : Heap) (root : HVal) : Option HVal :=
  match hGetField h root "globalVars" with
  | some gv =>
    if hvalTruthy gv then
      match hGetField h gv "styles" with
      | some st => if hvalTruthy st then some st else none
      | none => none
    else none
  | none => none

/-- `resolveTextStyles(data)` over the heap. -/
def resolveTextStylesH (textStyles : List DesignTokens.TextStyleMapping)
    (root : HVal) (h : Heap) : Heap :=
  match hStylesVal h root with
  | some st =>
    match st with
    | .vref sa =>
      match h.get? sa with
      | some c => textEntriesH textStyles sa (cellEntries c) h
      | none => h
    | _ => h
  | none => h

/-- `Object.values` of the styles container. -/
def hValues (h : Heap) (v : HVal) : List HVal :=
  match v with
  | .vref a =>
    match h.get? a with
    | some (.carr items) => items
    | some (.cobj fs) => fs.map Prod.snd
    | none => []
  | _ => []

/-- The id-collection loop of `resolveVariablesInDesign` over the heap
(guarded by `resolved.globalVars && resolved.globalVars.styles`). -/
def collectPhaseH (fuel : Nat) (root : HVal) (h : Heap) : List String :=
  match hStylesVal h root with
  | some st => (hValues h st).foldl (fun acc sv => findVariableIdsH fuel h sv acc) []
  | none => []

/-- The resolution-application loop of `resolveVariablesInDesign` over the
heap (same guard; `Object.values` snapshot, each style value mutated in
place). -/
def applyPhaseH (res : List (String × String)) (fuel : Nat) (root : HVal)
    (h : Heap) : Heap :=
  match hStylesVal h root with
  | some st => (hValues h st).foldl (fun hh sv => applyResolutionsH res fuel sv hh) h
  | none => h

/-- `resolveVariablesInDesign(simplifiedDesign)` over the heap: deep-clone,
collect ids from the clone, resolve them (`PostResolve.buildResolutions`,
shared with C3), apply the resolutions to the clone, resolve text styles in
the clone, and return the clone root with the final heap. -/
def resolveVariablesInDesignH (fuel : Nat) (T : List VariableMapping)
    (textStyles : List DesignTokens.TextStyleMapping) (d : HVal) (h : Heap) :
    HVal × Heap :=
  let cl := cloneVal fuel h d
  let resolutions := PostResolve.buildResolutions T (collectPhaseH fuel cl.1 cl.2)
  (cl.1, resolveTextStylesH textStyles cl.1 (applyPhaseH resolutions fuel cl.1 cl.2))

end HeapModel

namespace HeapModel

/-- The second heap extends the first (append-only growth). -/
def HExt (h h2 : Heap) : Prop := ∃ t, h2 = h ++ t

theorem hext_refl (h : Heap) : HExt h h := ⟨[], by simp⟩

theorem hext_trans (h h2 h3 : Heap) (h12 : HExt h h2) (h23 : HExt h2 h3) :
    HExt h h3 := by
  obtain ⟨t1, rfl⟩ := h12
  obtain ⟨t2, rfl⟩ := h23
  exact ⟨t1 ++ t2, by rw [List.append_assoc]⟩

theorem hext_snoc (h : Heap) (c : HCell) : HExt h (h ++ [c]) := ⟨[c], rfl⟩

theorem hext_length (h h2 : Heap) (hx : HExt h h2) : h.length ≤ h2.length := by
  obtain ⟨t, rfl⟩ := hx
  simp

theorem hext_take (h h2 : Heap) (hx : HExt h h2) : h2.take h.length = h := by
  obtain ⟨t, rfl⟩ := hx
  exact List.take_left h t

theorem get?_append_lt (h t : Heap) (a : Nat) (ha : a < h.length) :
    (h ++ t).get? a = h.get? a := by
  induction h generalizing a with
  | nil => simp at ha
  | cons x xs ih =>
    cases a with
    | zero => rfl
    | succ a2 => exact ih a2 (Nat.lt_of_succ_lt_succ (by simpa using ha))

theorem get?_concat_self (h : Heap) (c : HCell) : (h ++ [c]).get? h.length = some c := by
  induction h with
  | nil => rfl
  | cons x xs ih => exact ih

theorem get?_ge_none (h : Heap) (a : Nat) (ha : h.length ≤ a) : h.get? a = none := by
  induction h generalizing a with
  | nil => rfl
  | cons x xs ih =>
    cases a with
    | zero => simp at ha
    | succ a2 => exact ih a2 (Nat.le_of_succ_le_succ (by simpa using ha))

theorem get?_append_ge (h t : Heap) (a : Nat) (ha : h.length ≤ a) :
    (h ++ t).get? a = t.get? (a - h.length) := by
  induction h generalizing a with
  | nil => simp
  | cons x xs ih =>
    cases a with
    | zero => simp at ha
    | succ a2 =>
      rw [show ((x :: xs) ++ t : Heap).get? (a2 + 1) = (xs ++ t).get? a2 from rfl]
      rw [ih a2 (Nat.le_of_succ_le_succ (by simpa using ha))]
      congr 1
      simp [Nat.succ_sub_succ]

theorem get?_set_ne (h : Heap) (a b : Nat) (c : HCell) (hab : a ≠ b) :
    (h.set a c).get? b = h.get? b := by
  induction h generalizing a b with
  | nil => rfl
  | cons x xs ih =>
    cases a with
    | zero =>
      cases b with
      | zero => exact absurd rfl hab
      | succ b2 => rfl
    | succ a2 =>
      cases b with
      | zero => rfl
      | succ b2 => exact ih a2 b2 (fun hh => hab (by rw [hh]))

theorem get?_set_self_of_lt (h : Heap) (a : Nat) (c : HCell) (ha : a < h.length) :
    (h.set a c).get? a = some c := by
  induction h generalizing a with
  | nil => simp at ha
  | cons x xs ih =>
    cases a with
    | zero => rfl
    | succ a2 => exact ih a2 (Nat.lt_of_succ_lt_succ (by simpa using ha))

theorem set_of_le_length (h : Heap) (a : Nat) (c : HCell) (ha : h.length ≤ a) :
    h.set a c = h := by
  induction h generalizing a with
  | nil => rfl
  | cons x xs ih =>
    cases a with
    | zero => simp at ha
    | succ a2 =>
      rw [show (x :: xs : Heap).set (a2 + 1) c = x :: xs.set a2 c from rfl]
      rw [ih a2 (Nat.le_of_succ_le_succ (by simpa using ha))]

theorem take_set_of_le (h : Heap) (a : Nat) (c : HCell) (n : Nat) (hna : n ≤ a) :
    (h.set a c).take n = h.take n := by
  induction h generalizing a n with
  | nil => rfl
  | cons x xs ih =>
    cases a with
    | zero =>
      cases n with
      | zero => rfl
      | succ n2 => simp at hna
    | succ a2 =>
      cases n with
      | zero => rfl
      | succ n2 =>
        rw [show ((x :: xs : Heap).set (a2 + 1) c).take (n2 + 1)
            = x :: (xs.set a2 c).take n2 from rfl]
        rw [show ((x :: xs : Heap)).take (n2 + 1) = x :: xs.take n2 from rfl]
        rw [ih a2 n2 (Nat.le_of_succ_le_succ (by simpa using hna))]

/-- Every cell at an address `≥ n` references only addresses `≥ n` (the
clone region is closed). -/
def RegionOK (n : Nat) (h : Heap) : Prop :=
  ∀ a c, n ≤ a → h.get? a = some c → ∀ r ∈ cellRefs c, n ≤ r

/-- A value references (if anything) an address `≥ n`. -/
def ValOK (n : Nat) (v : HVal) : Prop := ∀ a, v = .vref a → n ≤ a

theorem valOK_atom (n : Nat) (v : HVal) (hv : ∀ a, v ≠ .vref a) : ValOK n v :=
  fun a ha => absurd ha (hv a)

theorem regionOK_set (n : Nat) (h : Heap) (a : Nat) (c : HCell)
    (hreg : RegionOK n h) (hsub : ∀ r ∈ cellRefs c, n ≤ r) :
    RegionOK n (h.set a c) := by
  intro a2 c2 hna2 hget
  by_cases hab : a = a2
  · subst hab
    by_cases hlen : a < h.length
    · rw [get?_set_self_of_lt h a c hlen] at hget
      injection hget with hget
      subst hget
      exact hsub
    · rw [set_of_le_length h a c (Nat.le_of_not_lt hlen)] at hget
      exact hreg a c2 hna2 hget
  · rw [get?_set_ne h a a2 c hab] at hget
    exact hreg a2 c2 hna2 hget

end HeapModel

namespace HeapModel

theorem mem_fieldRefs_setF_str (fs : List (String × HVal)) (k s : String) :
    ∀ r ∈ fieldRefs (setF fs k (.vstr s)), r ∈ fieldRefs fs := by
  induction fs with
  | nil =>
    intro r hr
    exact absurd hr (by simp [setF, fieldRefs])
  | cons p rest ih =>
    obtain ⟨k2, v2⟩ := p
    intro r hr
    unfold setF at hr
    by_cases hk : (k2 == k) = true
    · rw [if_pos hk] at hr
      rw [show fieldRefs ((k2, HVal.vstr s) :: rest) = fieldRefs rest from rfl] at hr
      cases v2 with
      | vref a => exact List.mem_cons_of_mem a hr
      | vnull => exact hr
      | vbool b => exact hr
      | vnum n => exact hr
      | vstr s2 => exact hr
    · rw [if_neg hk] at hr
      cases v2 with
      | vref a =>
        rw [show fieldRefs ((k2, HVal.vref a) :: setF rest k (.vstr s))
            = a :: fieldRefs (setF rest k (.vstr s)) from rfl] at hr
        rcases List.mem_cons.mp hr with h2 | h2
        · exact h2 ▸ List.mem_cons_self a _
        · exact List.mem_cons_of_mem a (ih r h2)
      | vnull => exact ih r hr
      | vbool b => exact ih r hr
      | vnum n => exact ih r hr
      | vstr s2 => exact ih r hr

theorem mem_itemRefs_set_str (items : List HVal) (i : Nat) (s : String) :
    ∀ r ∈ itemRefs (items.set i (.vstr s)), r ∈ itemRefs items := by
  induction items generalizing i with
  | nil => intro r hr; simpa using hr
  | cons v rest ih =>
    intro r hr
    cases i with
    | zero =>
      rw [show (v :: rest).set 0 (HVal.vstr s) = HVal.vstr s :: rest from rfl] at hr
      rw [show itemRefs (HVal.vstr s :: rest) = itemRefs rest from rfl] at hr
      cases v with
      | vref a => exact List.mem_cons_of_mem a hr
      | vnull => exact hr
      | vbool b => exact hr
      | vnum n => exact hr
      | vstr s2 => exact hr
    | succ i2 =>
      rw [show (v :: rest).set (i2 + 1) (HVal.vstr s) = v :: rest.set i2 (.vstr s)
          from rfl] at hr
      cases v with
      | vref a =>
        rw [show itemRefs (HVal.vref a :: rest.set i2 (.vstr s))
            = a :: itemRefs (rest.set i2 (.vstr s)) from rfl] at hr
        rcases List.mem_cons.mp hr with h2 | h2
        · exact h2 ▸ List.mem_cons_self a _
        · exact List.mem_cons_of_mem a (ih i2 r h2)
      | vnull => exact ih i2 r hr
      | vbool b => exact ih i2 r hr
      | vnum n => exact ih i2 r hr
      | vstr s2 => exact ih i2 r hr

theorem mem_cellRefs_cellSetEntry_str (c : HCell) (k s : String) :
    ∀ r ∈ cellRefs (cellSetEntry c k (.vstr s)), r ∈ cellRefs c := by
  cases c with
  | cobj fs => exact mem_fieldRefs_setF_str fs k s
  | carr items =>
    intro r hr
    simp only [cellSetEntry] at hr
    cases hi : k.toNat? with
    | some i =>
      rw [hi] at hr
      exact mem_itemRefs_set_str items i s r hr
    | none =>
      rw [hi] at hr
      exact hr

theorem lookupF_mem (fs : List (String × HVal)) (k : String) (w : HVal)
    (h : lookupF fs k = some w) : ∃ p ∈ fs, p.2 = w := by
  unfold lookupF at h
  rw [Option.map_eq_some'] at h
  obtain ⟨q, hq, hv⟩ := h
  exact ⟨q, List.mem_of_find?_eq_some hq, hv⟩

theorem mem_fieldRefs_of_mem (fs : List (String × HVal)) (p : String × HVal)
    (hp : p ∈ fs) (b : Nat) (hb : p.2 = .vref b) : b ∈ fieldRefs fs := by
  induction fs with
  | nil => exact absurd hp (List.not_mem_nil p)
  | cons q rest ih =>
    obtain ⟨k2, v2⟩ := q
    rcases List.mem_cons.mp hp with h2 | h2
    · subst h2
      simp only at hb
      subst hb
      exact List.mem_cons_self b _
    · cases v2 with
      | vref a => exact List.mem_cons_of_mem a (ih h2)
      | vnull => exact ih h2
      | vbool b2 => exact ih h2
      | vnum n => exact ih h2
      | vstr s2 => exact ih h2

theorem mem_itemRefs_of_mem (items : List HVal) (w : HVal) (hw : w ∈ items)
    (b : Nat) (hb : w = .vref b) : b ∈ itemRefs items := by
  subst hb
  induction items with
  | nil => exact absurd hw (List.not_mem_nil _)
  | cons v rest ih =>
    rcases List.mem_cons.mp hw with h2 | h2
    · rw [← h2]
      exact List.mem_cons_self b _
    · cases v with
      | vref a => exact List.mem_cons_of_mem a (ih h2)
      | vnull => exact ih h2
      | vbool b2 => exact ih h2
      | vnum n => exact ih h2
      | vstr s2 => exact ih h2

theorem hGetField_valOK (n : Nat) (h : Heap) (v : HVal) (k : String) (w : HVal)
    (hv : ValOK n v) (hreg : RegionOK n h) (hw : hGetField h v k = some w) :
    ValOK n w := by
  intro b hb
  subst hb
  unfold hGetField at hw
  cases v with
  | vref a =>
    have hw2 : (match h.get? a with
        | some (HCell.cobj fs) => lookupF fs k
        | _ => none) = some (HVal.vref b) := hw
    cases hc : h.get? a with
    | none => rw [hc] at hw2; exact absurd hw2 (by simp)
    | some cell =>
      rw [hc] at hw2
      cases cell with
      | carr items => exact absurd hw2 (by simp)
      | cobj fs =>
        obtain ⟨p, hp, hpw⟩ := lookupF_mem fs k _ hw2
        exact hreg a (.cobj fs) (hv a rfl) hc b
          (mem_fieldRefs_of_mem fs p hp b hpw)
  | vnull => exact absurd hw (by simp)
  | vbool b2 => exact absurd hw (by simp)
  | vnum n2 => exact absurd hw (by simp)
  | vstr s => exact absurd hw (by simp)

theorem hValues_valOK (n : Nat) (h : Heap) (v : HVal)
    (hv : ValOK n v) (hreg : RegionOK n h) :
    ∀ w ∈ hValues h v, ValOK n w := by
  intro w hw b hb
  subst hb
  unfold hValues at hw
  cases v with
  | vref a =>
    have hw2 : HVal.vref b ∈ (match h.get? a with
        | some (HCell.carr items) => items
        | some (HCell.cobj fs) => fs.map Prod.snd
        | none => ([] : List HVal)) := hw
    cases hc : h.get? a with
    | none => rw [hc] at hw2; exact absurd hw2 (by simp)
    | some cell =>
      rw [hc] at hw2
      cases cell with
      | carr items =>
        exact hreg a (.carr items) (hv a rfl) hc b
          (mem_itemRefs_of_mem items _ hw2 b rfl)
      | cobj fs =>
        rw [List.mem_map] at hw2
        obtain ⟨p, hp, hpw⟩ := hw2
        exact hreg a (.cobj fs) (hv a rfl) hc b
          (mem_fieldRefs_of_mem fs p hp b hpw)
  | vnull => exact absurd hw (by simp)
  | vbool b2 => exact absurd hw (by simp)
  | vnum n2 => exact absurd hw (by simp)
  | vstr s => exact absurd hw (by simp)

theorem hStylesVal_valOK (n : Nat) (h : Heap) (root st : HVal)
    (hroot : ValOK n root) (hreg : RegionOK n h)
    (hst : hStylesVal h root = some st) : ValOK n st := by
  unfold hStylesVal at hst
  split at hst
  · next gv hg =>
    split at hst
    · next htg =>
      split at hst
      · next st2 hs =>
        split at hst
        · next hts =>
          injection hst with hst
          subst hst
          exact hGetField_valOK n h gv "styles" st2
            (hGetField_valOK n h root "globalVars" gv hroot hreg hg) hreg hs
        · exact absurd hst (by simp)
      · exact absurd hst (by simp)
    · exact absurd hst (by simp)
  · exact absurd hst (by simp)

end HeapModel

namespace HeapModel

theorem itemRefs_mem (items : List HVal) (r : Nat) (hr : r ∈ itemRefs items) :
    HVal.vref r ∈ items := by
  induction items with
  | nil => exact absurd hr (by simp [itemRefs])
  | cons v rest ih =>
    cases v with
    | vref a =>
      rcases List.mem_cons.mp hr with h2 | h2
      · rw [h2]; exact List.mem_cons_self _ _
      · exact List.mem_cons_of_mem _ (ih h2)
    | vnull => exact List.mem_cons_of_mem _ (ih hr)
    | vbool b => exact List.mem_cons_of_mem _ (ih hr)
    | vnum n => exact List.mem_cons_of_mem _ (ih hr)
    | vstr s => exact List.mem_cons_of_mem _ (ih hr)

theorem fieldRefs_mem (fs : List (String × HVal)) (r : Nat) (hr : r ∈ fieldRefs fs) :
    ∃ p ∈ fs, p.2 = HVal.vref r := by
  induction fs with
  | nil => exact absurd hr (by simp [fieldRefs])
  | cons q rest ih =>
    obtain ⟨k2, v2⟩ := q
    cases v2 with
    | vref a =>
      rcases List.mem_cons.mp hr with h2 | h2
      · exact ⟨(k2, .vref a), List.mem_cons_self _ _, by rw [h2]⟩
      · obtain ⟨p, hp, hpr⟩ := ih h2
        exact ⟨p, List.mem_cons_of_mem _ hp, hpr⟩
    | vnull =>
      obtain ⟨p, hp, hpr⟩ := ih hr
      exact ⟨p, List.mem_cons_of_mem _ hp, hpr⟩
    | vbool b =>
      obtain ⟨p, hp, hpr⟩ := ih hr
      exact ⟨p, List.mem_cons_of_mem _ hp, hpr⟩
    | vnum n =>
      obtain ⟨p, hp, hpr⟩ := ih hr
      exact ⟨p, List.mem_cons_of_mem _ hp, hpr⟩
    | vstr s =>
      obtain ⟨p, hp, hpr⟩ := ih hr
      exact ⟨p, List.mem_cons_of_mem _ hp, hpr⟩

theorem cloneList_spec (f : Heap → HVal → HVal × Heap) (n : Nat)
    (hf : ∀ h v, n ≤ h.length → RegionOK n h →
      HExt h (f h v).2 ∧ RegionOK n (f h v).2 ∧ ValOK n (f h v).1) :
    ∀ (l : List HVal) (h : Heap), n ≤ h.length → RegionOK n h →
      HExt h (cloneList f h l).2 ∧ RegionOK n (cloneList f h l).2
      ∧ ∀ w ∈ (cloneList f h l).1, ValOK n w := by
  intro l
  induction l with
  | nil =>
    intro h hn hreg
    exact ⟨hext_refl h, hreg, fun w hw => absurd hw (List.not_mem_nil w)⟩
  | cons v rest ih =>
    intro h hn hreg
    obtain ⟨hx1, hr1, hv1⟩ := hf h v hn hreg
    have hn1 : n ≤ (f h v).2.length := le_trans hn (hext_length _ _ hx1)
    obtain ⟨hx2, hr2, hvs⟩ := ih (f h v).2 hn1 hr1
    refine ⟨hext_trans _ _ _ hx1 hx2, hr2, ?_⟩
    intro w hw
    have hw2 : w ∈ (f h v).1 :: (cloneList f (f h v).2 rest).1 := hw
    rcases List.mem_cons.mp hw2 with h2 | h2
    · rw [h2]; exact hv1
    · exact hvs w h2

theorem clonePairs_spec (f : Heap → HVal → HVal × Heap) (n : Nat)
    (hf : ∀ h v, n ≤ h.length → RegionOK n h →
      HExt h (f h v).2 ∧ RegionOK n (f h v).2 ∧ ValOK n (f h v).1) :
    ∀ (l : List (String × HVal)) (h : Heap), n ≤ h.length → RegionOK n h →
      HExt h (clonePairs f h l).2 ∧ RegionOK n (clonePairs f h l).2
      ∧ ∀ p ∈ (clonePairs f h l).1, ValOK n p.2 := by
  intro l
  induction l with
  | nil =>
    intro h hn hreg
    exact ⟨hext_refl h, hreg, fun p hp => absurd hp (List.not_mem_nil p)⟩
  | cons q rest ih =>
    obtain ⟨k, v⟩ := q
    intro h hn hreg
    obtain ⟨hx1, hr1, hv1⟩ := hf h v hn hreg
    have hn1 : n ≤ (f h v).2.length := le_trans hn (hext_length _ _ hx1)
    obtain ⟨hx2, hr2, hvs⟩ := ih (f h v).2 hn1 hr1
    refine ⟨hext_trans _ _ _ hx1 hx2, hr2, ?_⟩
    intro p hp
    have hp2 : p ∈ (k, (f h v).1) :: (clonePairs f (f h v).2 rest).1 := hp
    rcases List.mem_cons.mp hp2 with h2 | h2
    · rw [h2]; exact hv1
    · exact hvs p h2

theorem cloneVal_spec (n : Nat) :
    ∀ (fuel : Nat) (h : Heap) (v : HVal), n ≤ h.length → RegionOK n h →
      HExt h (cloneVal fuel h v).2 ∧ RegionOK n (cloneVal fuel h v).2
      ∧ ValOK n (cloneVal fuel h v).1 := by
  intro fuel
  induction fuel with
  | zero =>
    intro h v hn hreg
    exact ⟨hext_refl h, hreg, fun a ha => nomatch ha⟩
  | succ fuel ih =>
    intro h v hn hreg
    cases v with
    | vref a =>
      cases hc : h.get? a with
      | none =>
        simp only [cloneVal, hc]
        exact ⟨hext_refl h, hreg, fun b hb => absurd hb (by simp)⟩
      | some cell =>
        cases cell with
        | carr items =>
          simp only [cloneVal, hc]
          obtain ⟨hx1, hr1, hvs⟩ :=
            cloneList_spec (fun hh w => cloneVal fuel hh w) n ih items h hn hreg
          refine ⟨hext_trans _ _ _ hx1 (hext_snoc _ _), ?_, ?_⟩
          · intro a2 c2 hna2 hget
            by_cases hl : a2 < (cloneList (fun hh w => cloneVal fuel hh w) h items).2.length
            · rw [get?_append_lt _ _ _ hl] at hget
              exact hr1 a2 c2 hna2 hget
            · rw [get?_append_ge _ _ _ (Nat.le_of_not_lt hl)] at hget
              cases hd : a2 - (cloneList (fun hh w => cloneVal fuel hh w) h items).2.length with
              | zero =>
                rw [hd] at hget
                injection hget with hget
                subst hget
                intro r hr
                have hw := itemRefs_mem _ r hr
                exact hvs _ hw r rfl
              | succ d2 =>
                rw [hd] at hget
                exact absurd hget (by simp)
          · intro b hb
            injection hb with hb
            subst hb
            exact le_trans hn (hext_length _ _ hx1)
        | cobj fs =>
          simp only [cloneVal, hc]
          obtain ⟨hx1, hr1, hvs⟩ :=
            clonePairs_spec (fun hh w => cloneVal fuel hh w) n ih fs h hn hreg
          refine ⟨hext_trans _ _ _ hx1 (hext_snoc _ _), ?_, ?_⟩
          · intro a2 c2 hna2 hget
            by_cases hl : a2 < (clonePairs (fun hh w => cloneVal fuel hh w) h fs).2.length
            · rw [get?_append_lt _ _ _ hl] at hget
              exact hr1 a2 c2 hna2 hget
            · rw [get?_append_ge _ _ _ (Nat.le_of_not_lt hl)] at hget
              cases hd : a2 - (clonePairs (fun hh w => cloneVal fuel hh w) h fs).2.length with
              | zero =>
                rw [hd] at hget
                injection hget with hget
                subst hget
                intro r hr
                obtain ⟨p, hp, hpr⟩ := fieldRefs_mem _ r hr
                exact hvs p hp r hpr
              | succ d2 =>
                rw [hd] at hget
                exact absurd hget (by simp)
          · intro b hb
            injection hb with hb
            subst hb
            exact le_trans hn (hext_length _ _ hx1)
    | vnull =>
      exact ⟨hext_refl h, hreg, fun b hb => nomatch hb⟩
    | vbool b2 =>
      exact ⟨hext_refl h, hreg, fun b hb => nomatch hb⟩
    | vnum n2 =>
      exact ⟨hext_refl h, hreg, fun b hb => nomatch hb⟩
    | vstr s =>
      exact ⟨hext_refl h, hreg, fun b hb => nomatch hb⟩

end HeapModel

namespace HeapModel

theorem cell_field_valOK (n : Nat) (h : Heap) (a : Nat) (fs : List (String × HVal))
    (hna : n ≤ a) (hreg : RegionOK n h) (hc : h.get? a = some (.cobj fs)) :
    ∀ p ∈ fs, ValOK n p.2 := by
  intro p hp b hb
  exact hreg a _ hna hc b (mem_fieldRefs_of_mem fs p hp b hb)

theorem cell_item_valOK (n : Nat) (h : Heap) (a : Nat) (items : List HVal)
    (hna : n ≤ a) (hreg : RegionOK n h) (hc : h.get? a = some (.carr items)) :
    ∀ w ∈ items, ValOK n w := by
  intro w hw b hb
  exact hreg a _ hna hc b (mem_itemRefs_of_mem items w hw b hb)

theorem applyVarObjH_frame (res : List (String × String)) (n : Nat) (h : Heap)
    (a : Nat) (hna : n ≤ a) (hreg : RegionOK n h) :
    (applyVarObjH res h a).take n = h.take n ∧ RegionOK n (applyVarObjH res h a) := by
  unfold applyVarObjH
  split
  · next fs hc =>
    split
    · next s hv =>
      split
      · next r hg =>
        split
        · next ht =>
          constructor
          · exact take_set_of_le h a _ n hna
          · apply regionOK_set n h a _ hreg
            intro r2 hr2
            have h2 := mem_fieldRefs_setF_str _ "variable" r r2 hr2
            have h3 : r2 ∈ fieldRefs fs := by
              split at h2
              · exact mem_fieldRefs_setF_str _ _ _ r2 h2
              · split at h2
                · exact mem_fieldRefs_setF_str _ _ _ r2 h2
                · exact h2
            exact hreg a (.cobj fs) hna hc r2 h3
        · exact ⟨rfl, hreg⟩
      · exact ⟨rfl, hreg⟩
    · exact ⟨rfl, hreg⟩
  · exact ⟨rfl, hreg⟩

theorem applyItems_frame (res : List (String × String)) (f : HVal → Heap → Heap)
    (n : Nat)
    (hf : ∀ v h, ValOK n v → RegionOK n h →
      (f v h).take n = h.take n ∧ RegionOK n (f v h)) :
    ∀ (items : List HVal) (h : Heap), (∀ w ∈ items, ValOK n w) → RegionOK n h →
      (applyItems res f items h).take n = h.take n
      ∧ RegionOK n (applyItems res f items h) := by
  intro items
  induction items with
  | nil => intro h _ hreg; exact ⟨rfl, hreg⟩
  | cons item rest ih =>
    intro h hvals hreg
    have hval : ValOK n item := hvals item (List.mem_cons_self _ _)
    have hrest : ∀ w ∈ rest, ValOK n w := fun w hw => hvals w (List.mem_cons_of_mem _ hw)
    by_cases hio : hItemIsVarObj h item = true
    · cases item with
      | vref a =>
        have hfr := applyVarObjH_frame res n h a (hval a rfl) hreg
        have he : applyItems res f (.vref a :: rest) h
            = applyItems res f rest (applyVarObjH res h a) := by
          conv_lhs => rw [applyItems]
          rw [if_pos hio]
          rfl
        rw [he]
        obtain ⟨ht2, hr2⟩ := ih (applyVarObjH res h a) hrest hfr.2
        exact ⟨ht2.trans hfr.1, hr2⟩
      | vnull => exact absurd hio (by simp [hItemIsVarObj])
      | vbool b => exact absurd hio (by simp [hItemIsVarObj])
      | vnum n2 => exact absurd hio (by simp [hItemIsVarObj])
      | vstr s => exact absurd hio (by simp [hItemIsVarObj])
    · have hfr := hf item h hval hreg
      have he : applyItems res f (item :: rest) h
          = applyItems res f rest (f item h) := by
        conv_lhs => rw [applyItems]
        rw [if_neg hio]
      rw [he]
      obtain ⟨ht2, hr2⟩ := ih (f item h) hrest hfr.2
      exact ⟨ht2.trans hfr.1, hr2⟩

theorem applyFieldVals_frame (f : HVal → Heap → Heap) (n : Nat)
    (hf : ∀ v h, ValOK n v → RegionOK n h →
      (f v h).take n = h.take n ∧ RegionOK n (f v h)) :
    ∀ (fs : List (String × HVal)) (h : Heap), (∀ p ∈ fs, ValOK n p.2) →
      RegionOK n h →
      (applyFieldVals f fs h).take n = h.take n
      ∧ RegionOK n (applyFieldVals f fs h) := by
  intro fs
  induction fs with
  | nil => intro h _ hreg; exact ⟨rfl, hreg⟩
  | cons p rest ih =>
    obtain ⟨k, v⟩ := p
    intro h hvals hreg
    have hval : ValOK n v := hvals (k, v) (List.mem_cons_self _ _)
    have hrest : ∀ q ∈ rest, ValOK n q.2 := fun q hq => hvals q (List.mem_cons_of_mem _ hq)
    have hfr := hf v h hval hreg
    have he : applyFieldVals f ((k, v) :: rest) h = applyFieldVals f rest (f v h) := rfl
    rw [he]
    obtain ⟨ht2, hr2⟩ := ih (f v h) hrest hfr.2
    exact ⟨ht2.trans hfr.1, hr2⟩

theorem applyResolutionsH_frame (res : List (String × String)) (n : Nat) :
    ∀ (fuel : Nat) (v : HVal) (h : Heap), ValOK n v → RegionOK n h →
      (applyResolutionsH res fuel v h).take n = h.take n
      ∧ RegionOK n (applyResolutionsH res fuel v h) := by
  intro fuel
  induction fuel with
  | zero => intro v h _ hreg; exact ⟨rfl, hreg⟩
  | succ fuel ih =>
    intro v h hval hreg
    cases v with
    | vref a =>
      cases hc : h.get? a with
      | none =>
        have he : applyResolutionsH res (fuel + 1) (.vref a) h = h := by
          conv_lhs => rw [applyResolutionsH]
          rw [show (!hvalTruthy (.vref a)) = false from rfl]
          simp only [Bool.false_eq_true, if_false, hc]
        rw [he]
        exact ⟨rfl, hreg⟩
      | some cell =>
        cases cell with
        | carr items =>
          have he : applyResolutionsH res (fuel + 1) (.vref a) h
              = applyItems res (fun w hh => applyResolutionsH res fuel w hh) items h := by
            conv_lhs => rw [applyResolutionsH]
            rw [show (!hvalTruthy (.vref a)) = false from rfl]
            simp only [Bool.false_eq_true, if_false, hc]
          rw [he]
          exact applyItems_frame res _ n (fun v2 h2 hv2 hr2 => ih v2 h2 hv2 hr2)
            items h (cell_item_valOK n h a items (hval a rfl) hreg hc) hreg
        | cobj fs =>
          by_cases hlk : (lookupF fs "variable").isSome = true
          · have hfr := applyVarObjH_frame res n h a (hval a rfl) hreg
            have he : applyResolutionsH res (fuel + 1) (.vref a) h
                = match (applyVarObjH res h a).get? a with
                  | some (.cobj fs1) =>
                    applyFieldVals (fun w hh => applyResolutionsH res fuel w hh)
                      fs1 (applyVarObjH res h a)
                  | _ => applyVarObjH res h a := by
              conv_lhs => rw [applyResolutionsH]
              rw [show (!hvalTruthy (.vref a)) = false from rfl]
              simp only [Bool.false_eq_true, if_false, hc, hlk, if_true]
            rw [he]
            cases hc1 : (applyVarObjH res h a).get? a with
            | none => exact hfr
            | some cell1 =>
              cases cell1 with
              | carr items1 => exact hfr
              | cobj fs1 =>
                obtain ⟨ht2, hr2⟩ := applyFieldVals_frame _ n
                  (fun v2 h2 hv2 hr2 => ih v2 h2 hv2 hr2) fs1 (applyVarObjH res h a)
                  (cell_field_valOK n _ a fs1 (hval a rfl) hfr.2 hc1) hfr.2
                exact ⟨ht2.trans hfr.1, hr2⟩
          · have he : applyResolutionsH res (fuel + 1) (.vref a) h
                = applyFieldVals (fun w hh => applyResolutionsH res fuel w hh) fs h := by
              conv_lhs => rw [applyResolutionsH]
              rw [show (!hvalTruthy (.vref a)) = false from rfl]
              simp only [Bool.false_eq_true, if_false, hc, hlk]
            rw [he]
            exact applyFieldVals_frame _ n (fun v2 h2 hv2 hr2 => ih v2 h2 hv2 hr2)
              fs h (cell_field_valOK n h a fs (hval a rfl) hreg hc) hreg
    | vnull => exact ⟨rfl, hreg⟩
    | vbool b =>
      cases b with
      | true => exact ⟨rfl, hreg⟩
      | false => exact ⟨rfl, hreg⟩
    | vnum n2 =>
      have he : applyResolutionsH res (fuel + 1) (.vnum n2) h = h := by
        show (if (!hvalTruthy (.vnum n2)) = true then h else h) = h
        exact ite_self h
      rw [he]
      exact ⟨rfl, hreg⟩
    | vstr s =>
      have he : applyResolutionsH res (fuel + 1) (.vstr s) h = h := by
        show (if (!hvalTruthy (.vstr s)) = true then h else h) = h
        exact ite_self h
      rw [he]
      exact ⟨rfl, hreg⟩

end HeapModel

namespace HeapModel

theorem textEntriesH_frame (textStyles : List DesignTokens.TextStyleMapping)
    (n sa : Nat) (hna : n ≤ sa) :
    ∀ (entries : List (String × HVal)) (h : Heap), RegionOK n h →
      (textEntriesH textStyles sa entries h).take n = h.take n
      ∧ RegionOK n (textEntriesH textStyles sa entries h) := by
  intro entries
  induction entries with
  | nil => intro h hreg; exact ⟨rfl, hreg⟩
  | cons e rest ih =>
    obtain ⟨styleId, styleData⟩ := e
    intro h hreg
    by_cases hcond : (hvalTruthy styleData && (refAddr styleData).isSome) = true
    · cases hnm : textEntryNameH textStyles h styleData with
      | none =>
        have he : textEntriesH textStyles sa ((styleId, styleData) :: rest) h
            = textEntriesH textStyles sa rest h := by
          conv_lhs => rw [textEntriesH]
          simp only [hcond, hnm, eq_self_iff_true, if_true]
        rw [he]
        exact ih h hreg
      | some nm =>
        by_cases htn : Js.truthyStr nm = true
        · cases hcs : h.get? sa with
          | none =>
            have he : textEntriesH textStyles sa ((styleId, styleData) :: rest) h
                = textEntriesH textStyles sa rest h := by
              conv_lhs => rw [textEntriesH]
              simp only [hcond, hnm, htn, hcs, eq_self_iff_true, if_true]
            rw [he]
            exact ih h hreg
          | some c =>
            have he : textEntriesH textStyles sa ((styleId, styleData) :: rest) h
                = textEntriesH textStyles sa rest
                    (h.set sa (cellSetEntry c styleId (.vstr nm))) := by
              conv_lhs => rw [textEntriesH]
              simp only [hcond, hnm, htn, hcs, eq_self_iff_true, if_true]
            rw [he]
            have hsub : ∀ r ∈ cellRefs (cellSetEntry c styleId (.vstr nm)), n ≤ r := by
              intro r hr
              exact hreg sa c hna hcs r (mem_cellRefs_cellSetEntry_str c styleId nm r hr)
            obtain ⟨ht2, hr2⟩ := ih _ (regionOK_set n h sa _ hreg hsub)
            exact ⟨ht2.trans (take_set_of_le h sa _ n hna), hr2⟩
        · have htn2 : Js.truthyStr nm = false := by
            cases hb : Js.truthyStr nm with
            | true => exact absurd hb htn
            | false => rfl
          have he : textEntriesH textStyles sa ((styleId, styleData) :: rest) h
              = textEntriesH textStyles sa rest h := by
            conv_lhs => rw [textEntriesH]
            simp only [hcond, hnm, htn2, eq_self_iff_true, if_true,
              Bool.false_eq_true, if_false]
          rw [he]
          exact ih h hreg
    · have hcond2 : (hvalTruthy styleData && (refAddr styleData).isSome) = false := by
        cases hb : (hvalTruthy styleData && (refAddr styleData).isSome) with
        | true => exact absurd hb hcond
        | false => rfl
      have he : textEntriesH textStyles sa ((styleId, styleData) :: rest) h
          = textEntriesH textStyles sa rest h := by
        conv_lhs => rw [textEntriesH]
        simp only [hcond2, Bool.false_eq_true, if_false]
      rw [he]
      exact ih h hreg

theorem resolveTextStylesH_frame (textStyles : List DesignTokens.TextStyleMapping)
    (n : Nat) (root : HVal) (h : Heap)
    (hroot : ValOK n root) (hreg : RegionOK n h) :
    (resolveTextStylesH textStyles root h).take n = h.take n
    ∧ RegionOK n (resolveTextStylesH textStyles root h) := by
  cases hst : hStylesVal h root with
  | none =>
    have hgoal : resolveTextStylesH textStyles root h = h := by
      unfold resolveTextStylesH
      rw [hst]
    rw [hgoal]
    exact ⟨rfl, hreg⟩
  | some st =>
    have hstOK := hStylesVal_valOK n h root st hroot hreg hst
    cases st with
    | vref sa =>
      have hgoal : resolveTextStylesH textStyles root h
          = match h.get? sa with
            | some c => textEntriesH textStyles sa (cellEntries c) h
            | none => h := by
        unfold resolveTextStylesH
        rw [hst]
      rw [hgoal]
      cases hc : h.get? sa with
      | none => exact ⟨rfl, hreg⟩
      | some c =>
        exact textEntriesH_frame textStyles n sa (hstOK sa rfl) (cellEntries c) h hreg
    | vnull =>
      have hgoal : resolveTextStylesH textStyles root h = h := by
        unfold resolveTextStylesH
        rw [hst]
      rw [hgoal]
      exact ⟨rfl, hreg⟩
    | vbool b =>
      have hgoal : resolveTextStylesH textStyles root h = h := by
        unfold resolveTextStylesH
        rw [hst]
      rw [hgoal]
      exact ⟨rfl, hreg⟩
    | vnum n2 =>
      have hgoal : resolveTextStylesH textStyles root h = h := by
        unfold resolveTextStylesH
        rw [hst]
      rw [hgoal]
      exact ⟨rfl, hreg⟩
    | vstr s =>
      have hgoal : resolveTextStylesH textStyles root h = h := by
        unfold resolveTextStylesH
        rw [hst]
      rw [hgoal]
      exact ⟨rfl, hreg⟩

theorem applyPhaseH_frame (res : List (String × String)) (fuel : Nat) (n : Nat)
    (root : HVal) (h : Heap) (hroot : ValOK n root) (hreg : RegionOK n h) :
    (applyPhaseH res fuel root h).take n = h.take n
    ∧ RegionOK n (applyPhaseH res fuel root h) := by
  cases hst : hStylesVal h root with
  | none =>
    have hgoal : applyPhaseH res fuel root h = h := by
      unfold applyPhaseH
      rw [hst]
    rw [hgoal]
    exact ⟨rfl, hreg⟩
  | some st =>
    have hgoal : applyPhaseH res fuel root h
        = (hValues h st).foldl (fun hh sv => applyResolutionsH res fuel sv hh) h := by
      unfold applyPhaseH
      rw [hst]
    rw [hgoal]
    have hstOK := hStylesVal_valOK n h root st hroot hreg hst
    have hvals := hValues_valOK n h st hstOK hreg
    have hfold : ∀ (svs : List HVal) (h2 : Heap), (∀ w ∈ svs, ValOK n w) →
        RegionOK n h2 →
        (svs.foldl (fun hh sv => applyResolutionsH res fuel sv hh) h2).take n
          = h2.take n
        ∧ RegionOK n (svs.foldl (fun hh sv => applyResolutionsH res fuel sv hh) h2) := by
      intro svs
      induction svs with
      | nil => intro h2 _ hr2; exact ⟨rfl, hr2⟩
      | cons sv rest ih =>
        intro h2 hws hr2
        have h1 := applyResolutionsH_frame res n fuel sv h2
          (hws sv (List.mem_cons_self _ _)) hr2
        obtain ⟨ht2, hr3⟩ := ih (applyResolutionsH res fuel sv h2)
          (fun w hw => hws w (List.mem_cons_of_mem _ hw)) h1.2
        exact ⟨ht2.trans h1.1, hr3⟩
    exact hfold (hValues h st) h hvals hreg

end HeapModel

/-- C4: `resolveVariablesInDesign` operates on a full deep copy and never
mutates its argument.  Over the heap embedding: for every fuel, mapping
table, text-style table, design root and heap, every cell of the original
heap is unchanged by the call — the final heap restricted to the original
addresses is the original heap.  In particular every field of the original
simplified design, including every entry of `globalVars.styles`, still
reads back exactly as before the call. -/
theorem C4_no_input_mutation (fuel : Nat) (T : List VariableMapping)
    (TS : List DesignTokens.TextStyleMapping) (d : HeapModel.HVal)
    (h : HeapModel.Heap) :
    ((HeapModel.resolveVariablesInDesignH fuel T TS d h).2).take h.length = h := by
  have hreg0 : HeapModel.RegionOK h.length h := by
    intro a c hna hget
    rw [HeapModel.get?_ge_none h a hna] at hget
    exact absurd hget (by simp)
  obtain ⟨hx1, hr1, hv1⟩ :=
    HeapModel.cloneVal_spec h.length fuel h d (le_refl _) hreg0
  obtain ⟨ht2, hr2⟩ := HeapModel.applyPhaseH_frame
    (PostResolve.buildResolutions T
      (HeapModel.collectPhaseH fuel (HeapModel.cloneVal fuel h d).1
        (HeapModel.cloneVal fuel h d).2))
    fuel h.length (HeapModel.cloneVal fuel h d).1 (HeapModel.cloneVal fuel h d).2
    hv1 hr1
  obtain ⟨ht3, hr3⟩ := HeapModel.resolveTextStylesH_frame TS h.length
    (HeapModel.cloneVal fuel h d).1
    (HeapModel.applyPhaseH
      (PostResolve.buildResolutions T
        (HeapModel.collectPhaseH fuel (HeapModel.cloneVal fuel h d).1
          (HeapModel.cloneVal fuel h d).2))
      fuel (HeapModel.cloneVal fuel h d).1 (HeapModel.cloneVal fuel h d).2)
    hv1 hr2
  show (HeapModel.resolveTextStylesH TS (HeapModel.cloneVal fuel h d).1
      (HeapModel.applyPhaseH
        (PostResolve.buildResolutions T
          (HeapModel.collectPhaseH fuel (HeapModel.cloneVal fuel h d).1
            (HeapModel.cloneVal fuel h d).2))
        fuel (HeapModel.cloneVal fuel h d).1
        (HeapModel.cloneVal fuel h d).2)).take h.length = h
  rw [ht3, ht2]
  exact HeapModel.hext_take h (HeapModel.cloneVal fuel h d).2 hx1
